import Mathlib

/-!
Verification development for the freeclaw chat-gateway core.

The TypeScript sources are shallowly embedded here:

* `src/src/auto-reply/reply/proofread-transform.ts` — the resilient
  structured-response parser (`stripEmotionTags`, `stripCodeFences`,
  `fixTrailingCommas`, `repairJsonNewlines`, `parseProofreadResponse`),
  the completion-call retry logic of `proofreadText`, and the TTS
  directive codec (`maybeProofreadPayload` encoding,
  `stripTtsDirectivesForDisplay`, voice-hint extraction).
* `src/telegram/tool-update-tracker.ts` — the streaming update
  coalescer (`handleToolUpdate`, `flushEdit`, `cleanup`, `stop`),
  modelled as an explicit state machine with a virtual clock and a
  transcript of transport calls.

Strings are modelled as `List Char`.  The host `JSON.parse` builtin is an
external collaborator; where a claim does not depend on its concrete
semantics it is abstracted as an oracle `Str → Option JsonV` (a thrown
exception is `none`).  Where a claim does depend on it, `jsonParse` below
implements the strict JSON grammar (objects, arrays, strings with the
standard single-character escapes, numbers, literals; `\uXXXX` escapes
are outside the model's scope).
-/

set_option maxRecDepth 8192
set_option linter.unusedVariables false

namespace Freeclaw

abbrev Str := List Char

/-- JavaScript regex `\s` / `trim` whitespace, restricted to the ASCII
whitespace characters that occur in this code's data. -/
def isWsChar (c : Char) : Bool :=
  c = ' ' || c = '\t' || c = '\n' || c = '\r' || c = '\x0b' || c = '\x0c'

/-- JSON structural whitespace (RFC 8259): space, tab, newline, return. -/
def isJsonWs (c : Char) : Bool :=
  c = ' ' || c = '\t' || c = '\n' || c = '\r'

/-- JavaScript `String.prototype.trim` on both ends. -/
def trimStr (s : Str) : Str :=
  ((s.dropWhile isWsChar).reverse.dropWhile isWsChar).reverse

/-- JavaScript `String.prototype.trimEnd`. -/
def trimEndStr (s : Str) : Str :=
  (s.reverse.dropWhile isWsChar).reverse

/-- Regex `\w` with the unicode flag off: ASCII letters, digits, underscore. -/
def isWordChar (c : Char) : Bool :=
  ('a' ≤ c && c ≤ 'z') || ('A' ≤ c && c ≤ 'Z') || ('0' ≤ c && c ≤ '9') || c = '_'

/-- Character class `[\w\s,.'!?-]` inside the emotion-tag regex. -/
def isTagInner (c : Char) : Bool :=
  isWordChar c || isWsChar c || c = ',' || c = '.' || c = '\'' || c = '!' || c = '?' || c = '-'

/-- `startsWithStr pat s`: `pat` is a literal prefix of `s`. -/
def startsWithStr : Str → Str → Bool
  | [], _ => true
  | _ :: _, [] => false
  | p :: ps, c :: cs => p = c && startsWithStr ps cs

/-- `endsWithStr pat s`: `pat` is a literal suffix of `s`. -/
def endsWithStr (pat s : Str) : Bool :=
  startsWithStr pat.reverse s.reverse

theorem dropWhileLen (p : Char → Bool) (l : Str) :
    (l.dropWhile p).length ≤ l.length := by
  induction l with
  | nil => simp [List.dropWhile]
  | cons c cs ih =>
    simp only [List.dropWhile]
    cases hp : p c
    · simp
    · simpa using Nat.le_succ_of_le ih

/-- Attempt the emotion-tag regex `\s*\[[\w\s,.'!?-]+\]\s*` at the head of
`s`; on success return the number of characters the match consumes. -/
def emoTryLen (s : Str) : Option Nat :=
  let w := s.takeWhile isWsChar
  match s.dropWhile isWsChar with
  | '[' :: r2 =>
    match r2.takeWhile isTagInner, r2.dropWhile isTagInner with
    | _ :: _, ']' :: r4 =>
      some (w.length + 1 + (r2.takeWhile isTagInner).length + 1 +
        (r4.takeWhile isWsChar).length)
    | _, _ => none
  | _ => none

/-- One global-replace pass of `/\s*\[[\w\s,.'!?-]+\]\s*/g` with `" "`:
at each position attempt a match; on success emit a single space and
skip the matched span, otherwise copy one character and move on.
A positive first argument skips that many characters of pending span. -/
def emoGo : Nat → Str → Str
  | _, [] => []
  | skip + 1, _ :: rest => emoGo skip rest
  | 0, c :: rest =>
    match emoTryLen (c :: rest) with
    | some k => ' ' :: emoGo (k - 1) rest
    | none => c :: emoGo 0 rest

def emoScan (s : Str) : Str := emoGo 0 s

/-- One global-replace pass of `/\s{2,}/g` with `" "`: a run of two or
more whitespace characters collapses to a single space. -/
def wscGo : Nat → Str → Str
  | _, [] => []
  | skip + 1, _ :: rest => wscGo skip rest
  | 0, c :: rest =>
    if isWsChar c then
      match rest with
      | d :: _ =>
        if isWsChar d then ' ' :: wscGo (rest.takeWhile isWsChar).length rest
        else c :: wscGo 0 rest
      | [] => [c]
    else c :: wscGo 0 rest

def wsCollapse (s : Str) : Str := wscGo 0 s

/-- `stripEmotionTags` from proofread-transform.ts:
`.replace(/\s*\[[\w\s,.'!?-]+\]\s*/g, " ").replace(/\s{2,}/g, " ").trim()`. -/
def stripEmotionTags (s : Str) : Str :=
  trimStr (wsCollapse (emoScan s))

/-- The three-backtick fence marker. -/
def btTok : Str := ['`', '`', '`']

/-- Find the first occurrence of ```` ``` ```` ; return the remainder
after it.  Models the lazy `([\s\S]*?)` + closing fence search. -/
def findTriple : Str → Option (Str × Str)
  | [] => none
  | s@(c :: rest) =>
    if startsWithStr btTok s then some ([], s.drop 3)
    else (findTriple rest).map (fun p => (c :: p.1, p.2))

/-- Regex fragment `\s*\n` with backtracking: the whitespace run at the
head of `s` must contain a newline; the engine consumes through the
*last* newline of the run and the remainder starts just after it. -/
def wsRunNl (s : Str) : Option Str :=
  let w := s.takeWhile isWsChar
  let r := s.dropWhile isWsChar
  if w.contains '\n' then
    some ((w.reverse.takeWhile (fun c => !(c = '\n'))).reverse ++ r)
  else none

/-- Try one tag alternative of `(?:json|JSON)?` at `r` (text after an
opening ```` ``` ````): tag, then `\s*\n`, then the lazy body up to the
first closing fence; returns the fenced body (regex group 1). -/
def fenceTagAttempt (tag : Str) (r : Str) : Option Str :=
  if startsWithStr tag r then
    match wsRunNl (r.drop tag.length) with
    | some rem => (findTriple rem).map (·.1)
    | none => none
  else none

/-- All alternatives of the tag group, in regex order. -/
def fenceTags : Option Str → Option Str := id

/-- Search for the first full match of
`/```(?:json|JSON)?\s*\n([\s\S]*?)```/` anywhere in `s`; returns group 1. -/
def fenceSearch : Str → Option Str
  | [] => none
  | s@(c :: rest) =>
    if startsWithStr btTok s then
      match fenceTagAttempt "json".data (s.drop 3) with
      | some inner => some inner
      | none =>
        match fenceTagAttempt "JSON".data (s.drop 3) with
        | some inner => some inner
        | none =>
          match fenceTagAttempt [] (s.drop 3) with
          | some inner => some inner
          | none => fenceSearch rest
    else fenceSearch rest

/-- Drop a leading `/^```(?:json|JSON)?\s*\n?/` match, if any. -/
def openFenceDrop (s : Str) : Option Str :=
  if startsWithStr btTok s then
    let r := s.drop 3
    let r2 :=
      if startsWithStr "json".data r then r.drop 4
      else if startsWithStr "JSON".data r then r.drop 4
      else r
    some (r2.dropWhile isWsChar)
  else none

/-- `opt.getOrElse d`, named for rewriting. -/
def fromOpt (d : Str) : Option Str → Str
  | some r => r
  | none => d

/-- `stripCodeFences` from proofread-transform.ts: prefer a fenced block
anywhere in the text; otherwise strip fence markers at the boundaries. -/
def stripCodeFences (raw : Str) : Str :=
  match fenceSearch (trimStr raw) with
  | some inner => trimStr inner
  | none =>
    let s1 := fromOpt (trimStr raw) (openFenceDrop (trimStr raw))
    if endsWithStr btTok s1 then trimEndStr (s1.take (s1.length - 3)) else s1

/-- The regex `(\{[\s\S]*\})`: greedy match from the first `{` to the
last `}`; `none` when there is no such span. -/
def extractBraces (s : Str) : Option Str :=
  let pre := s.dropWhile (fun c => !(c = '{'))
  let revPart := pre.reverse.dropWhile (fun c => !(c = '}'))
  if revPart.isEmpty then none else some revPart.reverse

/-- `jsonMatch?.[1]?.trim() ?? stripped.trim()`. -/
def jsonStrOf (stripped : Str) : Str :=
  match extractBraces stripped with
  | some m => trimStr m
  | none => trimStr stripped

/-- `fixTrailingCommas`: one global-replace pass of `/,\s*([}\]])/g`
with `"$1"`.  At a comma whose whitespace run ends at a closing brace or
bracket, the match (comma, run, bracket) is replaced by the bracket
alone; a positive first argument skips pending matched span. -/
def ftcGo : Nat → Str → Str
  | _, [] => []
  | skip + 1, _ :: rest => ftcGo skip rest
  | 0, c :: rest =>
    if c = ',' then
      match rest.dropWhile isWsChar with
      | b :: _ =>
        if b = '}' || b = ']' then
          b :: ftcGo ((rest.takeWhile isWsChar).length + 1) rest
        else c :: ftcGo 0 rest
      | [] => c :: ftcGo 0 rest
    else c :: ftcGo 0 rest

def fixTrailingCommas (s : Str) : Str := ftcGo 0 s

/-- The character scan of `repairJsonNewlines`, tracking backslash-escape
state and quote state; literal newlines and carriage returns are escaped
only while inside a quoted string. -/
def repairGo : Bool → Bool → Str → Str
  | _, _, [] => []
  | true, inS, c :: rest => c :: repairGo false inS rest
  | false, inS, c :: rest =>
    if c = '\\' then c :: repairGo true inS rest
    else if c = '"' then c :: repairGo false (!inS) rest
    else if inS && c = '\n' then '\\' :: 'n' :: repairGo false inS rest
    else if inS && c = '\r' then '\\' :: 'r' :: repairGo false inS rest
    else c :: repairGo false inS rest

/-- `repairJsonNewlines` from proofread-transform.ts. -/
def repairJsonNewlines (s : Str) : Str := repairGo false false s

/-- The value space of the host `JSON.parse`.  Numbers keep their source
literal: none of the embedded code inspects numeric magnitude beyond
JavaScript truthiness, which `jsTruthy` derives from the literal. -/
inductive JsonV where
  | jnull
  | jbool (b : Bool)
  | jnum (lit : Str)
  | jstr (s : Str)
  | jarr (elems : List JsonV)
  | jobj (fields : List (Str × JsonV))

/-- JavaScript truthiness of a parsed JSON value (`if (parsed)`). -/
def jsTruthy : JsonV → Bool
  | .jnull => false
  | .jbool b => b
  | .jstr s => !s.isEmpty
  | .jarr _ => true
  | .jobj _ => true
  | .jnum lit =>
    (lit.takeWhile (fun c => !(c = 'e') && !(c = 'E'))).any
      (fun c => '1' ≤ c && c ≤ '9')

/-- Property lookup on a JS object built by `JSON.parse`: with duplicate
keys the last occurrence wins; non-objects have none of the fields this
code reads. -/
def getField : JsonV → Str → Option JsonV
  | .jobj kvs, k => (kvs.reverse.find? (fun kv => kv.1 = k)).map (·.2)
  | _, _ => none

/-- `typeof parsed.k === "string" ? parsed.k : none`. -/
def getStrField (v : JsonV) (k : Str) : Option Str :=
  match getField v k with
  | some (.jstr s) => some s
  | _ => none

/-- The structured result type (`ProofreadResult`). -/
structure ProofreadResult where
  corrected_text : Str
  corrected_voice : Str
  changes : List Str
  unchanged : Bool
  error : Option Str
deriving DecidableEq

/-- Field extraction from a successfully parsed (truthy) JSON value:
`corrected_voice`, legacy `corrected`, fallback to the original text;
display text from `corrected_text` or by tag-stripping the voice text;
`changes` keeps only string entries; `unchanged` only on literal `true`. -/
def extractFields (v : JsonV) (orig : Str) : ProofreadResult :=
  let cv :=
    match getStrField v "corrected_voice".data with
    | some s => s
    | none =>
      match getStrField v "corrected".data with
      | some s => s
      | none => orig
  let ct :=
    match getStrField v "corrected_text".data with
    | some s => s
    | none => stripEmotionTags cv
  let chs :=
    match getField v "changes".data with
    | some (.jarr xs) =>
      xs.filterMap (fun x => match x with | .jstr s => some s | _ => none)
    | _ => []
  let un :=
    match getField v "unchanged".data with
    | some (.jbool true) => true
    | _ => false
  { corrected_text := ct
    corrected_voice := cv
    changes := chs
    unchanged := un
    error := none }

/-- The diagnostic error string of the no-candidate branch:
`JSON parse failed (raw N chars, stripped M chars)`. -/
def parseFailError (rawLen strippedLen : Nat) : Str :=
  "JSON parse failed (raw ".data ++ (Nat.repr rawLen).data ++
    " chars, stripped ".data ++ (Nat.repr strippedLen).data ++ " chars)".data

/-- The passthrough result of the no-candidate branch: both texts come
from the original input, never from the model output. -/
def parseFailResult (raw stripped orig : Str) : ProofreadResult :=
  { corrected_text := stripEmotionTags orig
    corrected_voice := orig
    changes := []
    unchanged := true
    error := some (parseFailError raw.length stripped.length) }

/-- The four candidates of the repair cascade, in source order. -/
def proofreadCandidates (raw : Str) : List Str :=
  let stripped := stripCodeFences raw
  let js := jsonStrOf stripped
  [js, fixTrailingCommas js, repairJsonNewlines js,
    repairJsonNewlines (fixTrailingCommas js)]

/-- The `for … { try { parsed = JSON.parse(candidate); break } catch {} }`
loop: the first candidate the oracle parses wins. -/
def firstParse (jp : Str → Option JsonV) : List Str → Option JsonV
  | [] => none
  | c :: cs =>
    match jp c with
    | some v => some v
    | none => firstParse jp cs

/-- `parseProofreadResponse raw originalText`, parameterised by the host
JSON parser `jp` (a throw is `none`). -/
def parseProofreadResponse (jp : Str → Option JsonV) (raw orig : Str) :
    ProofreadResult :=
  let stripped := stripCodeFences raw
  match firstParse jp (proofreadCandidates raw) with
  | some v =>
    if jsTruthy v then extractFields v orig else parseFailResult raw stripped orig
  | none => parseFailResult raw stripped orig

theorem firstParse_eq_none (jp : Str → Option JsonV) :
    ∀ cands : List Str, (∀ c ∈ cands, jp c = none) → firstParse jp cands = none := by
  intro cands h
  induction cands with
  | nil => rfl
  | cons c cs ih =>
    simp only [firstParse]
    rw [h c (by simp)]
    exact ih (fun d hd => h d (by simp [hd]))

theorem parseFailError_head (m n : Nat) : (parseFailError m n).take 1 = ['J'] := rfl

theorem parseFailError_ne_nil (m n : Nat) : parseFailError m n ≠ [] := by
  intro h
  have h1 := parseFailError_head m n
  rw [h] at h1
  simp at h1

/-- C1: when no candidate of the repair cascade parses,
`parseProofreadResponse` returns the passthrough result: the voice text
is the original input, the display text is the emotion-tag-stripped
original input, `changes` is empty, `unchanged` is `true`, and `error`
is the non-empty diagnostic recording the raw and stripped lengths.  In
particular the corrected fields are built from the original input alone,
never from the unparseable model text. -/
theorem parse_total_failure_passthrough (jp : Str → Option JsonV) (raw orig : Str)
    (h : ∀ c ∈ proofreadCandidates raw, jp c = none) :
    parseProofreadResponse jp raw orig = parseFailResult raw (stripCodeFences raw) orig ∧
    (parseProofreadResponse jp raw orig).corrected_voice = orig ∧
    (parseProofreadResponse jp raw orig).corrected_text = stripEmotionTags orig ∧
    (parseProofreadResponse jp raw orig).changes = [] ∧
    (parseProofreadResponse jp raw orig).unchanged = true ∧
    (parseProofreadResponse jp raw orig).error =
      some (parseFailError raw.length (stripCodeFences raw).length) ∧
    (parseProofreadResponse jp raw orig).error ≠ some [] := by
  have hn : firstParse jp (proofreadCandidates raw) = none := firstParse_eq_none jp _ h
  have hr : parseProofreadResponse jp raw orig =
      parseFailResult raw (stripCodeFences raw) orig := by
    unfold parseProofreadResponse
    rw [hn]
  refine ⟨hr, ?_, ?_, ?_, ?_, ?_, ?_⟩ <;> rw [hr] <;> simp [parseFailResult]
  exact parseFailError_ne_nil _ _

/-- Witness for C1 at a concrete unparseable input. -/
theorem parse_total_failure_passthrough_witness :
    (parseProofreadResponse (fun _ => none) "not json at all".data "ok tekst".data).corrected_voice
        = "ok tekst".data ∧
    (parseProofreadResponse (fun _ => none) "not json at all".data "ok tekst".data).corrected_text
        = stripEmotionTags "ok tekst".data ∧
    (parseProofreadResponse (fun _ => none) "not json at all".data "ok tekst".data).changes = [] ∧
    (parseProofreadResponse (fun _ => none) "not json at all".data "ok tekst".data).unchanged
        = true ∧
    (parseProofreadResponse (fun _ => none) "not json at all".data "ok tekst".data).error ≠
        some [] :=
  have h := parse_total_failure_passthrough (fun _ => none) "not json at all".data
    "ok tekst".data (by intro c hc; rfl)
  ⟨h.2.1, h.2.2.1, h.2.2.2.1, h.2.2.2.2.1, h.2.2.2.2.2.2⟩

/-- C10: `parseProofreadResponse` is total over its two string inputs and
any behaviour of the host JSON parser (a thrown `JSON.parse` exception is
modelled as `none`): every run either extracts fields from the first
successfully-parsed truthy candidate, or falls through to the
passthrough fail result — no other outcome exists. -/
theorem parse_response_exhaustive (jp : Str → Option JsonV) (raw orig : Str) :
    (∃ v, firstParse jp (proofreadCandidates raw) = some v ∧ jsTruthy v = true ∧
      parseProofreadResponse jp raw orig = extractFields v orig) ∨
    parseProofreadResponse jp raw orig =
      parseFailResult raw (stripCodeFences raw) orig := by
  unfold parseProofreadResponse
  cases hf : firstParse jp (proofreadCandidates raw) with
  | none => right; rfl
  | some v =>
    cases ht : jsTruthy v with
    | true => left; exact ⟨v, rfl, ht, by simp [ht]⟩
    | false => right; simp [ht]

/-! ### The TTS directive codec

`maybeProofreadPayload` encodes `display + "\n" + "[[tts:text]]" + voice
+ "[[/tts:text]]"`; `stripTtsDirectivesForDisplay` removes every
`/\[\[tts:text\]\][\s\S]*?\[{1,2}\/tts:text\]\]/gi` span (keeping the
original text when removal would leave the empty string); the voice-hint
extraction in `proofreadText` takes the first such span's interior,
trimmed, treating an empty trim as no hint. -/

/-- ASCII case folding, as the regex `i`-flag applies to these tokens. -/
def ciEq (a b : Char) : Bool := a.toLower = b.toLower

/-- `matchCI pat s`: `pat` matches case-insensitively at the head of `s`. -/
def matchCI : Str → Str → Bool
  | [], _ => true
  | _ :: _, [] => false
  | p :: ps, c :: cs => ciEq p c && matchCI ps cs

/-- `pat` matches case-insensitively at some position of `s`. -/
def hasInfixCI (pat : Str) : Str → Bool
  | [] => matchCI pat []
  | s@(_ :: rest) => matchCI pat s || hasInfixCI pat rest

def ttsOpen : Str := "[[tts:text]]".data

/-- Closing sentinel with a single leading bracket, the minimal form the
`\[{1,2}` quantifier accepts. -/
def ttsClose1 : Str := "[/tts:text]]".data

/-- Closing sentinel with both brackets, the form the encoder writes and
the greedy `\[{1,2}` prefers. -/
def ttsClose2 : Str := '[' :: ttsClose1

/-- The combined string built by `maybeProofreadPayload`. -/
def encodeTts (display voice : Str) : Str :=
  display ++ '\n' :: (ttsOpen ++ voice ++ ttsClose2)

/-- Find the earliest position where the closing-sentinel regex
`\[{1,2}\/tts:text\]\]` matches (greedy bracket count first); return the
number of characters consumed through the end of the match. -/
def findCloseTts : Str → Option Nat
  | [] => none
  | s@(c :: rest) =>
    if matchCI ttsClose2 s then some 13
    else if matchCI ttsClose1 s then some 12
    else (findCloseTts rest).map (· + 1)

theorem matchCI_length : ∀ {pat s : Str}, matchCI pat s = true → pat.length ≤ s.length := by
  intro pat
  induction pat with
  | nil => intro s h; simp
  | cons p ps ih =>
    intro s h
    cases s with
    | nil => simp [matchCI] at h
    | cons c cs =>
      simp only [matchCI, Bool.and_eq_true] at h
      have := ih h.2
      simp; omega

/-- The global-replace scan of `stripTtsDirectivesForDisplay`: at each
position where the opening sentinel matches and a closing sentinel
follows, the whole span is removed; otherwise one character is copied.
A positive first argument skips that many characters of matched span. -/
def sweepGo : Nat → Str → Str
  | _, [] => []
  | skip + 1, _ :: rest => sweepGo skip rest
  | 0, c :: rest =>
    if matchCI ttsOpen (c :: rest) then
      match findCloseTts ((c :: rest).drop 12) with
      | some k => sweepGo (12 + k - 1) rest
      | none => c :: sweepGo 0 rest
    else c :: sweepGo 0 rest

def sweepTts (s : Str) : Str := sweepGo 0 s

/-- `stripTtsDirectivesForDisplay` at the string level:
`text.replace(re, "").trim() || text`. -/
def stripTtsForDisplay (text : Str) : Str :=
  let cleaned := trimStr (sweepTts text)
  if cleaned.isEmpty then text else cleaned

/-- Lazy group 1 of the voice-hint regex: the characters before the
earliest closing-sentinel match; `none` when no close follows. -/
def voiceBetween : Str → Option Str
  | [] => none
  | s@(c :: rest) =>
    if matchCI ttsClose2 s then some []
    else if matchCI ttsClose1 s then some []
    else (voiceBetween rest).map (c :: ·)

/-- First full match of the voice-hint regex; returns group 1. -/
def voiceFind : Str → Option Str
  | [] => none
  | s@(c :: rest) =>
    if matchCI ttsOpen s then voiceBetween (s.drop 12) else voiceFind rest

/-- `params.text.match(voiceRe)?.[1]?.trim() || undefined`. -/
def extractVoiceHint (text : Str) : Option Str :=
  match voiceFind text with
  | some inner =>
    let t := trimStr inner
    if t.isEmpty then none else some t
  | none => none

theorem ciEq_refl (c : Char) : ciEq c c = true := by simp [ciEq]

theorem matchCI_append_self : ∀ (pat rest : Str), matchCI pat (pat ++ rest) = true := by
  intro pat rest
  induction pat with
  | nil => rfl
  | cons p ps ih => simp [matchCI, ciEq_refl, ih]

theorem matchCI_drop : ∀ (pat xs ys : Str), matchCI pat (xs ++ ys) = true →
    matchCI (pat.drop xs.length) ys = true := by
  intro pat xs
  induction xs generalizing pat with
  | nil => intro ys h; simpa using h
  | cons x xs' ih =>
    intro ys h
    cases pat with
    | nil => simp [matchCI]
    | cons p ps =>
      simp only [List.cons_append, matchCI, Bool.and_eq_true] at h
      simpa using ih ps ys h.2

theorem matchCI_left : ∀ (pat xs ys : Str), matchCI pat (xs ++ ys) = true →
    pat.length ≤ xs.length → matchCI pat xs = true := by
  intro pat xs
  induction xs generalizing pat with
  | nil =>
    intro ys h hl
    cases pat with
    | nil => rfl
    | cons _ _ => simp at hl
  | cons x xs' ih =>
    intro ys h hl
    cases pat with
    | nil => rfl
    | cons p ps =>
      simp only [List.cons_append, matchCI, Bool.and_eq_true] at h ⊢
      refine ⟨h.1, ih ps ys h.2 ?_⟩
      simp at hl ⊢
      omega

theorem hasInfixCI_false_suffix : ∀ {pat s s' : Str}, hasInfixCI pat s = false →
    s' <:+ s → matchCI pat s' = false := by
  intro pat s
  induction s with
  | nil =>
    intro s' h hs
    rw [List.suffix_nil.mp hs]
    simpa [hasInfixCI] using h
  | cons c rest ih =>
    intro s' h hs
    simp only [hasInfixCI, Bool.or_eq_false_iff] at h
    rcases List.suffix_cons_iff.mp hs with h1 | h2
    · rw [h1]; exact h.1
    · exact ih h.2 h2

/-- A case-insensitive pattern cannot match across a boundary character
that no pattern character folds to, unless it already matches on the
left side alone. -/
theorem noMatch_append_cons (pat xs : Str) (c0 : Char) (ys : Str)
    (h1 : matchCI pat xs = false)
    (h2 : ∀ p ∈ pat, ciEq p c0 = false) :
    matchCI pat (xs ++ c0 :: ys) = false := by
  by_contra h
  rw [Bool.not_eq_false] at h
  by_cases hl : pat.length ≤ xs.length
  · rw [matchCI_left pat xs _ h hl] at h1
    simp at h1
  · have hd := matchCI_drop pat xs (c0 :: ys) h
    cases hp : pat.drop xs.length with
    | nil =>
      have := congrArg List.length hp
      simp at this
      omega
    | cons q qs =>
      rw [hp] at hd
      simp only [matchCI, Bool.and_eq_true] at hd
      have hq : q ∈ pat := by
        have hmem : q ∈ pat.drop xs.length := by rw [hp]; simp
        exact List.drop_subset _ pat hmem
      rw [h2 q hq] at hd
      simp at hd

theorem openTok_no_nl : ∀ p ∈ ttsOpen, ciEq p '\n' = false := by
  have h : ttsOpen.all (fun p => !(ciEq p '\n')) = true := by decide
  intro p hp
  have := List.all_eq_true.mp h p hp
  simpa using this

theorem close1_tail_no_bracket : ∀ q ∈ ttsClose1.drop 1, ciEq q '[' = false := by
  have h : (ttsClose1.drop 1).all (fun q => !(ciEq q '[')) = true := by decide
  intro q hq
  have := List.all_eq_true.mp h q hq
  simpa using this

/-- Under the no-occurrence hypothesis, the single-bracket closing
sentinel cannot match at any position strictly inside `v`, even with the
real closing sentinel appended. -/
theorem close1_blocked {v : Str} (hv : hasInfixCI ttsClose1 v = false) :
    ∀ s', s' <:+ v → s' ≠ [] → matchCI ttsClose1 (s' ++ ttsClose2) = false := by
  intro s' hs hne
  by_contra h
  rw [Bool.not_eq_false] at h
  by_cases hl : ttsClose1.length ≤ s'.length
  · have := matchCI_left _ _ _ h hl
    rw [hasInfixCI_false_suffix hv hs] at this
    simp at this
  · have hd := matchCI_drop ttsClose1 s' ttsClose2 h
    cases hp : ttsClose1.drop s'.length with
    | nil =>
      have := congrArg List.length hp
      simp at this
      omega
    | cons q qs =>
      rw [hp, show ttsClose2 = '[' :: ttsClose1 from rfl] at hd
      simp only [matchCI, Bool.and_eq_true] at hd
      have hs1 : 1 ≤ s'.length := by
        cases s' with
        | nil => exact absurd rfl hne
        | cons _ _ => simp
      have hq : q ∈ ttsClose1.drop 1 := by
        have heq : ttsClose1.drop s'.length = (ttsClose1.drop 1).drop (s'.length - 1) := by
          rw [List.drop_drop]
          congr 1
          omega
        rw [heq] at hp
        have hmem : q ∈ (ttsClose1.drop 1).drop (s'.length - 1) := by rw [hp]; simp
        exact List.drop_subset _ _ hmem
      rw [close1_tail_no_bracket q hq] at hd
      simp at hd

theorem matchCI_close1_close2 : matchCI ttsClose1 ttsClose2 = false := by decide

/-- Same blocking property for the double-bracket closing sentinel. -/
theorem close2_blocked {v : Str} (hv : hasInfixCI ttsClose1 v = false) :
    ∀ s', s' <:+ v → s' ≠ [] → matchCI ttsClose2 (s' ++ ttsClose2) = false := by
  intro s' hs hne
  cases s' with
  | nil => exact absurd rfl hne
  | cons x s2 =>
    have hshape : matchCI ttsClose2 ((x :: s2) ++ ttsClose2)
        = (ciEq '[' x && matchCI ttsClose1 (s2 ++ ttsClose2)) := rfl
    rw [hshape]
    cases s2 with
    | nil =>
      simp only [List.nil_append, matchCI_close1_close2, Bool.and_false]
    | cons y s3 =>
      have hsfx : (y :: s3) <:+ v := (List.suffix_cons x (y :: s3)).trans hs
      rw [close1_blocked hv (y :: s3) hsfx (by simp)]
      simp

theorem sweepGo_zero_cons (c : Char) (rest : Str) :
    sweepGo 0 (c :: rest) =
      if matchCI ttsOpen (c :: rest) then
        match findCloseTts ((c :: rest).drop 12) with
        | some k => sweepGo (12 + k - 1) rest
        | none => c :: sweepGo 0 rest
      else c :: sweepGo 0 rest := rfl

theorem sweepGo_skip_step (m : Nat) (c : Char) (rest : Str) :
    sweepGo (m + 1) (c :: rest) = sweepGo m rest := rfl

theorem sweepGo_ge : ∀ (xs : Str) (n : Nat), xs.length ≤ n → sweepGo n xs = [] := by
  intro xs
  induction xs with
  | nil => intro n h; cases n <;> rfl
  | cons c rest ih =>
    intro n h
    cases n with
    | zero => simp at h
    | succ m =>
      rw [sweepGo_skip_step]
      exact ih m (by simp at h; omega)

/-- The sweep copies a prefix in which the opening sentinel never
matches. -/
theorem sweepTts_copy : ∀ (d ys : Str),
    (∀ s', s' <:+ d → s' ≠ [] → matchCI ttsOpen (s' ++ ys) = false) →
    sweepTts (d ++ ys) = d ++ sweepTts ys := by
  intro d ys hno
  unfold sweepTts
  induction d with
  | nil => simp
  | cons c d' ih =>
    have hm : matchCI ttsOpen ((c :: d') ++ ys) = false :=
      hno (c :: d') (List.suffix_refl _) (by simp)
    rw [List.cons_append] at hm ⊢
    rw [sweepGo_zero_cons, hm]
    simp only [Bool.false_eq_true, if_false, List.cons_append]
    congr 1
    exact ih (fun s' hs hne => hno s' (hs.trans (List.suffix_cons c d')) hne)

theorem voiceFind_copy : ∀ (d ys : Str),
    (∀ s', s' <:+ d → s' ≠ [] → matchCI ttsOpen (s' ++ ys) = false) →
    voiceFind (d ++ ys) = voiceFind ys := by
  intro d ys hno
  induction d with
  | nil => simp
  | cons c d' ih =>
    have hm : matchCI ttsOpen ((c :: d') ++ ys) = false :=
      hno (c :: d') (List.suffix_refl _) (by simp)
    rw [List.cons_append] at hm ⊢
    rw [voiceFind]
    rw [hm]
    simp only [Bool.false_eq_true, if_false]
    exact ih (fun s' hs hne => hno s' (hs.trans (List.suffix_cons c d')) hne)

theorem findCloseTts_close2 : findCloseTts ttsClose2 = some 13 := by decide

theorem voiceBetween_close2 : voiceBetween ttsClose2 = some [] := by decide

/-- Walking a hint body in which neither closing form matches, the close
search resolves exactly at the appended closing sentinel, consuming the
whole remaining text. -/
theorem findCloseTts_through : ∀ (v : Str), hasInfixCI ttsClose1 v = false →
    findCloseTts (v ++ ttsClose2) = some (v.length + 13) := by
  intro v hv
  induction v with
  | nil => simpa using findCloseTts_close2
  | cons c v' ih =>
    have h2 : matchCI ttsClose2 ((c :: v') ++ ttsClose2) = false :=
      close2_blocked hv (c :: v') (List.suffix_refl _) (by simp)
    have h1 : matchCI ttsClose1 ((c :: v') ++ ttsClose2) = false :=
      close1_blocked hv (c :: v') (List.suffix_refl _) (by simp)
    rw [List.cons_append] at h1 h2 ⊢
    rw [findCloseTts, h2, h1]
    simp only [Bool.false_eq_true, if_false]
    have hv' : hasInfixCI ttsClose1 v' = false := by
      simp only [hasInfixCI, Bool.or_eq_false_iff] at hv
      exact hv.2
    rw [ih hv']
    rw [show (c :: v').length + 13 = (v'.length + 13) + 1 by
      simp only [List.length_cons]]
    rfl

theorem voiceBetween_through : ∀ (v : Str), hasInfixCI ttsClose1 v = false →
    voiceBetween (v ++ ttsClose2) = some v := by
  intro v hv
  induction v with
  | nil => simpa using voiceBetween_close2
  | cons c v' ih =>
    have h2 : matchCI ttsClose2 ((c :: v') ++ ttsClose2) = false :=
      close2_blocked hv (c :: v') (List.suffix_refl _) (by simp)
    have h1 : matchCI ttsClose1 ((c :: v') ++ ttsClose2) = false :=
      close1_blocked hv (c :: v') (List.suffix_refl _) (by simp)
    rw [List.cons_append] at h1 h2 ⊢
    rw [voiceBetween, h2, h1]
    simp only [Bool.false_eq_true, if_false]
    have hv' : hasInfixCI ttsClose1 v' = false := by
      simp only [hasInfixCI, Bool.or_eq_false_iff] at hv
      exact hv.2
    rw [ih hv']
    rfl

theorem matchCI_open_nl (t : Str) : matchCI ttsOpen ('\n' :: t) = false := by
  have hshape : matchCI ttsOpen ('\n' :: t)
      = (ciEq '[' '\n' && matchCI "[tts:text]]".data t) := rfl
  rw [hshape, show ciEq '[' '\n' = false from by decide]
  simp

theorem ttsOpen_len : ttsOpen.length = 12 := rfl

/-- `trim` ignores a trailing whitespace character. -/
theorem trimStr_append_ws (xs : Str) (c : Char) (hc : isWsChar c = true) :
    trimStr (xs ++ [c]) = trimStr xs := by
  unfold trimStr
  rw [List.dropWhile_append]
  cases hx : (xs.dropWhile isWsChar).isEmpty
  · simp only [Bool.false_eq_true, if_false]
    rw [List.reverse_append]
    simp [List.dropWhile, hc]
  · simp only [if_true]
    have hxs : xs.dropWhile isWsChar = [] := by
      cases h : xs.dropWhile isWsChar with
      | nil => rfl
      | cons a l => rw [h] at hx; simp at hx
    rw [hxs]
    simp [List.dropWhile, hc]

theorem sweepTts_at_open (X : Str) (hfind : findCloseTts X = some X.length) :
    sweepTts (ttsOpen ++ X) = [] := by
  have hshape : ttsOpen ++ X = '[' :: ("[tts:text]]".data ++ X) := rfl
  have hm : matchCI ttsOpen ('[' :: ("[tts:text]]".data ++ X)) = true := by
    rw [← hshape]
    exact matchCI_append_self _ _
  have hdrop : ('[' :: ("[tts:text]]".data ++ X)).drop 12 = X := by
    rw [← hshape, ← ttsOpen_len, List.drop_left]
  unfold sweepTts
  rw [hshape, sweepGo_zero_cons, hm]
  simp only [if_true]
  rw [hdrop, hfind]
  refine sweepGo_ge _ _ ?_
  rw [List.length_append]
  rw [show ("[tts:text]]".data : Str).length = 11 from rfl]
  omega

theorem voiceFind_at_open (X : Str) : voiceFind (ttsOpen ++ X) = voiceBetween X := by
  have hshape : ttsOpen ++ X = '[' :: ("[tts:text]]".data ++ X) := rfl
  have hm : matchCI ttsOpen ('[' :: ("[tts:text]]".data ++ X)) = true := by
    rw [← hshape]
    exact matchCI_append_self _ _
  have hdrop : ('[' :: ("[tts:text]]".data ++ X)).drop 12 = X := by
    rw [← hshape, ← ttsOpen_len, List.drop_left]
  rw [hshape, voiceFind, hm]
  simp only [if_true]
  rw [hdrop]

/-- C4 (amended): encoding a display string (no case-insensitive
occurrence of the opening sentinel; non-empty after trimming) with a
voice string (no case-insensitive occurrence of the closing sentinel)
and decoding for display yields the *trimmed* display string, and
decoding for the voice hint yields the trimmed voice string when that is
non-empty, and no hint otherwise. -/
theorem tts_codec_roundtrip (d v : Str)
    (hD : hasInfixCI ttsOpen d = false)
    (hDne : trimStr d ≠ [])
    (hV : hasInfixCI ttsClose1 v = false) :
    stripTtsForDisplay (encodeTts d v) = trimStr d ∧
    extractVoiceHint (encodeTts d v) =
      (if trimStr v = [] then none else some (trimStr v)) := by
  have hopen : ∀ s', s' <:+ d → s' ≠ [] →
      matchCI ttsOpen (s' ++ '\n' :: (ttsOpen ++ v ++ ttsClose2)) = false :=
    fun s' hs hne =>
      noMatch_append_cons ttsOpen s' '\n' _ (hasInfixCI_false_suffix hD hs) openTok_no_nl
  have hassoc : ttsOpen ++ v ++ ttsClose2 = ttsOpen ++ (v ++ ttsClose2) :=
    List.append_assoc _ _ _
  have hfind : findCloseTts (v ++ ttsClose2) = some (v ++ ttsClose2).length := by
    rw [findCloseTts_through v hV, List.length_append,
      show (ttsClose2 : Str).length = 13 from rfl]
  have hsw : sweepTts (encodeTts d v) = d ++ ['\n'] := by
    unfold encodeTts
    rw [sweepTts_copy d _ hopen]
    unfold sweepTts
    rw [sweepGo_zero_cons, matchCI_open_nl]
    simp only [Bool.false_eq_true, if_false]
    rw [hassoc]
    have := sweepTts_at_open (v ++ ttsClose2) hfind
    unfold sweepTts at this
    rw [this]
  have hvf : voiceFind (encodeTts d v) = some v := by
    unfold encodeTts
    rw [voiceFind_copy d _ hopen, voiceFind, matchCI_open_nl]
    simp only [Bool.false_eq_true, if_false]
    rw [hassoc, voiceFind_at_open, voiceBetween_through v hV]
  constructor
  · unfold stripTtsForDisplay
    rw [hsw, trimStr_append_ws d '\n' (by decide)]
    cases he : (trimStr d).isEmpty
    · simp only [he, Bool.false_eq_true, if_false]
    · exfalso
      exact hDne (List.isEmpty_iff.mp he)
  · unfold extractVoiceHint
    rw [hvf]
    cases he : (trimStr v).isEmpty
    · have hne : ¬ trimStr v = [] := by
        intro hcon
        rw [hcon] at he
        simp at he
      simp only [he, Bool.false_eq_true, if_false, if_neg hne]
    · have heq : trimStr v = [] := List.isEmpty_iff.mp he
      simp [heq]

/-- C4 counterexample: with an untrimmed display string the display
decode is *not* the identity (it trims), and with an all-whitespace
voice string the voice-hint decode yields no hint rather than the
(empty) trimmed voice string. -/
theorem tts_codec_not_exact :
    stripTtsForDisplay (encodeTts " Fixed text ".data " ".data) ≠ " Fixed text ".data ∧
    extractVoiceHint (encodeTts " Fixed text ".data " ".data) ≠
      some (trimStr " ".data) := by
  decide

/-- Witness for C4 at the spec's own scenario strings. -/
theorem tts_codec_roundtrip_witness :
    stripTtsForDisplay (encodeTts "Fixed text".data "[whispers] Fixed text".data)
        = trimStr "Fixed text".data ∧
    extractVoiceHint (encodeTts "Fixed text".data "[whispers] Fixed text".data) =
      (if trimStr "[whispers] Fixed text".data = [] then none
        else some (trimStr "[whispers] Fixed text".data)) :=
  tts_codec_roundtrip "Fixed text".data "[whispers] Fixed text".data
    (by decide) (by decide) (by decide)

/-! ### The tool-update tracker (streaming update coalescer)

`createToolUpdateTracker` closes over five state variables; the model
makes them a record, adds ghost call counters to index the transport
oracles, models the debounce timer as an absolute fire time on a virtual
millisecond clock, and records every transport call in a trace.  Each
trace entry keeps both the pre-render source text and the wire text. -/

/-- `ReplyPayload` as far as the tracker inspects it. -/
structure Payload where
  text : Option Str
  mediaUrl : Option Str
  mediaUrls : Option (List Str)
deriving DecidableEq

def textPayload (t : Str) : Payload := ⟨some t, none, none⟩

/-- `Boolean(payload.mediaUrl || (payload.mediaUrls &&
payload.mediaUrls.length > 0))` with JavaScript truthiness. -/
def hasMedia (p : Payload) : Bool :=
  (match p.mediaUrl with
    | some s => !s.isEmpty
    | none => false) ||
  (match p.mediaUrls with
    | some l => decide (0 < l.length)
    | none => false)

def TELEGRAM_TEXT_LIMIT : Nat := 4096

def DEBOUNCE_MS : Nat := 2000

/-- `truncateText` with `TRUNCATION_SUFFIX = "..."`. -/
def truncateText (text : Str) (limit : Nat) : Str :=
  if text.length ≤ limit then text
  else text.take (limit - 3) ++ "...".data

/-- One transport call, as observed by the chat surface. -/
inductive Call where
  | send (src wire : Str) (res : Option Nat)
  | edit (mid : Nat) (src wire : Str) (ok : Bool)
  | del (mid : Nat) (ok : Bool)
  | deliver (p : Payload)
deriving DecidableEq

structure TrackerState where
  activeMessageId : Option Nat
  pendingText : Option Str
  lastSentText : Str
  debounceTimer : Option Nat
  stopped : Bool
  sendCount : Nat
  editCount : Nat
  delCount : Nat
deriving DecidableEq

def initState : TrackerState := ⟨none, none, [], none, false, 0, 0, 0⟩

/-- The tracker's collaborators: `markdownToTelegramHtml`, the
configured `opts.textLimit`, and the transport's behaviour per call
index (send result, edit success, delete success). -/
structure Env where
  render : Str → Str
  textLimit : Nat
  sendRes : Nat → Option Nat
  editOk : Nat → Bool
  delOk : Nat → Bool

/-- `flushEdit`: clear the timer; bail when stopped, untracked or
nothing pending; suppress duplicates; otherwise record `lastSentText`
and issue the (possibly failing, always swallowed) edit. -/
def flushEdit (env : Env) (s : TrackerState) : TrackerState × List Call :=
  let s0 := { s with debounceTimer := none }
  if s0.stopped then (s0, [])
  else
    match s0.activeMessageId, s0.pendingText with
    | some mid, some text =>
      let s1 := { s0 with pendingText := none }
      if text = s1.lastSentText then (s1, [])
      else
        let wire := env.render (truncateText text TELEGRAM_TEXT_LIMIT)
        ({ s1 with lastSentText := text, editCount := s1.editCount + 1 },
          [Call.edit mid text wire (env.editOk s1.editCount)])
    | _, _ => (s0, [])

/-- `handleToolUpdate` at virtual time `t`. -/
def handleToolUpdate (env : Env) (t : Nat) (p : Payload) (s : TrackerState) :
    TrackerState × List Call :=
  if s.stopped then (s, [])
  else if hasMedia p then (s, [Call.deliver p])
  else
    let text := p.text.getD []
    if (trimStr text).isEmpty then (s, [])
    else
      match s.activeMessageId with
      | none =>
        let wire := truncateText text env.textLimit
        let res := env.sendRes s.sendCount
        let s1 := { s with sendCount := s.sendCount + 1 }
        match res with
        | some mid =>
          ({ s1 with activeMessageId := some mid, lastSentText := text },
            [Call.send text wire res])
        | none => (s1, [Call.send text wire res])
      | some _ =>
        let s2 := { s with pendingText := some text, debounceTimer := some (t + DEBOUNCE_MS) }
        (s2, [])

/-- `cleanup`: cancel the timer, force-flush a differing pending text
(without touching `lastSentText`), best-effort delete, reset all state. -/
def cleanup (env : Env) (s : TrackerState) : TrackerState × List Call :=
  let s0 := { s with debounceTimer := none }
  let fl :=
    match s0.pendingText, s0.activeMessageId with
    | some text, some mid =>
      let sA := { s0 with pendingText := none }
      if text = sA.lastSentText then (sA, ([] : List Call))
      else
        let wire := env.render (truncateText text TELEGRAM_TEXT_LIMIT)
        ({ sA with editCount := sA.editCount + 1 },
          [Call.edit mid text wire (env.editOk sA.editCount)])
    | _, _ => (s0, [])
  let s1 := fl.1
  let dl :=
    match s1.activeMessageId with
    | some mid =>
      ({ s1 with activeMessageId := none, delCount := s1.delCount + 1 },
        [Call.del mid (env.delOk s1.delCount)])
    | none => (s1, [])
  let s2 := dl.1
  ({ s2 with lastSentText := [], pendingText := none, stopped := false },
    fl.2 ++ dl.2)

/-- `stop`. -/
def stopTracker (s : TrackerState) : TrackerState × List Call :=
  ({ s with stopped := true, debounceTimer := none }, [])

/-- Events driving one tracker: an update, `cleanup`, `stop`, or mere
passage of time; each carries its virtual arrival time. -/
inductive Op where
  | upd (t : Nat) (p : Payload)
  | clean (t : Nat)
  | stopOp (t : Nat)
  | settle (t : Nat)

def opTime : Op → Nat
  | .upd t _ => t
  | .clean t => t
  | .stopOp t => t
  | .settle t => t

/-- A due debounce timer fires (runs `flushEdit`) before the next event
is processed, as the single-threaded event loop would schedule it. -/
def fireIfDue (env : Env) (t : Nat) (s : TrackerState) : TrackerState × List Call :=
  match s.debounceTimer with
  | some dl => if dl ≤ t then flushEdit env s else (s, [])
  | none => (s, [])

def applyOp (env : Env) (op : Op) (s : TrackerState) : TrackerState × List Call :=
  let f := fireIfDue env (opTime op) s
  match op with
  | .upd t p =>
    let h := handleToolUpdate env t p f.1
    (h.1, f.2 ++ h.2)
  | .clean _ =>
    let h := cleanup env f.1
    (h.1, f.2 ++ h.2)
  | .stopOp _ =>
    let h := stopTracker f.1
    (h.1, f.2 ++ h.2)
  | .settle _ => f

def runOps (env : Env) : TrackerState → List Op → TrackerState × List Call
  | s, [] => (s, [])
  | s, op :: ops =>
    let r := applyOp env op s
    let rr := runOps env r.1 ops
    (rr.1, r.2 ++ rr.2)

/-- Operations that only advance time or deliver updates (the shapes
claim C7 quantifies over). -/
def benignOp : Op → Prop
  | .upd _ _ => True
  | .settle _ => True
  | _ => False

theorem run_stopped (env : Env) : ∀ (ops : List Op) (s : TrackerState),
    s.stopped = true → s.debounceTimer = none → (∀ op ∈ ops, benignOp op) →
    runOps env s ops = (s, []) := by
  intro ops
  induction ops with
  | nil => intro s h1 h2 h3; rfl
  | cons op ops ih =>
    intro s h1 h2 h3
    have hop := h3 op (by simp)
    have hfire : fireIfDue env (opTime op) s = (s, []) := by
      unfold fireIfDue
      rw [h2]
    have happ : applyOp env op s = (s, []) := by
      cases op with
      | upd t p =>
        unfold applyOp
        rw [hfire]
        unfold handleToolUpdate
        simp [h1]
      | settle t =>
        unfold applyOp
        rw [hfire]
      | clean t => exact absurd hop (by simp [benignOp])
      | stopOp t => exact absurd hop (by simp [benignOp])
    rw [runOps, happ]
    simp [ih s h1 h2 (fun o ho => h3 o (by simp [ho]))]

/-- C7: once `stop()` has been called, from any state: the debounce
timer is cancelled, advancing time never fires an edit or delete, and
every subsequent `handleToolUpdate` is a no-op issuing no call of any
kind — the run produces an empty transcript and leaves the stopped state
untouched. -/
theorem stop_then_silent (env : Env) (s : TrackerState) (ops : List Op)
    (h : ∀ op ∈ ops, benignOp op) :
    (stopTracker s).1.debounceTimer = none ∧
    runOps env (stopTracker s).1 ops = ((stopTracker s).1, []) :=
  ⟨rfl, run_stopped env ops _ rfl rfl h⟩

/-- A concrete environment for witnesses. -/
def env0 : Env :=
  { render := fun t => t
    textLimit := 4096
    sendRes := fun _ => some 42
    editOk := fun _ => true
    delOk := fun _ => true }

/-- Witness for C7: a tracker mid-burst (active message, pending text,
armed timer) is stopped; a settle past the window and a further update
produce no calls. -/
theorem stop_then_silent_witness :
    runOps env0
      (stopTracker ⟨some 42, some "Step 2...".data, "Step 1...".data,
        some 2100, false, 1, 0, 0⟩).1
      [Op.settle 5000, Op.upd 6000 (textPayload "Step 3...".data)] =
      ((stopTracker ⟨some 42, some "Step 2...".data, "Step 1...".data,
        some 2100, false, 1, 0, 0⟩).1, []) :=
  (stop_then_silent env0 _ _ (by
    intro op hop
    simp only [List.mem_cons, List.mem_singleton] at hop
    rcases hop with h | h | h
    · rw [h]; trivial
    · rw [h]; trivial
    · cases h)).2

/-- C8 part one: `cleanup()` resets every tracker field to its initial
value, from any prior state. -/
theorem cleanup_resets (env : Env) (s : TrackerState) :
    (cleanup env s).1.activeMessageId = none ∧
    (cleanup env s).1.pendingText = none ∧
    (cleanup env s).1.lastSentText = [] ∧
    (cleanup env s).1.debounceTimer = none ∧
    (cleanup env s).1.stopped = false := by
  obtain ⟨a, p, l, d, st, sc, ec, dc⟩ := s
  cases a with
  | none => cases p <;> simp [cleanup]
  | some m =>
    cases p with
    | none => simp [cleanup]
    | some txt =>
      by_cases h : txt = l
      · simp [cleanup, h]
      · simp [cleanup, h]

theorem isEmpty_false_of_ne {l : Str} (h : l ≠ []) : l.isEmpty = false := by
  cases l with
  | nil => exact absurd rfl h
  | cons _ _ => rfl

/-- C8: `cleanup()` returns every tracker field to its initial value
(`activeMessageId = none`, `pendingText = none`, `lastSentText` empty,
no timer, `stopped = false`) from any prior state; consequently after
`stop(); cleanup()` a non-empty text update is not a no-op: it issues a
fresh send, creating a new status message. -/
theorem cleanup_resets_and_reuses (env : Env) (s : TrackerState) (t : Nat) (x : Str)
    (hx : trimStr x ≠ []) :
    ((cleanup env s).1.activeMessageId = none ∧
      (cleanup env s).1.pendingText = none ∧
      (cleanup env s).1.lastSentText = [] ∧
      (cleanup env s).1.debounceTimer = none ∧
      (cleanup env s).1.stopped = false) ∧
    (handleToolUpdate env t (textPayload x) (cleanup env (stopTracker s).1).1).2 =
      [Call.send x (truncateText x env.textLimit)
        (env.sendRes (cleanup env (stopTracker s).1).1.sendCount)] := by
  refine ⟨cleanup_resets env s, ?_⟩
  have h8 := cleanup_resets env (stopTracker s).1
  unfold handleToolUpdate
  rw [h8.2.2.2.2, h8.1]
  rw [show hasMedia (textPayload x) = false from rfl]
  simp only [Bool.false_eq_true, if_false]
  rw [show (textPayload x).text.getD [] = x from rfl]
  rw [isEmpty_false_of_ne hx]
  simp only [Bool.false_eq_true, if_false]
  cases hres : env.sendRes (cleanup env (stopTracker s).1).1.sendCount <;> simp

/-- Witness for C8 from a mid-burst state. -/
theorem cleanup_resets_and_reuses_witness :
    ((cleanup env0 ⟨some 42, some "Step 2...".data, "Step 1...".data,
        some 2100, false, 1, 0, 0⟩).1.activeMessageId = none ∧
      (cleanup env0 ⟨some 42, some "Step 2...".data, "Step 1...".data,
        some 2100, false, 1, 0, 0⟩).1.pendingText = none ∧
      (cleanup env0 ⟨some 42, some "Step 2...".data, "Step 1...".data,
        some 2100, false, 1, 0, 0⟩).1.lastSentText = [] ∧
      (cleanup env0 ⟨some 42, some "Step 2...".data, "Step 1...".data,
        some 2100, false, 1, 0, 0⟩).1.debounceTimer = none ∧
      (cleanup env0 ⟨some 42, some "Step 2...".data, "Step 1...".data,
        some 2100, false, 1, 0, 0⟩).1.stopped = false) ∧
    (handleToolUpdate env0 7000 (textPayload "Nowy krok".data)
        (cleanup env0 (stopTracker ⟨some 42, some "Step 2...".data, "Step 1...".data,
          some 2100, false, 1, 0, 0⟩).1).1).2 =
      [Call.send "Nowy krok".data (truncateText "Nowy krok".data env0.textLimit)
        (env0.sendRes (cleanup env0 (stopTracker ⟨some 42, some "Step 2...".data,
          "Step 1...".data, some 2100, false, 1, 0, 0⟩).1).1.sendCount)] :=
  cleanup_resets_and_reuses env0 _ 7000 "Nowy krok".data (by decide)

/-- C9: when the initial send returns no message id, the tracker's
observable state is unchanged (`activeMessageId` still `none`,
`lastSentText` still empty, nothing pending, no timer armed), and the
next non-empty text update takes the immediate-send path again instead
of buffering a debounced edit. -/
theorem send_failure_keeps_send_path (env : Env) (t1 t2 : Nat) (x1 x2 : Str)
    (h1 : trimStr x1 ≠ []) (h2 : trimStr x2 ≠ [])
    (hs : env.sendRes 0 = none) :
    (handleToolUpdate env t1 (textPayload x1) initState).2 =
      [Call.send x1 (truncateText x1 env.textLimit) none] ∧
    (handleToolUpdate env t1 (textPayload x1) initState).1.activeMessageId = none ∧
    (handleToolUpdate env t1 (textPayload x1) initState).1.lastSentText = [] ∧
    (handleToolUpdate env t1 (textPayload x1) initState).1.pendingText = none ∧
    (handleToolUpdate env t1 (textPayload x1) initState).1.debounceTimer = none ∧
    (handleToolUpdate env t2 (textPayload x2)
        (handleToolUpdate env t1 (textPayload x1) initState).1).2 =
      [Call.send x2 (truncateText x2 env.textLimit) (env.sendRes 1)] := by
  have hstep1 : handleToolUpdate env t1 (textPayload x1) initState =
      ({ initState with sendCount := 1 },
        [Call.send x1 (truncateText x1 env.textLimit) none]) := by
    unfold handleToolUpdate
    rw [show initState.stopped = false from rfl]
    rw [show hasMedia (textPayload x1) = false from rfl]
    simp only [Bool.false_eq_true, if_false]
    rw [show (textPayload x1).text.getD [] = x1 from rfl]
    rw [isEmpty_false_of_ne h1]
    simp only [Bool.false_eq_true, if_false]
    rw [show initState.activeMessageId = none from rfl]
    rw [show initState.sendCount = 0 from rfl, hs]
    rfl
  rw [hstep1]
  refine ⟨rfl, rfl, rfl, rfl, rfl, ?_⟩
  unfold handleToolUpdate
  cases hres : env.sendRes 1 <;>
    simp [hasMedia, textPayload, initState, isEmpty_false_of_ne h2, hres]

/-- A transport whose first send fails and whose second succeeds. -/
def envFail : Env :=
  { render := fun t => t
    textLimit := 4096
    sendRes := fun n => if n = 0 then none else some 7
    editOk := fun _ => true
    delOk := fun _ => true }

def isEditCall : Call → Bool
  | .edit _ _ _ _ => true
  | _ => false

def editCalls (tr : List Call) : List Call := tr.filter isEditCall

theorem runOps_append (env : Env) : ∀ (ops1 ops2 : List Op) (s : TrackerState),
    runOps env s (ops1 ++ ops2) =
      ((runOps env (runOps env s ops1).1 ops2).1,
        (runOps env s ops1).2 ++ (runOps env (runOps env s ops1).1 ops2).2) := by
  intro ops1
  induction ops1 with
  | nil => intro ops2 s; simp [runOps]
  | cons op ops ih =>
    intro ops2 s
    simp only [List.cons_append, runOps]
    simp only [List.append_eq]
    rw [ih ops2 (applyOp env op s).1]
    simp [List.append_assoc]

/-- Arrival-time discipline of a buffered burst: each update arrives
strictly within the debounce window opened by its predecessor. -/
def chainOk : Nat → List (Nat × Str) → Prop
  | _, [] => True
  | prev, (t, _) :: rest => t < prev + DEBOUNCE_MS ∧ chainOk t rest

def updOps (us : List (Nat × Str)) : List Op :=
  us.map (fun p => Op.upd p.1 (textPayload p.2))

theorem fire_not_due_none (env : Env) (t : Nat) (s : TrackerState)
    (h : s.debounceTimer = none) : fireIfDue env t s = (s, []) := by
  unfold fireIfDue
  rw [h]

theorem fire_not_due_later (env : Env) (t : Nat) (s : TrackerState) (dl : Nat)
    (h : s.debounceTimer = some dl) (hlt : t < dl) : fireIfDue env t s = (s, []) := by
  unfold fireIfDue
  rw [h]
  show (if dl ≤ t then flushEdit env s else (s, [])) = (s, [])
  rw [if_neg (by omega)]

theorem buffer_step (env : Env) (t : Nat) (x : Str) (s : TrackerState) (mid : Nat)
    (hstop : s.stopped = false) (hact : s.activeMessageId = some mid)
    (hx : trimStr x ≠ []) :
    handleToolUpdate env t (textPayload x) s =
      ({ s with pendingText := some x, debounceTimer := some (t + DEBOUNCE_MS) }, []) := by
  unfold handleToolUpdate
  rw [hstop]
  rw [show hasMedia (textPayload x) = false from rfl]
  simp only [Bool.false_eq_true, if_false]
  rw [show (textPayload x).text.getD [] = x from rfl]
  rw [isEmpty_false_of_ne hx]
  simp only [Bool.false_eq_true, if_false]
  rw [hact]

/-- A burst of buffered updates inside the debounce window produces no
transport call at all; only the pending text and the timer move, each
update restarting the window. -/
theorem bufferRun (env : Env) : ∀ (us : List (Nat × Str)) (tn : Nat) (xn : Str)
    (s : TrackerState) (mid prevT : Nat),
    s.stopped = false → s.activeMessageId = some mid →
    (s.debounceTimer = none ∨ s.debounceTimer = some (prevT + DEBOUNCE_MS)) →
    chainOk prevT (us ++ [(tn, xn)]) →
    (∀ p ∈ us ++ [(tn, xn)], trimStr p.2 ≠ []) →
    runOps env s (updOps (us ++ [(tn, xn)])) =
      ({ s with pendingText := some xn, debounceTimer := some (tn + DEBOUNCE_MS) }, []) := by
  intro us
  induction us with
  | nil =>
    intro tn xn s mid prevT hstop hact htmr hchain hne
    simp only [List.nil_append] at hchain hne
    have hfire : fireIfDue env tn s = (s, []) := by
      rcases htmr with h | h
      · exact fire_not_due_none env tn s h
      · exact fire_not_due_later env tn s _ h hchain.1
    have hbuf := buffer_step env tn xn s mid hstop hact
      (hne (tn, xn) (by simp))
    show runOps env s [Op.upd tn (textPayload xn)] = _
    rw [runOps, runOps]
    unfold applyOp
    simp only [opTime]
    rw [hfire]
    simp only
    rw [hbuf]
    simp
  | cons hd tl ih =>
    intro tn xn s mid prevT hstop hact htmr hchain hne
    obtain ⟨t1, x1⟩ := hd
    simp only [List.cons_append] at hchain hne
    have hfire : fireIfDue env t1 s = (s, []) := by
      rcases htmr with h | h
      · exact fire_not_due_none env t1 s h
      · exact fire_not_due_later env t1 s _ h hchain.1
    have hbuf := buffer_step env t1 x1 s mid hstop hact
      (hne (t1, x1) (by simp))
    show runOps env s (Op.upd t1 (textPayload x1) :: updOps (tl ++ [(tn, xn)])) = _
    rw [runOps]
    unfold applyOp
    simp only [opTime]
    rw [hfire]
    simp only
    rw [hbuf]
    simp only [List.nil_append]
    rw [ih tn xn _ mid t1 (by simp [hstop]) (by simp [hact]) (by right; simp)
      hchain.2 (fun p hp => hne p (by simp [hp]))]

/-- C2 (amended): with two or more non-empty text-only updates whose
gaps stay inside the 2000 ms debounce window, a successful initial send,
and a last text *different from the initially sent text*, exactly one
`editMessageText` call is issued, at 2000 ms after the last update, and
its content is the rendered, length-limited text of the last update; the
run up to (but excluding) the window's expiry issues no edit at all. -/
theorem debounce_single_edit (env : Env) (mid t1 : Nat) (x1 : Str)
    (us : List (Nat × Str)) (tn : Nat) (xn : Str)
    (hsend : env.sendRes 0 = some mid)
    (hx1 : trimStr x1 ≠ [])
    (hall : ∀ p ∈ us ++ [(tn, xn)], trimStr p.2 ≠ [])
    (hchain : chainOk t1 (us ++ [(tn, xn)]))
    (hdiff : xn ≠ x1) :
    (runOps env initState
        (Op.upd t1 (textPayload x1) ::
          (updOps (us ++ [(tn, xn)]) ++ [Op.settle (tn + DEBOUNCE_MS)]))).2 =
      [Call.send x1 (truncateText x1 env.textLimit) (some mid),
        Call.edit mid xn (env.render (truncateText xn TELEGRAM_TEXT_LIMIT))
          (env.editOk 0)] ∧
    (runOps env initState
        (Op.upd t1 (textPayload x1) :: updOps (us ++ [(tn, xn)]))).2 =
      [Call.send x1 (truncateText x1 env.textLimit) (some mid)] := by
  have hstep1 : applyOp env (Op.upd t1 (textPayload x1)) initState =
      ((⟨some mid, none, x1, none, false, 1, 0, 0⟩ : TrackerState),
        [Call.send x1 (truncateText x1 env.textLimit) (some mid)]) := by
    unfold applyOp
    simp only [opTime]
    rw [fire_not_due_none env t1 initState rfl]
    simp only
    unfold handleToolUpdate
    rw [show initState.stopped = false from rfl]
    rw [show hasMedia (textPayload x1) = false from rfl]
    simp only [Bool.false_eq_true, if_false]
    rw [show (textPayload x1).text.getD [] = x1 from rfl]
    rw [isEmpty_false_of_ne hx1]
    simp only [Bool.false_eq_true, if_false]
    rw [show initState.activeMessageId = none from rfl]
    rw [show initState.sendCount = 0 from rfl, hsend]
    rfl
  have hrun1 : runOps env initState [Op.upd t1 (textPayload x1)] =
      ((⟨some mid, none, x1, none, false, 1, 0, 0⟩ : TrackerState),
        [Call.send x1 (truncateText x1 env.textLimit) (some mid)]) := by
    rw [runOps, runOps, hstep1]
    simp
  have hbuf : runOps env (⟨some mid, none, x1, none, false, 1, 0, 0⟩ : TrackerState)
      (updOps (us ++ [(tn, xn)])) =
      ((⟨some mid, some xn, x1, some (tn + DEBOUNCE_MS), false, 1, 0, 0⟩ : TrackerState),
        []) := by
    rw [bufferRun env us tn xn _ mid t1 rfl rfl (Or.inl rfl) hchain hall]
  have hflush : flushEdit env
      (⟨some mid, some xn, x1, some (tn + DEBOUNCE_MS), false, 1, 0, 0⟩ : TrackerState) =
      ((⟨some mid, none, xn, none, false, 1, 1, 0⟩ : TrackerState),
        [Call.edit mid xn (env.render (truncateText xn TELEGRAM_TEXT_LIMIT))
          (env.editOk 0)]) := by
    simp [flushEdit, hdiff]
  have hsettle : applyOp env (Op.settle (tn + DEBOUNCE_MS))
      (⟨some mid, some xn, x1, some (tn + DEBOUNCE_MS), false, 1, 0, 0⟩ : TrackerState) =
      ((⟨some mid, none, xn, none, false, 1, 1, 0⟩ : TrackerState),
        [Call.edit mid xn (env.render (truncateText xn TELEGRAM_TEXT_LIMIT))
          (env.editOk 0)]) := by
    show fireIfDue env (tn + DEBOUNCE_MS)
        (⟨some mid, some xn, x1, some (tn + DEBOUNCE_MS), false, 1, 0, 0⟩ : TrackerState) = _
    unfold fireIfDue
    simp only
    rw [if_pos (Nat.le_refl _)]
    exact hflush
  have hrun3 : runOps env
      (⟨some mid, some xn, x1, some (tn + DEBOUNCE_MS), false, 1, 0, 0⟩ : TrackerState)
      [Op.settle (tn + DEBOUNCE_MS)] =
      ((⟨some mid, none, xn, none, false, 1, 1, 0⟩ : TrackerState),
        [Call.edit mid xn (env.render (truncateText xn TELEGRAM_TEXT_LIMIT))
          (env.editOk 0)]) := by
    rw [runOps, runOps, hsettle]
    simp
  constructor
  · rw [show (Op.upd t1 (textPayload x1) ::
        (updOps (us ++ [(tn, xn)]) ++ [Op.settle (tn + DEBOUNCE_MS)])) =
        ([Op.upd t1 (textPayload x1)] ++ updOps (us ++ [(tn, xn)])) ++
          [Op.settle (tn + DEBOUNCE_MS)] from by simp]
    rw [runOps_append, runOps_append, hrun1]
    dsimp only
    rw [hbuf]
    dsimp only
    rw [hrun3]
    simp
  · rw [show (Op.upd t1 (textPayload x1) :: updOps (us ++ [(tn, xn)])) =
        [Op.upd t1 (textPayload x1)] ++ updOps (us ++ [(tn, xn)]) from by simp]
    rw [runOps_append, hrun1]
    dsimp only
    rw [hbuf]
    simp

/-- C2 counterexample: two non-empty updates inside the window whose
texts are identical (`"A"` then `"A"`).  All of the claim's hypotheses
hold — the first update created the message, the second arrived within
2000 ms — yet after the window elapses *zero* edits are issued, not
exactly one: duplicate suppression compares the pending text against
`lastSentText`. -/
theorem debounce_duplicate_no_edit :
    (editCalls (runOps env0 initState
      [Op.upd 0 (textPayload "A".data), Op.upd 100 (textPayload "A".data),
        Op.settle 2100]).2).length ≠ 1 := by
  decide

/-- Witness for C2 at the spec's own scenario (`"Step 1..."` then
`"Step 2..."` 20 ms apart, window expiring at 2020 ms). -/
theorem debounce_single_edit_witness :
    (runOps env0 initState
        (Op.upd 0 (textPayload "Step 1...".data) ::
          (updOps ([] ++ [(20, "Step 2...".data)]) ++ [Op.settle (20 + DEBOUNCE_MS)]))).2 =
      [Call.send "Step 1...".data (truncateText "Step 1...".data env0.textLimit) (some 42),
        Call.edit 42 "Step 2...".data
          (env0.render (truncateText "Step 2...".data TELEGRAM_TEXT_LIMIT))
          (env0.editOk 0)] ∧
    (runOps env0 initState
        (Op.upd 0 (textPayload "Step 1...".data) ::
          updOps ([] ++ [(20, "Step 2...".data)]))).2 =
      [Call.send "Step 1...".data (truncateText "Step 1...".data env0.textLimit)
        (some 42)] :=
  debounce_single_edit env0 42 0 "Step 1...".data [] 20 "Step 2...".data rfl
    (by decide)
    (by intro p hp; simp only [List.nil_append, List.mem_singleton] at hp; rw [hp]; decide)
    (by exact ⟨by decide, trivial⟩)
    (by decide)

/-! ### The host JSON parser

`jsonParse` implements strict RFC 8259 JSON as `JSON.parse` accepts it:
surrounding whitespace, objects, arrays, strings with the standard
single-character escapes (`\uXXXX` escapes are outside the model's
scope), numbers kept as literals, `true`/`false`/`null`; trailing commas
and raw control characters inside strings are rejected. -/

def isDigit (c : Char) : Bool := '0' ≤ c && c ≤ '9'

def unescape (e : Char) : Option Char :=
  if e = '"' then some '"'
  else if e = '\\' then some '\\'
  else if e = '/' then some '/'
  else if e = 'n' then some '\n'
  else if e = 'r' then some '\r'
  else if e = 't' then some '\t'
  else if e = 'b' then some '\x08'
  else if e = 'f' then some '\x0c'
  else none

/-- String body parser, after the opening quote: returns the decoded
content and the input after the closing quote. -/
def parseStr : Str → Option (Str × Str)
  | [] => none
  | c :: r =>
    if c = '"' then some ([], r)
    else if c = '\\' then
      match r with
      | [] => none
      | e :: r2 =>
        (match unescape e with
          | some d => (parseStr r2).map (fun p => (d :: p.1, p.2))
          | none => none)
    else if c.toNat < 32 then none
    else (parseStr r).map (fun p => (c :: p.1, p.2))

def scanExp (acc : Str) (cs : Str) : Option (Str × Str) :=
  match cs with
  | [] => some (acc, [])
  | e :: r =>
    if e = 'e' || e = 'E' then
      let sgn : Str :=
        match r with
        | c :: _ => if c = '+' then ['+'] else if c = '-' then ['-'] else []
        | [] => []
      let r1 := r.drop sgn.length
      let ds := r1.takeWhile isDigit
      if ds.isEmpty then none
      else some (acc ++ e :: (sgn ++ ds), r1.dropWhile isDigit)
    else some (acc, cs)

def scanFrac (acc : Str) (cs : Str) : Option (Str × Str) :=
  match cs with
  | [] => scanExp acc []
  | c :: r =>
    if c = '.' then
      let ds := r.takeWhile isDigit
      if ds.isEmpty then none
      else scanExp (acc ++ '.' :: ds) (r.dropWhile isDigit)
    else scanExp acc (c :: r)

/-- JSON number grammar `-?(0|[1-9][0-9]*)(\.[0-9]+)?([eE][+-]?[0-9]+)?`. -/
def scanNumber (cs : Str) : Option (Str × Str) :=
  let neg : Str :=
    match cs with
    | c :: _ => if c = '-' then ['-'] else []
    | [] => []
  let cs1 := cs.drop neg.length
  match cs1 with
  | [] => none
  | c :: r =>
    if c = '0' then scanFrac (neg ++ ['0']) r
    else if isDigit c then
      scanFrac (neg ++ c :: r.takeWhile isDigit) (r.dropWhile isDigit)
    else none

/-- Dispatch after `{` / `[`: empty body closes immediately, anything
else is handed to the member/element parser. -/
def headCase (close : Char) (done : Str → Option (JsonV × Str))
    (k : Str → Option (JsonV × Str)) : Str → Option (JsonV × Str)
  | [] => k []
  | c2 :: r2 => if c2 = close then done r2 else k (c2 :: r2)

/-- Plumb an intermediate parse result. -/
def optCase {α : Type} (k : α → Option (JsonV × Str)) :
    Option α → Option (JsonV × Str)
  | none => none
  | some a => k a

/-- Require a separator character. -/
def sepCase (sep : Char) (k : Str → Option (JsonV × Str)) : Str → Option (JsonV × Str)
  | [] => none
  | c2 :: r2 => if c2 = sep then k r2 else none

/-- After an item: a comma continues, the closer finishes. -/
def endCase (close : Char) (done : Str → Option (JsonV × Str))
    (k : Str → Option (JsonV × Str)) : Str → Option (JsonV × Str)
  | [] => none
  | c3 :: r4 =>
    if c3 = ',' then k r4
    else if c3 = close then done r4
    else none

mutual

def parseVal : Nat → Str → Option (JsonV × Str)
  | 0, _ => none
  | _ + 1, [] => none
  | fuel + 1, c :: r =>
      if c = '{' then
        headCase '}' (fun r2 => some (.jobj [], r2))
          (fun cs => parseMembers fuel cs []) (r.dropWhile isJsonWs)
      else if c = '[' then
        headCase ']' (fun r2 => some (.jarr [], r2))
          (fun cs => parseElems fuel cs []) (r.dropWhile isJsonWs)
      else if c = '"' then (parseStr r).map (fun p => (.jstr p.1, p.2))
      else if c = 't' then
        if startsWithStr "rue".data r then some (.jbool true, r.drop 3) else none
      else if c = 'f' then
        if startsWithStr "alse".data r then some (.jbool false, r.drop 4) else none
      else if c = 'n' then
        if startsWithStr "ull".data r then some (.jnull, r.drop 3) else none
      else (scanNumber (c :: r)).map (fun p => (.jnum p.1, p.2))

def parseMembers : Nat → Str → List (Str × JsonV) → Option (JsonV × Str)
  | 0, _, _ => none
  | _ + 1, [], _ => none
  | fuel + 1, c :: r, acc =>
      if c = '"' then
        optCase (fun kp =>
          sepCase ':' (fun r2 =>
            optCase (fun vp =>
              endCase '}'
                (fun r4 => some (.jobj (acc ++ [(kp.1, vp.1)]), r4))
                (fun r4 => parseMembers fuel (r4.dropWhile isJsonWs)
                  (acc ++ [(kp.1, vp.1)]))
                (vp.2.dropWhile isJsonWs))
              (parseVal fuel (r2.dropWhile isJsonWs)))
            (kp.2.dropWhile isJsonWs))
          (parseStr r)
      else none

def parseElems : Nat → Str → List JsonV → Option (JsonV × Str)
  | 0, _, _ => none
  | fuel + 1, cs, acc =>
    optCase (fun vp =>
      endCase ']'
        (fun r2 => some (.jarr (acc ++ [vp.1]), r2))
        (fun r2 => parseElems fuel (r2.dropWhile isJsonWs) (acc ++ [vp.1]))
        (vp.2.dropWhile isJsonWs))
      (parseVal fuel cs)

end

/-- `JSON.parse`: parse one element, allow surrounding whitespace,
require the whole input consumed. -/
def jsonParse (cs : Str) : Option JsonV :=
  match parseVal (cs.length + 1) (cs.dropWhile isJsonWs) with
  | some (v, rest) => if (rest.dropWhile isJsonWs).isEmpty then some v else none
  | none => none

/-! ### Defect-variant grammar for the repair-cascade equivalence

`Gram srt raw clean v dn dt` relates a *variant* rendering `raw` of a
JSON document (which may contain the two defect shapes the cascade
repairs: literal newlines/returns inside string literals, flagged `dn`,
and a single trailing comma before a closing bracket, flagged `dt`) to
its *clean* rendering `clean` (defects escaped/dropped) and the decoded
value `v`.  String literals carry the hazard-freedom side conditions
(`tcSafe`) under which `fixTrailingCommas` — a blind global regex — is
guaranteed not to rewrite string interiors. -/

/-- Whitespace-only (JSON structural whitespace). -/
def wsOnly (w : Str) : Prop := w.all isJsonWs = true

/-- Context to the right of a parsed value inside a document: nothing,
or a separator/closer possibly preceded by whitespace. -/
def restOk : Str → Prop
  | [] => True
  | c :: _ => isJsonWs c = true ∨ c = ',' ∨ c = ']' ∨ c = '}'

/-- No comma in this text is followed (after `\s*`) by `}` or `]` within
the text: the trailing-comma regex cannot fire strictly inside it. -/
def tcSafe : Str → Bool
  | [] => true
  | c :: rest =>
    (if c = ',' then
      match rest.dropWhile isWsChar with
      | b :: _ => !(b = '}') && !(b = ']')
      | [] => true
    else true) && tcSafe rest

/-- Escape the raw-newline / raw-return defects of a string-literal
body (on well-formed bodies a plain character map is exact). -/
def escBody (s : Str) : Str :=
  s.flatMap (fun c => if c = '\n' then ['\\', 'n'] else if c = '\r' then ['\\', 'r'] else [c])

/-- String-literal body: raw variant, clean variant, decoded content,
newline-defect flag. -/
inductive StrBody : Str → Str → Str → Bool → Prop where
  | nil : StrBody [] [] [] false
  | raw (c : Char) {r k dec : Str} {d : Bool} (h1 : ¬ c = '"') (h2 : ¬ c = '\\')
      (h3 : ¬ c.toNat < 32) (hs : StrBody r k dec d) :
      StrBody (c :: r) (c :: k) (c :: dec) d
  | esc (e c : Char) {r k dec : Str} {d : Bool} (he : unescape e = some c)
      (hs : StrBody r k dec d) :
      StrBody ('\\' :: e :: r) ('\\' :: e :: k) (c :: dec) d
  | rawLF {r k dec : Str} {d : Bool} (hs : StrBody r k dec d) :
      StrBody ('\n' :: r) ('\\' :: 'n' :: k) ('\n' :: dec) true
  | rawCR {r k dec : Str} {d : Bool} (hs : StrBody r k dec d) :
      StrBody ('\r' :: r) ('\\' :: 'r' :: k) ('\r' :: dec) true

/-- A non-empty digit run. -/
def digits1 (s : Str) : Bool := !s.isEmpty && s.all isDigit

/-- JSON integer part: `0` or `[1-9][0-9]*`. -/
def intOk : Str → Bool
  | [] => false
  | c :: r => (c = '0' && r.isEmpty) || (('1' ≤ c && c ≤ '9') && r.all isDigit)

/-- Optional fraction part: empty or `.[0-9]+`. -/
def fracOk : Str → Bool
  | [] => true
  | c :: r => c = '.' && digits1 r

/-- Optional exponent part: empty or `[eE][+-]?[0-9]+`. -/
def expOk : Str → Bool
  | [] => true
  | e :: t =>
    (e = 'e' || e = 'E') &&
      (match t with
        | [] => false
        | c :: t2 => if c = '+' || c = '-' then digits1 t2 else digits1 t)

/-- The number grammar `-?(0|[1-9][0-9]*)(\.[0-9]+)?([eE][+-]?[0-9]+)?`. -/
def numLit (lit : Str) : Prop :=
  ∃ sgn ip fp ep : Str, lit = sgn ++ ip ++ fp ++ ep ∧
    (sgn = [] ∨ sgn = ['-']) ∧ intOk ip = true ∧ fracOk fp = true ∧ expOk ep = true

/-- The three syntactic sorts of the grammar. -/
inductive GSort where
  | val
  | aitems
  | oitems

/-- The defect-variant grammar.  `aitems`/`oitems` cover the region
from the first character of the first element/member up to (but not
including) the closing bracket and any trailing comma; the decoded
value of an item region is the corresponding `jarr`/`jobj`. -/
inductive Gram : GSort → Str → Str → JsonV → Bool → Bool → Prop where
  | vnull : Gram .val "null".data "null".data .jnull false false
  | vtrue : Gram .val "true".data "true".data (.jbool true) false false
  | vfalse : Gram .val "false".data "false".data (.jbool false) false false
  | vnum (lit : Str) (h : numLit lit) : Gram .val lit lit (.jnum lit) false false
  | vstr {rb cb dec : Str} {dn : Bool} (hs : StrBody rb cb dec dn)
      (h1 : tcSafe rb = true) (h2 : tcSafe (escBody rb) = true) :
      Gram .val ('"' :: rb ++ ['"']) ('"' :: cb ++ ['"']) (.jstr dec) dn false
  | varrNil (w : Str) (hw : wsOnly w) :
      Gram .val ('[' :: w ++ [']']) ('[' :: w ++ [']']) (.jarr []) false false
  | varrNilTC (w wt : Str) (hw : wsOnly w) (hwt : wsOnly wt) :
      Gram .val ('[' :: w ++ ',' :: wt ++ [']']) ('[' :: w ++ [']']) (.jarr []) false true
  | varr {ri ki : Str} {vs : List JsonV} {dn dt : Bool} (wa : Str) (hwa : wsOnly wa)
      (hi : Gram .aitems ri ki (.jarr vs) dn dt) :
      Gram .val ('[' :: wa ++ ri ++ [']']) ('[' :: wa ++ ki ++ [']']) (.jarr vs) dn dt
  | varrTC {ri ki : Str} {vs : List JsonV} {dn dt : Bool} (wa wt : Str)
      (hwa : wsOnly wa) (hwt : wsOnly wt)
      (hi : Gram .aitems ri ki (.jarr vs) dn dt) :
      Gram .val ('[' :: wa ++ ri ++ ',' :: wt ++ [']']) ('[' :: wa ++ ki ++ [']'])
        (.jarr vs) dn true
  | vobjNil (w : Str) (hw : wsOnly w) :
      Gram .val ('{' :: w ++ ['}']) ('{' :: w ++ ['}']) (.jobj []) false false
  | vobjNilTC (w wt : Str) (hw : wsOnly w) (hwt : wsOnly wt) :
      Gram .val ('{' :: w ++ ',' :: wt ++ ['}']) ('{' :: w ++ ['}']) (.jobj []) false true
  | vobj {ri ki : Str} {fs : List (Str × JsonV)} {dn dt : Bool} (wa : Str)
      (hwa : wsOnly wa) (hi : Gram .oitems ri ki (.jobj fs) dn dt) :
      Gram .val ('{' :: wa ++ ri ++ ['}']) ('{' :: wa ++ ki ++ ['}']) (.jobj fs) dn dt
  | vobjTC {ri ki : Str} {fs : List (Str × JsonV)} {dn dt : Bool} (wa wt : Str)
      (hwa : wsOnly wa) (hwt : wsOnly wt)
      (hi : Gram .oitems ri ki (.jobj fs) dn dt) :
      Gram .val ('{' :: wa ++ ri ++ ',' :: wt ++ ['}']) ('{' :: wa ++ ki ++ ['}'])
        (.jobj fs) dn true
  | aLast {rv kv : Str} {v : JsonV} {dn dt : Bool} (wb : Str) (hwb : wsOnly wb)
      (hv : Gram .val rv kv v dn dt) :
      Gram .aitems (rv ++ wb) (kv ++ wb) (.jarr [v]) dn dt
  | aCons {rv kv ri ki : Str} {v : JsonV} {vs : List JsonV} {dn1 dt1 dn2 dt2 : Bool}
      (wb wa : Str) (hwb : wsOnly wb) (hwa : wsOnly wa)
      (hv : Gram .val rv kv v dn1 dt1)
      (hi : Gram .aitems ri ki (.jarr vs) dn2 dt2) :
      Gram .aitems (rv ++ wb ++ ',' :: wa ++ ri) (kv ++ wb ++ ',' :: wa ++ ki)
        (.jarr (v :: vs)) (dn1 || dn2) (dt1 || dt2)
  | oLast {rb cb kdec rv kv : Str} {v : JsonV} {dk dn dt : Bool} (wb wc wd : Str)
      (hwb : wsOnly wb) (hwc : wsOnly wc) (hwd : wsOnly wd)
      (hk : StrBody rb cb kdec dk)
      (hk1 : tcSafe rb = true) (hk2 : tcSafe (escBody rb) = true)
      (hv : Gram .val rv kv v dn dt) :
      Gram .oitems ('"' :: rb ++ ['"'] ++ wb ++ ':' :: wc ++ rv ++ wd)
        ('"' :: cb ++ ['"'] ++ wb ++ ':' :: wc ++ kv ++ wd)
        (.jobj [(kdec, v)]) (dk || dn) dt
  | oCons {rb cb kdec rv kv ri ki : Str} {v : JsonV} {fs : List (Str × JsonV)}
      {dk dn1 dt1 dn2 dt2 : Bool} (wb wc wd wa : Str)
      (hwb : wsOnly wb) (hwc : wsOnly wc) (hwd : wsOnly wd) (hwa : wsOnly wa)
      (hk : StrBody rb cb kdec dk)
      (hk1 : tcSafe rb = true) (hk2 : tcSafe (escBody rb) = true)
      (hv : Gram .val rv kv v dn1 dt1)
      (hi : Gram .oitems ri ki (.jobj fs) dn2 dt2) :
      Gram .oitems
        ('"' :: rb ++ ['"'] ++ wb ++ ':' :: wc ++ rv ++ wd ++ ',' :: wa ++ ri)
        ('"' :: cb ++ ['"'] ++ wb ++ ':' :: wc ++ kv ++ wd ++ ',' :: wa ++ ki)
        (.jobj ((kdec, v) :: fs)) ((dk || dn1) || dn2) (dt1 || dt2)

theorem dropWhile_app_of_all (p : Char → Bool) (a b : Str) (h : a.all p = true) :
    (a ++ b).dropWhile p = b.dropWhile p := by
  induction a with
  | nil => simp
  | cons c cs ih =>
    simp only [List.all_cons, Bool.and_eq_true] at h
    simp only [List.cons_append, List.dropWhile, h.1]
    exact ih h.2

theorem dropWhile_of_head_false (p : Char → Bool) (b : Str)
    (h : ∀ c r, b = c :: r → p c = false) : b.dropWhile p = b := by
  cases b with
  | nil => rfl
  | cons c r => simp [List.dropWhile, h c r rfl]

theorem takeWhile_app_of_all (p : Char → Bool) (a b : Str) (h : a.all p = true) :
    (a ++ b).takeWhile p = a ++ b.takeWhile p := by
  induction a with
  | nil => simp
  | cons c cs ih =>
    simp only [List.all_cons, Bool.and_eq_true] at h
    simp only [List.cons_append, List.takeWhile, h.1]
    rw [List.append_eq, ih h.2]

theorem takeWhile_of_head_false (p : Char → Bool) (b : Str)
    (h : ∀ c r, b = c :: r → p c = false) : b.takeWhile p = [] := by
  cases b with
  | nil => rfl
  | cons c r => simp [List.takeWhile, h c r rfl]

theorem startsWithStr_self_append : ∀ (pat x : Str), startsWithStr pat (pat ++ x) = true := by
  intro pat x
  induction pat with
  | nil => rfl
  | cons p ps ih => simp [startsWithStr, ih]

theorem wsJson_to_wsChar {c : Char} (h : isJsonWs c = true) : isWsChar c = true := by
  simp only [isJsonWs, Bool.or_eq_true] at h
  rcases h with ((h | h) | h) | h <;> simp [isWsChar, h]

theorem unescape_not_nlcr {e c : Char} (h : unescape e = some c) :
    ¬ e = '\n' ∧ ¬ e = '\r' := by
  constructor <;> intro he <;> subst he <;> simp [unescape] at h

theorem strBody_clean {rb cb dec : Str} {dn : Bool} (h : StrBody rb cb dec dn) :
    cb = escBody rb := by
  induction h with
  | nil => rfl
  | raw c h1 h2 h3 hs ih =>
    have hn : ¬ c = '\n' := by
      intro hc; subst hc; exact h3 (by decide)
    have hr : ¬ c = '\r' := by
      intro hc; subst hc; exact h3 (by decide)
    simp [escBody, hn, hr] at ih ⊢
    exact ih
  | esc e c he hs ih =>
    have hne := unescape_not_nlcr he
    simp [escBody, hne.1, hne.2] at ih ⊢
    exact ih
  | rawLF hs ih =>
    simp [escBody] at ih ⊢
    exact ih
  | rawCR hs ih =>
    simp [escBody] at ih ⊢
    exact ih

theorem escBody_mem {xs : Str} : ∀ c ∈ escBody xs, ¬ c = '\n' ∧ ¬ c = '\r' := by
  induction xs with
  | nil => intro c hc; simp [escBody] at hc
  | cons x r ih =>
    intro c hc
    simp only [escBody, List.flatMap_cons] at hc
    rw [List.mem_append] at hc
    rcases hc with hc | hc
    · by_cases hx1 : x = '\n'
      · simp [hx1] at hc
        rcases hc with hc | hc <;> simp [hc]
      · by_cases hx2 : x = '\r'
        · simp [hx1, hx2] at hc
          rcases hc with hc | hc <;> simp [hc]
        · simp [hx1, hx2] at hc
          subst hc
          exact ⟨hx1, hx2⟩
    · exact ih c (by simpa [escBody] using hc)

theorem escBody_fixpoint {xs : Str} (h : ∀ c ∈ xs, ¬ c = '\n' ∧ ¬ c = '\r') :
    escBody xs = xs := by
  induction xs with
  | nil => rfl
  | cons x r ih =>
    have hx := h x (by simp)
    simp only [escBody, List.flatMap_cons, if_neg hx.1, if_neg hx.2]
    simp only [List.singleton_append, List.cons.injEq, true_and]
    exact ih (fun c hc => h c (by simp [hc]))

theorem escBody_idem (xs : Str) : escBody (escBody xs) = escBody xs :=
  escBody_fixpoint escBody_mem

theorem cleanStrBody {rb cb dec : Str} {dn : Bool} (h : StrBody rb cb dec dn) :
    StrBody cb cb dec false := by
  induction h with
  | nil => exact .nil
  | raw c h1 h2 h3 hs ih => exact .raw c h1 h2 h3 ih
  | esc e c he hs ih => exact .esc e c he ih
  | rawLF hs ih => exact .esc 'n' '\n' (by simp [unescape]) ih
  | rawCR hs ih => exact .esc 'r' '\r' (by simp [unescape]) ih

theorem strBody_defect_free_eq : ∀ {rb cb dec : Str} {dn : Bool},
    StrBody rb cb dec dn → dn = false → rb = cb := by
  intro rb cb dec dn h
  induction h with
  | nil => intro _; rfl
  | raw c h1 h2 h3 hs ih => intro hd; rw [ih hd]
  | esc e c he hs ih => intro hd; rw [ih hd]
  | rawLF hs ih => intro hd; cases hd
  | rawCR hs ih => intro hd; cases hd

theorem parseStr_quote (rest : Str) : parseStr ('"' :: rest) = some ([], rest) := by
  conv_lhs => unfold parseStr
  rw [if_pos rfl]

theorem parseStr_raw_step (c : Char) (r : Str) (h1 : ¬ c = '"') (h2 : ¬ c = '\\')
    (h3 : ¬ c.toNat < 32) :
    parseStr (c :: r) = (parseStr r).map (fun p => (c :: p.1, p.2)) := by
  conv_lhs => unfold parseStr
  rw [if_neg h1, if_neg h2, if_neg h3]

theorem parseStr_esc_step (e c : Char) (r2 : Str) (he : unescape e = some c) :
    parseStr ('\\' :: e :: r2) = (parseStr r2).map (fun p => (c :: p.1, p.2)) := by
  conv_lhs => unfold parseStr
  rw [if_neg (show ¬('\\' : Char) = '"' by decide), if_pos rfl]
  simp only [he]

theorem parseStr_nl (r : Str) : parseStr ('\n' :: r) = none := by
  conv_lhs => unfold parseStr
  rw [if_neg (show ¬('\n' : Char) = '"' by decide),
      if_neg (show ¬('\n' : Char) = '\\' by decide),
      if_pos (show ('\n' : Char).toNat < 32 by decide)]

theorem parseStr_cr (r : Str) : parseStr ('\r' :: r) = none := by
  conv_lhs => unfold parseStr
  rw [if_neg (show ¬('\r' : Char) = '"' by decide),
      if_neg (show ¬('\r' : Char) = '\\' by decide),
      if_pos (show ('\r' : Char).toNat < 32 by decide)]

theorem parseStr_body {rb cb dec : Str} {dn : Bool} (h : StrBody rb cb dec dn) :
    ∀ rest, parseStr (rb ++ '"' :: rest) = (if dn then none else some (dec, rest)) := by
  induction h with
  | nil => intro rest; simp [parseStr_quote]
  | raw c h1 h2 h3 hs ih =>
    intro rest
    rw [List.cons_append, parseStr_raw_step c _ h1 h2 h3, ih rest]
    split <;> simp_all
  | esc e c he hs ih =>
    intro rest
    rw [List.cons_append, List.cons_append, parseStr_esc_step e c _ he, ih rest]
    split <;> simp_all
  | rawLF hs ih =>
    intro rest
    simp [parseStr_nl]
  | rawCR hs ih =>
    intro rest
    simp [parseStr_cr]

theorem takeWhile_eq_self_of_all (p : Char → Bool) (l : Str) (h : l.all p = true) :
    l.takeWhile p = l := by
  induction l with
  | nil => rfl
  | cons c r ih =>
    simp only [List.all_cons, Bool.and_eq_true] at h
    simp [List.takeWhile_cons, h.1, ih h.2]

theorem dropWhile_eq_nil_of_all (p : Char → Bool) (l : Str) (h : l.all p = true) :
    l.dropWhile p = [] := by
  induction l with
  | nil => rfl
  | cons c r ih =>
    simp only [List.all_cons, Bool.and_eq_true] at h
    simp [List.dropWhile_cons, h.1, ih h.2]

theorem split_run (p : Char → Bool) (r rest : Str) (hrest : rest.takeWhile p = []) :
    (r ++ rest).takeWhile p = r.takeWhile p ∧
    (r ++ rest).dropWhile p = r.dropWhile p ++ rest := by
  induction r with
  | nil =>
    refine ⟨hrest, ?_⟩
    cases rest with
    | nil => rfl
    | cons c cs =>
      rw [List.takeWhile_cons] at hrest
      by_cases hc : p c
      · rw [if_pos hc] at hrest; cases hrest
      · simp [List.dropWhile_cons, hc]
  | cons c cs ih =>
    by_cases hc : p c
    · simp only [List.cons_append, List.takeWhile_cons, List.dropWhile_cons, hc, if_true]
      refine ⟨?_, ih.2⟩
      rw [ih.1]
    · simp [List.takeWhile_cons, List.dropWhile_cons, hc]

theorem run_split (p : Char → Bool) {t rest : Str} (hall : t.all p = true)
    (hrest : rest.takeWhile p = []) :
    (t ++ rest).takeWhile p = t ∧ (t ++ rest).dropWhile p = rest := by
  obtain ⟨h1, h2⟩ := split_run p t rest hrest
  rw [takeWhile_eq_self_of_all p t hall] at h1
  rw [dropWhile_eq_nil_of_all p t hall] at h2
  exact ⟨h1, by simpa using h2⟩

/-- What may legally follow a number literal without extending it. -/
def stopOk (rest : Str) : Prop :=
  rest.takeWhile isDigit = [] ∧
    ∀ c r, rest = c :: r → (c = 'e' || c = 'E') = false ∧ ¬ c = '.'

theorem restOk_head_cases {c : Char} {r : Str} (h : restOk (c :: r)) :
    c = ' ' ∨ c = '\t' ∨ c = '\n' ∨ c = '\r' ∨ c = ',' ∨ c = ']' ∨ c = '}' := by
  rcases h with h | h | h | h
  · simp only [isJsonWs, Bool.or_eq_true, decide_eq_true_eq] at h
    rcases h with ((h | h) | h) | h <;> simp [h]
  · simp [h]
  · simp [h]
  · simp [h]

theorem restOk_stop {rest : Str} (h : restOk rest) : stopOk rest := by
  cases rest with
  | nil => exact ⟨rfl, fun c r hc => by cases hc⟩
  | cons c r =>
    have hc := restOk_head_cases h
    constructor
    · rw [List.takeWhile_cons, if_neg ?_]
      rcases hc with h | h | h | h | h | h | h <;> subst h <;> decide
    · intro c2 r2 he
      injection he with he1 he2
      subst he1
      rcases hc with h | h | h | h | h | h | h <;> subst h <;> exact ⟨by decide, by decide⟩

theorem digits1_parts {s : Str} (h : digits1 s = true) :
    s.isEmpty = false ∧ s.all isDigit = true := by
  simp only [digits1, Bool.and_eq_true, Bool.not_eq_true'] at h
  exact h

theorem scanExp_lit {ep : Str} (he : expOk ep = true) (acc : Str) {rest : Str}
    (hs : stopOk rest) : scanExp acc (ep ++ rest) = some (acc ++ ep, rest) := by
  cases ep with
  | nil =>
    simp only [List.nil_append, List.append_nil]
    cases rest with
    | nil => simp [scanExp]
    | cons c r =>
      have hc := (hs.2 c r rfl).1
      simp [scanExp, hc]
  | cons e t =>
    simp only [expOk, Bool.and_eq_true] at he
    obtain ⟨he1, he2⟩ := he
    cases t with
    | nil => cases he2
    | cons c t2 =>
      have he2' : (if (c = '+' || c = '-') = true then digits1 t2 else digits1 (c :: t2)) =
          true := he2
      simp only [List.cons_append, scanExp, he1, if_true]
      by_cases hp : c = '+'
      · subst hp
        rw [if_pos (by decide)] at he2'
        obtain ⟨hne, hall⟩ := digits1_parts he2'
        obtain ⟨ht, hd⟩ := run_split isDigit hall hs.1
        rw [if_pos (show ('+' : Char) = '+' from rfl)]
        simp [ht, hd, hne]
      · by_cases hm : c = '-'
        · subst hm
          rw [if_pos (by decide)] at he2'
          obtain ⟨hne, hall⟩ := digits1_parts he2'
          obtain ⟨ht, hd⟩ := run_split isDigit hall hs.1
          rw [if_neg (show ¬ ('-' : Char) = '+' by decide),
            if_pos (show ('-' : Char) = '-' from rfl)]
          simp [ht, hd, hne]
        · rw [if_neg (by simp [hp, hm])] at he2'
          obtain ⟨hne, hall⟩ := digits1_parts he2'
          obtain ⟨ht, hd⟩ := run_split isDigit hall hs.1
          rw [if_neg hp, if_neg hm]
          simp only [List.length_nil, List.drop_zero]
          try simp only [List.cons_append] at ht hd
          rw [ht, hd, hne]
          simp

theorem exp_stop {ep : Str} (he : expOk ep = true) {rest : Str} (hs : stopOk rest) :
    (ep ++ rest).takeWhile isDigit = [] := by
  cases ep with
  | nil => simpa using hs.1
  | cons e t =>
    have hde : isDigit e = false := by
      simp only [expOk, Bool.and_eq_true, Bool.or_eq_true, decide_eq_true_eq] at he
      rcases he.1 with h | h <;> subst h <;> decide
    simp [List.takeWhile_cons, hde]

theorem tail_stop {fp ep : Str} (hf : fracOk fp = true) (he : expOk ep = true)
    {rest : Str} (hs : stopOk rest) : (fp ++ ep ++ rest).takeWhile isDigit = [] := by
  cases fp with
  | nil => simpa using exp_stop he hs
  | cons c ds =>
    simp only [fracOk, Bool.and_eq_true, decide_eq_true_eq] at hf
    obtain ⟨hc, _⟩ := hf
    subst hc
    simp only [List.cons_append, List.takeWhile_cons]
    rw [if_neg (by decide : ¬ isDigit '.' = true)]

theorem scanFrac_cons (acc : Str) (c : Char) (r : Str) :
    scanFrac acc (c :: r) =
      (if c = '.' then
        (if (r.takeWhile isDigit).isEmpty = true then none
         else scanExp (acc ++ '.' :: r.takeWhile isDigit) (r.dropWhile isDigit))
      else scanExp acc (c :: r)) := rfl

theorem scanNumber_neg (c : Char) (r : Str) :
    scanNumber ('-' :: c :: r) =
      (if c = '0' then scanFrac (['-'] ++ ['0']) r
       else if isDigit c = true then
         scanFrac (['-'] ++ c :: r.takeWhile isDigit) (r.dropWhile isDigit)
       else none) := rfl

theorem scanNumber_pos (c : Char) (r : Str) (hcm : ¬ c = '-') :
    scanNumber (c :: r) =
      (if c = '0' then scanFrac ([] ++ ['0']) r
       else if isDigit c = true then
         scanFrac ([] ++ c :: r.takeWhile isDigit) (r.dropWhile isDigit)
       else none) := by
  simp only [scanNumber]
  rw [if_neg hcm]
  simp only [List.length_nil, List.drop_zero]

theorem scanFrac_lit {fp ep : Str} (hf : fracOk fp = true) (he : expOk ep = true)
    (acc : Str) {rest : Str} (hs : stopOk rest) :
    scanFrac acc (fp ++ ep ++ rest) = some (acc ++ fp ++ ep, rest) := by
  cases fp with
  | nil =>
    simp only [List.nil_append, List.append_nil]
    cases ep with
    | nil =>
      simp only [List.nil_append, List.append_nil]
      cases rest with
      | nil => simp [scanFrac, scanExp]
      | cons c r =>
        have h1 := (hs.2 c r rfl).1
        have h2 := (hs.2 c r rfl).2
        rw [scanFrac_cons, if_neg h2]
        simp [scanExp, h1]
    | cons e t =>
      have hdot : ¬ e = '.' := by
        simp only [expOk, Bool.and_eq_true, Bool.or_eq_true, decide_eq_true_eq] at he
        rcases he.1 with h | h <;> subst h <;> decide
      rw [List.cons_append, scanFrac_cons, if_neg hdot, ← List.cons_append]
      exact scanExp_lit he acc hs
  | cons c ds =>
    simp only [fracOk, Bool.and_eq_true, decide_eq_true_eq] at hf
    obtain ⟨hc, hds⟩ := hf
    subst hc
    obtain ⟨hne, hall⟩ := digits1_parts hds
    obtain ⟨ht, hd⟩ := run_split isDigit hall (exp_stop he hs)
    simp only [List.cons_append, List.append_assoc]
    rw [scanFrac_cons, if_pos rfl, ht, hd, hne]
    simp only [Bool.false_eq_true, if_false]
    rw [scanExp_lit he (acc ++ '.' :: ds) hs]
    simp [List.append_assoc]

theorem scanNumber_lit {lit : Str} (h : numLit lit) {rest : Str} (hs : stopOk rest) :
    scanNumber (lit ++ rest) = some (lit, rest) := by
  obtain ⟨sgn, ip, fp, ep, hlit, hsgn, hip, hfp, hep⟩ := h
  subst hlit
  cases ip with
  | nil => cases hip
  | cons c ri =>
    simp only [intOk, Bool.or_eq_true, Bool.and_eq_true, decide_eq_true_eq] at hip
    have hfacts : (¬ c = '-') ∧ (c = '0' ∨ (¬ c = '0' ∧ isDigit c = true)) := by
      rcases hip with ⟨hc0, _⟩ | ⟨⟨h1c, hc9⟩, _⟩
      · subst hc0; exact ⟨by decide, Or.inl rfl⟩
      · refine ⟨?_, Or.inr ⟨?_, ?_⟩⟩
        · intro hcm; subst hcm; exact absurd h1c (by decide)
        · intro hc0; subst hc0; exact absurd h1c (by decide)
        · simp only [isDigit, Bool.and_eq_true, decide_eq_true_eq]
          exact ⟨le_trans (by decide) h1c, hc9⟩
    have htail : (fp ++ (ep ++ rest)).takeWhile isDigit = [] := by
      rw [← List.append_assoc]; exact tail_stop hfp hep hs
    rcases hsgn with hsgn | hsgn <;> subst hsgn
    · simp only [List.nil_append, List.cons_append, List.append_assoc]
      rw [scanNumber_pos c _ hfacts.1]
      rcases hfacts.2 with hc0 | ⟨hc0, hdc⟩
      · subst hc0
        rcases hip with ⟨_, hri⟩ | ⟨⟨h1c, _⟩, _⟩
        · have hri' : ri = [] := by simpa using hri
          subst hri'
          rw [if_pos rfl]
          simp only [List.nil_append]
          rw [← List.append_assoc, scanFrac_lit hfp hep ['0'] hs]
          simp [List.append_assoc]
        · exact absurd h1c (by decide)
      · rw [if_neg hc0, if_pos hdc]
        have hri : ri.all isDigit = true := by
          rcases hip with ⟨hc0', _⟩ | ⟨_, hri⟩
          · exact absurd hc0' hc0
          · exact hri
        obtain ⟨ht, hd⟩ := run_split isDigit hri htail
        rw [ht, hd]
        simp only [List.nil_append]
        rw [← List.append_assoc, scanFrac_lit hfp hep (c :: ri) hs]
        simp [List.append_assoc]
    · simp only [List.cons_append, List.nil_append, List.append_assoc]
      rw [scanNumber_neg]
      rcases hfacts.2 with hc0 | ⟨hc0, hdc⟩
      · subst hc0
        rcases hip with ⟨_, hri⟩ | ⟨⟨h1c, _⟩, _⟩
        · have hri' : ri = [] := by simpa using hri
          subst hri'
          rw [if_pos rfl]
          simp only [List.nil_append]
          rw [← List.append_assoc, scanFrac_lit hfp hep (['-'] ++ ['0']) hs]
          simp [List.append_assoc]
        · exact absurd h1c (by decide)
      · rw [if_neg hc0, if_pos hdc]
        have hri : ri.all isDigit = true := by
          rcases hip with ⟨hc0', _⟩ | ⟨_, hri⟩
          · exact absurd hc0' hc0
          · exact hri
        obtain ⟨ht, hd⟩ := run_split isDigit hri htail
        rw [ht, hd]
        rw [← List.append_assoc, scanFrac_lit hfp hep (['-'] ++ c :: ri) hs]
        simp [List.append_assoc]

/-- Prepend an already-parsed accumulator to an array value. -/
def jarrApp (acc : List JsonV) : JsonV → JsonV
  | .jarr vs => .jarr (acc ++ vs)
  | v => v

/-- Prepend an already-parsed accumulator to an object value. -/
def jobjApp (acc : List (Str × JsonV)) : JsonV → JsonV
  | .jobj fs => .jobj (acc ++ fs)
  | v => v

theorem restOk_wsClose {w : Str} (hw : wsOnly w) {c : Char}
    (hc : c = ',' ∨ c = ']' ∨ c = '}') (rest : Str) : restOk (w ++ c :: rest) := by
  cases w with
  | nil => exact Or.inr hc
  | cons x xs =>
    have hx : isJsonWs x = true := by
      simp only [wsOnly, List.all_cons, Bool.and_eq_true] at hw
      exact hw.1
    exact Or.inl hx

theorem dropWhile_ws_app {w : Str} (hw : wsOnly w) {c : Char} (hc : isJsonWs c = false)
    (rest : Str) : (w ++ c :: rest).dropWhile isJsonWs = c :: rest := by
  rw [dropWhile_app_of_all _ _ _ hw, List.dropWhile_cons, hc]
  simp

theorem parseVal_comma (g : Nat) (rest : Str) : parseVal g (',' :: rest) = none := by
  cases g <;> rfl

theorem parseVal_rbracket (g : Nat) (rest : Str) : parseVal g (']' :: rest) = none := by
  cases g <;> rfl

theorem parseMembers_comma (g : Nat) (rest : Str) (acc : List (Str × JsonV)) :
    parseMembers g (',' :: rest) acc = none := by
  cases g <;> rfl

theorem parseMembers_rbrace (g : Nat) (rest : Str) (acc : List (Str × JsonV)) :
    parseMembers g ('}' :: rest) acc = none := by
  cases g <;> rfl

theorem parseElems_comma (g : Nat) (rest : Str) (acc : List JsonV) :
    parseElems g (',' :: rest) acc = none := by
  cases g with
  | zero => rfl
  | succ g =>
    unfold parseElems
    rw [parseVal_comma]
    rfl

theorem parseElems_rbracket (g : Nat) (rest : Str) (acc : List JsonV) :
    parseElems g (']' :: rest) acc = none := by
  cases g with
  | zero => rfl
  | succ g =>
    unfold parseElems
    rw [parseVal_rbracket]
    rfl

theorem digit_facts {c : Char} (h : isDigit c = true) :
    isJsonWs c = false ∧ ¬ c = ']' ∧ ¬ c = '}' ∧ ¬ c = ',' ∧ ¬ c = '{' ∧ ¬ c = '[' ∧
      ¬ c = '"' ∧ ¬ c = 't' ∧ ¬ c = 'f' ∧ ¬ c = 'n' := by
  simp only [isDigit, Bool.and_eq_true, decide_eq_true_eq] at h
  obtain ⟨h1, h2⟩ := h
  refine ⟨?_, ?_, ?_, ?_, ?_, ?_, ?_, ?_, ?_, ?_⟩
  · by_cases hw : isJsonWs c = true
    · simp only [isJsonWs, Bool.or_eq_true, decide_eq_true_eq] at hw
      rcases hw with ((hw | hw) | hw) | hw <;> subst hw <;> exact absurd h1 (by decide)
    · simpa using hw
  · intro hc; subst hc; exact absurd h2 (by decide)
  · intro hc; subst hc; exact absurd h2 (by decide)
  · intro hc; subst hc; exact absurd h1 (by decide)
  · intro hc; subst hc; exact absurd h2 (by decide)
  · intro hc; subst hc; exact absurd h2 (by decide)
  · intro hc; subst hc; exact absurd h1 (by decide)
  · intro hc; subst hc; exact absurd h2 (by decide)
  · intro hc; subst hc; exact absurd h2 (by decide)
  · intro hc; subst hc; exact absurd h2 (by decide)

theorem intOk_head {c : Char} {ri : Str} (h : intOk (c :: ri) = true) : isDigit c = true := by
  simp only [intOk, Bool.or_eq_true, Bool.and_eq_true, decide_eq_true_eq] at h
  rcases h with ⟨hc0, _⟩ | ⟨⟨h1c, hc9⟩, _⟩
  · subst hc0; decide
  · simp only [isDigit, Bool.and_eq_true, decide_eq_true_eq]
    exact ⟨le_trans (by decide) h1c, hc9⟩

theorem wsChar_false_to_jsonWs {c : Char} (h : isWsChar c = false) : isJsonWs c = false := by
  by_cases hj : isJsonWs c = true
  · rw [wsJson_to_wsChar hj] at h; cases h
  · simpa using hj

theorem digit_not_wsChar {c : Char} (h : isDigit c = true) : isWsChar c = false := by
  by_cases hw : isWsChar c = true
  · simp only [isWsChar, Bool.or_eq_true, decide_eq_true_eq] at hw
    rcases hw with ((((h1 | h1) | h1) | h1) | h1) | h1 <;> subst h1 <;>
      exact absurd h (by decide)
  · simpa using hw

theorem gram_head {srt : GSort} {r k : Str} {v : JsonV} {dn dt : Bool}
    (hg : Gram srt r k v dn dt) :
    ∃ c r', r = c :: r' ∧ isWsChar c = false ∧ ¬ c = ']' ∧ ¬ c = '}' ∧ ¬ c = ',' := by
  induction hg with
  | vnull => exact ⟨'n', "ull".data, rfl, by decide, by decide, by decide, by decide⟩
  | vtrue => exact ⟨'t', "rue".data, rfl, by decide, by decide, by decide, by decide⟩
  | vfalse => exact ⟨'f', "alse".data, rfl, by decide, by decide, by decide, by decide⟩
  | vnum lit h =>
    obtain ⟨sgn, ip, fp, ep, hlit, hsgn, hip, _, _⟩ := h
    subst hlit
    cases ip with
    | nil => cases hip
    | cons c ri =>
      have hd := digit_facts (intOk_head hip)
      rcases hsgn with hsgn | hsgn <;> subst hsgn
      · exact ⟨c, (ri ++ fp) ++ ep, by simp, digit_not_wsChar (intOk_head hip), hd.2.1,
          hd.2.2.1, hd.2.2.2.1⟩
      · exact ⟨'-', ((c :: ri) ++ fp) ++ ep, by simp, by decide, by decide, by decide,
          by decide⟩
  | vstr hs h1 h2 =>
    rename_i rb cb dec dnn
    exact ⟨'"', rb ++ ['"'], by simp, by decide, by decide, by decide, by decide⟩
  | varrNil w hw =>
    exact ⟨'[', w ++ [']'], by simp, by decide, by decide, by decide, by decide⟩
  | varrNilTC w wt hw hwt =>
    exact ⟨'[', w ++ ',' :: (wt ++ [']']), by simp, by decide, by decide, by decide, by decide⟩
  | varr wa hwa hi ih =>
    rename_i ri ki vs dnn dtt
    exact ⟨'[', wa ++ (ri ++ [']']), by simp, by decide, by decide, by decide, by decide⟩
  | varrTC wa wt hwa hwt hi ih =>
    rename_i ri ki vs dnn dtt
    exact ⟨'[', wa ++ (ri ++ ',' :: (wt ++ [']'])), by simp, by decide, by decide, by decide,
      by decide⟩
  | vobjNil w hw =>
    exact ⟨'{', w ++ ['}'], by simp, by decide, by decide, by decide, by decide⟩
  | vobjNilTC w wt hw hwt =>
    exact ⟨'{', w ++ ',' :: (wt ++ ['}']), by simp, by decide, by decide, by decide, by decide⟩
  | vobj wa hwa hi ih =>
    rename_i ri ki fs dnn dtt
    exact ⟨'{', wa ++ (ri ++ ['}']), by simp, by decide, by decide, by decide, by decide⟩
  | vobjTC wa wt hwa hwt hi ih =>
    rename_i ri ki fs dnn dtt
    exact ⟨'{', wa ++ (ri ++ ',' :: (wt ++ ['}'])), by simp, by decide, by decide, by decide,
      by decide⟩
  | aLast wb hwb hv ih =>
    obtain ⟨c, r', hr, hf1, hf2, hf3, hf4⟩ := ih
    exact ⟨c, r' ++ wb, by simp [hr], hf1, hf2, hf3, hf4⟩
  | aCons wb wa hwb hwa hv hi ihv ihi =>
    rename_i rv kv ri ki v vs dn1 dt1 dn2 dt2
    obtain ⟨c, r', hr, hf1, hf2, hf3, hf4⟩ := ihv
    exact ⟨c, (r' ++ wb) ++ ',' :: (wa ++ ri), by simp [hr], hf1, hf2, hf3, hf4⟩
  | oLast wb wc wd hwb hwc hwd hk hk1 hk2 hv ih =>
    rename_i rb cb kdec rv kv v dk dnn dtt
    exact ⟨'"', (rb ++ ['"']) ++ wb ++ ':' :: (wc ++ (rv ++ wd)), by simp, by decide,
      by decide, by decide, by decide⟩
  | oCons wb wc wd wa hwb hwc hwd hwa hk hk1 hk2 hv hi ihv ihi =>
    rename_i rb cb kdec rv kv ri ki v fs dk dn1 dt1 dn2 dt2
    exact ⟨'"', (rb ++ ['"']) ++ wb ++ ':' :: (wc ++ (rv ++ (wd ++ ',' :: (wa ++ ri)))),
      by simp, by decide, by decide, by decide, by decide⟩

theorem headCase_cons (close : Char) (done k : Str → Option (JsonV × Str))
    (c2 : Char) (r2 : Str) :
    headCase close done k (c2 :: r2) =
      (if c2 = close then done r2 else k (c2 :: r2)) := rfl

theorem sepCase_cons (sep : Char) (k : Str → Option (JsonV × Str)) (c2 : Char) (r2 : Str) :
    sepCase sep k (c2 :: r2) = (if c2 = sep then k r2 else none) := rfl

theorem endCase_cons (close : Char) (done k : Str → Option (JsonV × Str))
    (c3 : Char) (r4 : Str) :
    endCase close done k (c3 :: r4) =
      (if c3 = ',' then k r4 else if c3 = close then done r4 else none) := rfl

theorem gram_parse {srt : GSort} {r k : Str} {v : JsonV} {dn dt : Bool}
    (hg : Gram srt r k v dn dt) :
    (srt = .val → ∀ rest fuel, restOk rest → r.length < fuel →
      parseVal fuel (r ++ rest) = (if dn || dt then none else some (v, rest))) ∧
    (srt = .aitems → ∀ rest wt fuel acc, restOk rest → wsOnly wt →
      r.length + wt.length + 1 < fuel →
      (parseElems fuel (r ++ ']' :: rest) acc =
        (if dn || dt then none else some (jarrApp acc v, rest))) ∧
      parseElems fuel (r ++ ',' :: (wt ++ ']' :: rest)) acc = none) ∧
    (srt = .oitems → ∀ rest wt fuel acc, restOk rest → wsOnly wt →
      r.length + wt.length + 1 < fuel →
      (parseMembers fuel (r ++ '}' :: rest) acc =
        (if dn || dt then none else some (jobjApp acc v, rest))) ∧
      parseMembers fuel (r ++ ',' :: (wt ++ '}' :: rest)) acc = none) := by
  induction hg with
  | vnull =>
    refine And.intro (fun _ => ?_) (And.intro (fun hx => nomatch hx) (fun hx => nomatch hx))
    intro rest fuel hrest hfu
    cases fuel with
    | zero => exact absurd hfu (Nat.not_lt_zero _)
    | succ f => rfl
  | vtrue =>
    refine And.intro (fun _ => ?_) (And.intro (fun hx => nomatch hx) (fun hx => nomatch hx))
    intro rest fuel hrest hfu
    cases fuel with
    | zero => exact absurd hfu (Nat.not_lt_zero _)
    | succ f => rfl
  | vfalse =>
    refine And.intro (fun _ => ?_) (And.intro (fun hx => nomatch hx) (fun hx => nomatch hx))
    intro rest fuel hrest hfu
    cases fuel with
    | zero => exact absurd hfu (Nat.not_lt_zero _)
    | succ f => rfl
  | vnum lit h =>
    refine And.intro (fun _ => ?_) (And.intro (fun hx => nomatch hx) (fun hx => nomatch hx))
    intro rest fuel hrest hfu
    obtain ⟨c, lit', hl, hcf⟩ : ∃ c l', lit = c :: l' ∧ (c = '-' ∨ isDigit c = true) := by
      obtain ⟨sgn, ip, fp, ep, hlit, hsgn, hip, _, _⟩ := h
      subst hlit
      cases ip with
      | nil => cases hip
      | cons c2 ri =>
        rcases hsgn with hsgn | hsgn <;> subst hsgn
        · exact ⟨c2, (ri ++ fp) ++ ep, by simp, Or.inr (intOk_head hip)⟩
        · exact ⟨'-', ((c2 :: ri) ++ fp) ++ ep, by simp, Or.inl rfl⟩
    have hnum := scanNumber_lit h (restOk_stop hrest)
    have hf : ¬ c = '{' ∧ ¬ c = '[' ∧ ¬ c = '"' ∧ ¬ c = 't' ∧ ¬ c = 'f' ∧ ¬ c = 'n' := by
      rcases hcf with hc | hc
      · subst hc
        exact ⟨by decide, by decide, by decide, by decide, by decide, by decide⟩
      · have hd := digit_facts hc
        exact ⟨hd.2.2.2.2.1, hd.2.2.2.2.2.1, hd.2.2.2.2.2.2.1, hd.2.2.2.2.2.2.2.1,
          hd.2.2.2.2.2.2.2.2.1, hd.2.2.2.2.2.2.2.2.2⟩
    subst hl
    cases fuel with
    | zero => exact absurd hfu (Nat.not_lt_zero _)
    | succ f =>
      rw [List.cons_append]
      conv_lhs => unfold parseVal
      rw [if_neg hf.1, if_neg hf.2.1, if_neg hf.2.2.1, if_neg hf.2.2.2.1,
        if_neg hf.2.2.2.2.1, if_neg hf.2.2.2.2.2]
      rw [← List.cons_append, hnum]
      rfl
  | vstr hs h1 h2 =>
    rename_i rb cb dec dnn
    refine And.intro (fun _ => ?_) (And.intro (fun hx => nomatch hx) (fun hx => nomatch hx))
    intro rest fuel hrest hfu
    cases fuel with
    | zero => exact absurd hfu (Nat.not_lt_zero _)
    | succ f =>
      have hshape : (('"' : Char) :: rb ++ ['"']) ++ rest = '"' :: (rb ++ '"' :: rest) := by
        simp
      rw [hshape]
      conv_lhs => unfold parseVal
      rw [if_neg (by decide : ¬ ('"' : Char) = '{'), if_neg (by decide : ¬ ('"' : Char) = '['),
        if_pos rfl, parseStr_body hs rest]
      cases dnn <;> rfl
  | varrNil w hw =>
    refine And.intro (fun _ => ?_) (And.intro (fun hx => nomatch hx) (fun hx => nomatch hx))
    intro rest fuel hrest hfu
    cases fuel with
    | zero => exact absurd hfu (Nat.not_lt_zero _)
    | succ f =>
      have hshape : (('[' : Char) :: w ++ [']']) ++ rest = '[' :: (w ++ ']' :: rest) := by
        simp
      rw [hshape]
      conv_lhs => unfold parseVal
      rw [if_neg (by decide : ¬ ('[' : Char) = '{'), if_pos rfl,
        dropWhile_ws_app hw (by decide) rest]
      rfl
  | varrNilTC w wt2 hw hwt2 =>
    refine And.intro (fun _ => ?_) (And.intro (fun hx => nomatch hx) (fun hx => nomatch hx))
    intro rest fuel hrest hfu
    cases fuel with
    | zero => exact absurd hfu (Nat.not_lt_zero _)
    | succ f =>
      have hshape : (('[' : Char) :: w ++ ',' :: wt2 ++ [']']) ++ rest =
          '[' :: (w ++ ',' :: (wt2 ++ ']' :: rest)) := by simp
      rw [hshape]
      conv_lhs => unfold parseVal
      rw [if_neg (by decide : ¬ ('[' : Char) = '{'), if_pos rfl,
        dropWhile_ws_app hw (by decide) _]
      exact parseElems_comma f (wt2 ++ ']' :: rest) []
  | varr wa hwa hi ih =>
    rename_i ri ki vs dnn dtt
    refine And.intro (fun _ => ?_) (And.intro (fun hx => nomatch hx) (fun hx => nomatch hx))
    intro rest fuel hrest hfu
    cases fuel with
    | zero => exact absurd hfu (Nat.not_lt_zero _)
    | succ f =>
      obtain ⟨c, ri', hric, hw1, hw2, hw3, hw4⟩ := gram_head hi
      have hshape : (('[' : Char) :: wa ++ ri ++ [']']) ++ rest =
          '[' :: (wa ++ (ri ++ ']' :: rest)) := by simp
      rw [hshape]
      conv_lhs => unfold parseVal
      rw [if_neg (by decide : ¬ ('[' : Char) = '{'), if_pos rfl]
      rw [hric, List.cons_append, dropWhile_ws_app hwa (wsChar_false_to_jsonWs hw1) _]
      rw [headCase_cons, if_neg hw2]
      show parseElems f (c :: (ri' ++ ']' :: rest)) [] = _
      rw [← List.cons_append, ← hric]
      have hlen : ri.length + ([] : Str).length + 1 < f := by
        simp only [List.length_append, List.length_cons, List.length_nil] at hfu ⊢
        omega
      rw [((ih.2.1) rfl rest [] f [] hrest (by rfl) hlen).1]
      cases hdd : (dnn || dtt) with
      | true => rfl
      | false => simp [jarrApp]
  | varrTC wa wt2 hwa hwt2 hi ih =>
    rename_i ri ki vs dnn dtt
    refine And.intro (fun _ => ?_) (And.intro (fun hx => nomatch hx) (fun hx => nomatch hx))
    intro rest fuel hrest hfu
    cases fuel with
    | zero => exact absurd hfu (Nat.not_lt_zero _)
    | succ f =>
      obtain ⟨c, ri', hric, hw1, hw2, hw3, hw4⟩ := gram_head hi
      have hshape : (('[' : Char) :: wa ++ ri ++ ',' :: wt2 ++ [']']) ++ rest =
          '[' :: (wa ++ (ri ++ ',' :: (wt2 ++ ']' :: rest))) := by simp
      rw [hshape]
      conv_lhs => unfold parseVal
      rw [if_neg (by decide : ¬ ('[' : Char) = '{'), if_pos rfl]
      rw [hric, List.cons_append, dropWhile_ws_app hwa (wsChar_false_to_jsonWs hw1) _]
      rw [headCase_cons, if_neg hw2]
      show parseElems f (c :: (ri' ++ ',' :: (wt2 ++ ']' :: rest))) [] = _
      rw [← List.cons_append, ← hric]
      have hlen : ri.length + wt2.length + 1 < f := by
        simp only [List.length_append, List.length_cons] at hfu ⊢
        omega
      rw [((ih.2.1) rfl rest wt2 f [] hrest hwt2 hlen).2]
      simp
  | vobjNil w hw =>
    refine And.intro (fun _ => ?_) (And.intro (fun hx => nomatch hx) (fun hx => nomatch hx))
    intro rest fuel hrest hfu
    cases fuel with
    | zero => exact absurd hfu (Nat.not_lt_zero _)
    | succ f =>
      have hshape : (('{' : Char) :: w ++ ['}']) ++ rest = '{' :: (w ++ '}' :: rest) := by
        simp
      rw [hshape]
      conv_lhs => unfold parseVal
      rw [if_pos rfl, dropWhile_ws_app hw (by decide) rest]
      rfl
  | vobjNilTC w wt2 hw hwt2 =>
    refine And.intro (fun _ => ?_) (And.intro (fun hx => nomatch hx) (fun hx => nomatch hx))
    intro rest fuel hrest hfu
    cases fuel with
    | zero => exact absurd hfu (Nat.not_lt_zero _)
    | succ f =>
      have hshape : (('{' : Char) :: w ++ ',' :: wt2 ++ ['}']) ++ rest =
          '{' :: (w ++ ',' :: (wt2 ++ '}' :: rest)) := by simp
      rw [hshape]
      conv_lhs => unfold parseVal
      rw [if_pos rfl, dropWhile_ws_app hw (by decide) _]
      exact parseMembers_comma f (wt2 ++ '}' :: rest) []
  | vobj wa hwa hi ih =>
    rename_i ri ki fs dnn dtt
    refine And.intro (fun _ => ?_) (And.intro (fun hx => nomatch hx) (fun hx => nomatch hx))
    intro rest fuel hrest hfu
    cases fuel with
    | zero => exact absurd hfu (Nat.not_lt_zero _)
    | succ f =>
      obtain ⟨c, ri', hric, hw1, hw2, hw3, hw4⟩ := gram_head hi
      have hshape : (('{' : Char) :: wa ++ ri ++ ['}']) ++ rest =
          '{' :: (wa ++ (ri ++ '}' :: rest)) := by simp
      rw [hshape]
      conv_lhs => unfold parseVal
      rw [if_pos rfl]
      rw [hric, List.cons_append, dropWhile_ws_app hwa (wsChar_false_to_jsonWs hw1) _]
      rw [headCase_cons, if_neg hw3]
      show parseMembers f (c :: (ri' ++ '}' :: rest)) [] = _
      rw [← List.cons_append, ← hric]
      have hlen : ri.length + ([] : Str).length + 1 < f := by
        simp only [List.length_append, List.length_cons, List.length_nil] at hfu ⊢
        omega
      rw [((ih.2.2) rfl rest [] f [] hrest (by rfl) hlen).1]
      cases hdd : (dnn || dtt) with
      | true => rfl
      | false => simp [jobjApp]
  | vobjTC wa wt2 hwa hwt2 hi ih =>
    rename_i ri ki fs dnn dtt
    refine And.intro (fun _ => ?_) (And.intro (fun hx => nomatch hx) (fun hx => nomatch hx))
    intro rest fuel hrest hfu
    cases fuel with
    | zero => exact absurd hfu (Nat.not_lt_zero _)
    | succ f =>
      obtain ⟨c, ri', hric, hw1, hw2, hw3, hw4⟩ := gram_head hi
      have hshape : (('{' : Char) :: wa ++ ri ++ ',' :: wt2 ++ ['}']) ++ rest =
          '{' :: (wa ++ (ri ++ ',' :: (wt2 ++ '}' :: rest))) := by simp
      rw [hshape]
      conv_lhs => unfold parseVal
      rw [if_pos rfl]
      rw [hric, List.cons_append, dropWhile_ws_app hwa (wsChar_false_to_jsonWs hw1) _]
      rw [headCase_cons, if_neg hw3]
      show parseMembers f (c :: (ri' ++ ',' :: (wt2 ++ '}' :: rest))) [] = _
      rw [← List.cons_append, ← hric]
      have hlen : ri.length + wt2.length + 1 < f := by
        simp only [List.length_append, List.length_cons] at hfu ⊢
        omega
      rw [((ih.2.2) rfl rest wt2 f [] hrest hwt2 hlen).2]
      simp
  | aLast wb hwb hv ih =>
    rename_i rv kv v2 dnn dtt
    refine And.intro (fun hx => nomatch hx) (And.intro (fun _ => ?_) (fun hx => nomatch hx))
    intro rest wt2 fuel acc hrest hwt2 hfu
    cases fuel with
    | zero => exact absurd hfu (Nat.not_lt_zero _)
    | succ f =>
      have hlen : rv.length < f := by
        simp only [List.length_append] at hfu
        omega
      constructor
      · have hshape : (rv ++ wb) ++ ']' :: rest = rv ++ (wb ++ ']' :: rest) := by simp
        rw [hshape]
        conv_lhs => unfold parseElems
        have hres : restOk (wb ++ ']' :: rest) :=
          restOk_wsClose hwb (Or.inr (Or.inl rfl)) rest
        rw [(ih.1 rfl) (wb ++ ']' :: rest) f hres hlen]
        cases hdd : (dnn || dtt) with
        | true => rfl
        | false =>
          show endCase ']'
              (fun r2 => some (.jarr (acc ++ [v2]), r2))
              (fun r2 => parseElems f (r2.dropWhile isJsonWs) (acc ++ [v2]))
              ((wb ++ ']' :: rest).dropWhile isJsonWs) = _
          rw [dropWhile_ws_app hwb (by decide) rest]
          rw [endCase_cons, if_neg (by decide : ¬ (']' : Char) = ','), if_pos rfl]
          simp [jarrApp]
      · have hshape : (rv ++ wb) ++ ',' :: (wt2 ++ ']' :: rest) =
            rv ++ (wb ++ ',' :: (wt2 ++ ']' :: rest)) := by simp
        rw [hshape]
        conv_lhs => unfold parseElems
        have hres : restOk (wb ++ ',' :: (wt2 ++ ']' :: rest)) :=
          restOk_wsClose hwb (Or.inl rfl) _
        rw [(ih.1 rfl) _ f hres hlen]
        cases hdd : (dnn || dtt) with
        | true => rfl
        | false =>
          show endCase ']'
              (fun r2 => some (.jarr (acc ++ [v2]), r2))
              (fun r2 => parseElems f (r2.dropWhile isJsonWs) (acc ++ [v2]))
              ((wb ++ ',' :: (wt2 ++ ']' :: rest)).dropWhile isJsonWs) = _
          rw [dropWhile_ws_app hwb (by decide) _]
          rw [endCase_cons, if_pos rfl, dropWhile_ws_app hwt2 (by decide) rest]
          exact parseElems_rbracket f rest (acc ++ [v2])
  | aCons wb wa hwb hwa hv hi ihv ihi =>
    rename_i rv kv ri ki v2 vs dn1 dt1 dn2 dt2
    refine And.intro (fun hx => nomatch hx) (And.intro (fun _ => ?_) (fun hx => nomatch hx))
    intro rest wt2 fuel acc hrest hwt2 hfu
    cases fuel with
    | zero => exact absurd hfu (Nat.not_lt_zero _)
    | succ f =>
      obtain ⟨c, ri', hric, hw1, hw2, hw3, hw4⟩ := gram_head hi
      have hlenv : rv.length < f := by
        simp only [List.length_append, List.length_cons] at hfu
        omega
      constructor
      · have hshape : rv ++ wb ++ ',' :: wa ++ ri ++ ']' :: rest =
            rv ++ (wb ++ ',' :: (wa ++ (ri ++ ']' :: rest))) := by simp
        rw [hshape]
        conv_lhs => unfold parseElems
        have hres : restOk (wb ++ ',' :: (wa ++ (ri ++ ']' :: rest))) :=
          restOk_wsClose hwb (Or.inl rfl) _
        rw [(ihv.1 rfl) _ f hres hlenv]
        cases hdd : (dn1 || dt1) with
        | true =>
          rcases Bool.or_eq_true_iff.mp hdd with h | h <;> rw [h] <;> simp [optCase]
        | false =>
          simp only [Bool.or_eq_false_iff] at hdd
          obtain ⟨hdn1, hdt1⟩ := hdd
          subst hdn1
          subst hdt1
          show endCase ']'
              (fun r2 => some (.jarr (acc ++ [v2]), r2))
              (fun r2 => parseElems f (r2.dropWhile isJsonWs) (acc ++ [v2]))
              ((wb ++ ',' :: (wa ++ (ri ++ ']' :: rest))).dropWhile isJsonWs) = _
          rw [dropWhile_ws_app hwb (by decide) _]
          rw [endCase_cons, if_pos rfl]
          have hdw2 : (wa ++ (ri ++ ']' :: rest)).dropWhile isJsonWs = ri ++ ']' :: rest := by
            rw [hric, List.cons_append]
            exact dropWhile_ws_app hwa (wsChar_false_to_jsonWs hw1) _
          rw [hdw2]
          have hlen2 : ri.length + ([] : Str).length + 1 < f := by
            simp only [List.length_append, List.length_cons, List.length_nil] at hfu ⊢
            omega
          rw [((ihi.2.1) rfl rest [] f (acc ++ [v2]) hrest (by rfl) hlen2).1]
          cases hd2 : (dn2 || dt2) with
          | true =>
            rcases Bool.or_eq_true_iff.mp hd2 with h | h <;> rw [h] <;> simp
          | false =>
            simp only [Bool.or_eq_false_iff] at hd2
            obtain ⟨h1, h2⟩ := hd2
            subst h1
            subst h2
            simp [jarrApp]
      · have hshape : rv ++ wb ++ ',' :: wa ++ ri ++ ',' :: (wt2 ++ ']' :: rest) =
            rv ++ (wb ++ ',' :: (wa ++ (ri ++ ',' :: (wt2 ++ ']' :: rest)))) := by simp
        rw [hshape]
        conv_lhs => unfold parseElems
        have hres : restOk (wb ++ ',' :: (wa ++ (ri ++ ',' :: (wt2 ++ ']' :: rest)))) :=
          restOk_wsClose hwb (Or.inl rfl) _
        rw [(ihv.1 rfl) _ f hres hlenv]
        cases hdd : (dn1 || dt1) with
        | true => rfl
        | false =>
          show endCase
              ']' (fun r2 => some (.jarr (acc ++ [v2]), r2))
              (fun r2 => parseElems f (r2.dropWhile isJsonWs) (acc ++ [v2]))
              ((wb ++ ',' :: (wa ++ (ri ++ ',' :: (wt2 ++ ']' :: rest)))).dropWhile isJsonWs)
              = _
          rw [dropWhile_ws_app hwb (by decide) _]
          rw [endCase_cons, if_pos rfl]
          have hdw2 : (wa ++ (ri ++ ',' :: (wt2 ++ ']' :: rest))).dropWhile isJsonWs =
              ri ++ ',' :: (wt2 ++ ']' :: rest) := by
            rw [hric, List.cons_append]
            exact dropWhile_ws_app hwa (wsChar_false_to_jsonWs hw1) _
          rw [hdw2]
          have hlen2 : ri.length + wt2.length + 1 < f := by
            simp only [List.length_append, List.length_cons] at hfu ⊢
            omega
          exact ((ihi.2.1) rfl rest wt2 f (acc ++ [v2]) hrest hwt2 hlen2).2
  | oLast wb wc wd hwb hwc hwd hk hk1 hk2 hv ih =>
    rename_i rb cb kdec rv kv v2 dk dnn dtt
    refine And.intro (fun hx => nomatch hx) (And.intro (fun hx => nomatch hx) (fun _ => ?_))
    intro rest wt2 fuel acc hrest hwt2 hfu
    cases fuel with
    | zero => exact absurd hfu (Nat.not_lt_zero _)
    | succ f =>
      obtain ⟨c, rv', hrvc, hv1, hv2x, hv3, hv4⟩ := gram_head hv
      have hlenv : rv.length < f := by
        simp only [List.length_append, List.length_cons] at hfu
        omega
      constructor
      · have hshape : (('"' : Char) :: rb ++ ['"'] ++ wb ++ ':' :: wc ++ rv ++ wd) ++
              '}' :: rest =
            '"' :: (rb ++ '"' :: (wb ++ ':' :: (wc ++ (rv ++ (wd ++ '}' :: rest))))) := by
          simp
        rw [hshape]
        conv_lhs => unfold parseMembers
        rw [if_pos rfl, parseStr_body hk _]
        cases hdk : dk with
        | true => rfl
        | false =>
          show sepCase ':' _
              ((wb ++ ':' :: (wc ++ (rv ++ (wd ++ '}' :: rest)))).dropWhile isJsonWs) = _
          rw [dropWhile_ws_app hwb (by decide) _]
          rw [sepCase_cons, if_pos rfl]
          show optCase _
              (parseVal f ((wc ++ (rv ++ (wd ++ '}' :: rest))).dropWhile isJsonWs)) = _
          have hdw : (wc ++ (rv ++ (wd ++ '}' :: rest))).dropWhile isJsonWs =
              rv ++ (wd ++ '}' :: rest) := by
            rw [hrvc, List.cons_append]
            exact dropWhile_ws_app hwc (wsChar_false_to_jsonWs hv1) _
          rw [hdw]
          have hres : restOk (wd ++ '}' :: rest) :=
            restOk_wsClose hwd (Or.inr (Or.inr rfl)) rest
          rw [(ih.1 rfl) _ f hres hlenv]
          cases hdd : (dnn || dtt) with
          | true =>
            rcases Bool.or_eq_true_iff.mp hdd with h | h <;> rw [h] <;> simp [optCase]
          | false =>
            simp only [Bool.or_eq_false_iff] at hdd
            obtain ⟨hdn, hdt⟩ := hdd
            subst hdn
            subst hdt
            show endCase '}'
                (fun r4 => some (.jobj (acc ++ [(kdec, v2)]), r4))
                (fun r4 => parseMembers f (r4.dropWhile isJsonWs) (acc ++ [(kdec, v2)]))
                ((wd ++ '}' :: rest).dropWhile isJsonWs) = _
            rw [dropWhile_ws_app hwd (by decide) rest]
            rw [endCase_cons, if_neg (by decide : ¬ ('}' : Char) = ','), if_pos rfl]
            simp [jobjApp]
      · have hshape : (('"' : Char) :: rb ++ ['"'] ++ wb ++ ':' :: wc ++ rv ++ wd) ++
              ',' :: (wt2 ++ '}' :: rest) =
            '"' :: (rb ++ '"' :: (wb ++ ':' ::
              (wc ++ (rv ++ (wd ++ ',' :: (wt2 ++ '}' :: rest)))))) := by
          simp
        rw [hshape]
        conv_lhs => unfold parseMembers
        rw [if_pos rfl, parseStr_body hk _]
        cases hdk : dk with
        | true => rfl
        | false =>
          show sepCase ':' _
              ((wb ++ ':' ::
                (wc ++ (rv ++ (wd ++ ',' :: (wt2 ++ '}' :: rest))))).dropWhile isJsonWs) = _
          rw [dropWhile_ws_app hwb (by decide) _]
          rw [sepCase_cons, if_pos rfl]
          show optCase _ (parseVal f
              ((wc ++ (rv ++ (wd ++ ',' :: (wt2 ++ '}' :: rest)))).dropWhile isJsonWs)) = _
          have hdw : (wc ++ (rv ++ (wd ++ ',' :: (wt2 ++ '}' :: rest)))).dropWhile isJsonWs =
              rv ++ (wd ++ ',' :: (wt2 ++ '}' :: rest)) := by
            rw [hrvc, List.cons_append]
            exact dropWhile_ws_app hwc (wsChar_false_to_jsonWs hv1) _
          rw [hdw]
          have hres : restOk (wd ++ ',' :: (wt2 ++ '}' :: rest)) :=
            restOk_wsClose hwd (Or.inl rfl) _
          rw [(ih.1 rfl) _ f hres hlenv]
          cases hdd : (dnn || dtt) with
          | true => rfl
          | false =>
            show endCase '}'
                (fun r4 => some (.jobj (acc ++ [(kdec, v2)]), r4))
                (fun r4 => parseMembers f (r4.dropWhile isJsonWs) (acc ++ [(kdec, v2)]))
                ((wd ++ ',' :: (wt2 ++ '}' :: rest)).dropWhile isJsonWs) = _
            rw [dropWhile_ws_app hwd (by decide) _]
            rw [endCase_cons, if_pos rfl, dropWhile_ws_app hwt2 (by decide) rest]
            exact parseMembers_rbrace f rest (acc ++ [(kdec, v2)])
  | oCons wb wc wd wa hwb hwc hwd hwa hk hk1 hk2 hv hi ihv ihi =>
    rename_i rb cb kdec rv kv ri ki v2 fs dk dn1 dt1 dn2 dt2
    refine And.intro (fun hx => nomatch hx) (And.intro (fun hx => nomatch hx) (fun _ => ?_))
    intro rest wt2 fuel acc hrest hwt2 hfu
    cases fuel with
    | zero => exact absurd hfu (Nat.not_lt_zero _)
    | succ f =>
      obtain ⟨c, rv', hrvc, hv1, hv2x, hv3, hv4⟩ := gram_head hv
      obtain ⟨ci, ri', hric, hi1, hi2, hi3, hi4⟩ := gram_head hi
      have hlenv : rv.length < f := by
        simp only [List.length_append, List.length_cons] at hfu
        omega
      constructor
      · have hshape : ('"' : Char) :: rb ++ ['"'] ++ wb ++ ':' :: wc ++ rv ++ wd ++
              ',' :: wa ++ ri ++ '}' :: rest =
            '"' :: (rb ++ '"' :: (wb ++ ':' ::
              (wc ++ (rv ++ (wd ++ ',' :: (wa ++ (ri ++ '}' :: rest))))))) := by
          simp
        rw [hshape]
        conv_lhs => unfold parseMembers
        rw [if_pos rfl, parseStr_body hk _]
        cases hdk : dk with
        | true =>
          rw [show ((true || dn1) || dn2) = true from rfl]
          rfl
        | false =>
          show sepCase ':' _
              ((wb ++ ':' ::
                (wc ++ (rv ++ (wd ++ ',' :: (wa ++ (ri ++ '}' :: rest)))))).dropWhile isJsonWs)
              = _
          rw [dropWhile_ws_app hwb (by decide) _]
          rw [sepCase_cons, if_pos rfl]
          show optCase _ (parseVal f
              ((wc ++ (rv ++ (wd ++ ',' :: (wa ++ (ri ++ '}' :: rest))))).dropWhile isJsonWs))
              = _
          have hdw : (wc ++ (rv ++ (wd ++ ',' :: (wa ++ (ri ++ '}' :: rest))))).dropWhile
              isJsonWs = rv ++ (wd ++ ',' :: (wa ++ (ri ++ '}' :: rest))) := by
            rw [hrvc, List.cons_append]
            exact dropWhile_ws_app hwc (wsChar_false_to_jsonWs hv1) _
          rw [hdw]
          have hres : restOk (wd ++ ',' :: (wa ++ (ri ++ '}' :: rest))) :=
            restOk_wsClose hwd (Or.inl rfl) _
          rw [(ihv.1 rfl) _ f hres hlenv]
          cases hdd : (dn1 || dt1) with
          | true =>
            rcases Bool.or_eq_true_iff.mp hdd with h | h <;> rw [h] <;> simp [optCase]
          | false =>
            simp only [Bool.or_eq_false_iff] at hdd
            obtain ⟨hdn1, hdt1⟩ := hdd
            subst hdn1
            subst hdt1
            show endCase '}'
                (fun r4 => some (.jobj (acc ++ [(kdec, v2)]), r4))
                (fun r4 => parseMembers f (r4.dropWhile isJsonWs) (acc ++ [(kdec, v2)]))
                ((wd ++ ',' :: (wa ++ (ri ++ '}' :: rest))).dropWhile isJsonWs) = _
            rw [dropWhile_ws_app hwd (by decide) _]
            rw [endCase_cons, if_pos rfl]
            have hdw2 : (wa ++ (ri ++ '}' :: rest)).dropWhile isJsonWs =
                ri ++ '}' :: rest := by
              rw [hric, List.cons_append]
              exact dropWhile_ws_app hwa (wsChar_false_to_jsonWs hi1) _
            rw [hdw2]
            have hlen2 : ri.length + ([] : Str).length + 1 < f := by
              simp only [List.length_append, List.length_cons, List.length_nil] at hfu ⊢
              omega
            rw [((ihi.2.2) rfl rest [] f (acc ++ [(kdec, v2)]) hrest (by rfl) hlen2).1]
            cases hd2 : (dn2 || dt2) with
            | true =>
              rcases Bool.or_eq_true_iff.mp hd2 with h | h <;> rw [h] <;> simp
            | false =>
              simp only [Bool.or_eq_false_iff] at hd2
              obtain ⟨h1, h2⟩ := hd2
              subst h1
              subst h2
              simp [jobjApp]
      · have hshape : ('"' : Char) :: rb ++ ['"'] ++ wb ++ ':' :: wc ++ rv ++ wd ++
              ',' :: wa ++ ri ++ ',' :: (wt2 ++ '}' :: rest) =
            '"' :: (rb ++ '"' :: (wb ++ ':' ::
              (wc ++ (rv ++ (wd ++ ',' ::
                (wa ++ (ri ++ ',' :: (wt2 ++ '}' :: rest)))))))) := by
          simp
        rw [hshape]
        conv_lhs => unfold parseMembers
        rw [if_pos rfl, parseStr_body hk _]
        cases hdk : dk with
        | true => rfl
        | false =>
          show sepCase ':' _
              ((wb ++ ':' ::
                (wc ++ (rv ++ (wd ++ ',' ::
                  (wa ++ (ri ++ ',' :: (wt2 ++ '}' :: rest))))))).dropWhile isJsonWs) = _
          rw [dropWhile_ws_app hwb (by decide) _]
          rw [sepCase_cons, if_pos rfl]
          show optCase _ (parseVal f
              ((wc ++ (rv ++ (wd ++ ',' ::
                (wa ++ (ri ++ ',' :: (wt2 ++ '}' :: rest)))))).dropWhile isJsonWs)) = _
          have hdw : (wc ++ (rv ++ (wd ++ ',' ::
              (wa ++ (ri ++ ',' :: (wt2 ++ '}' :: rest)))))).dropWhile isJsonWs =
              rv ++ (wd ++ ',' :: (wa ++ (ri ++ ',' :: (wt2 ++ '}' :: rest)))) := by
            rw [hrvc, List.cons_append]
            exact dropWhile_ws_app hwc (wsChar_false_to_jsonWs hv1) _
          rw [hdw]
          have hres : restOk (wd ++ ',' :: (wa ++ (ri ++ ',' :: (wt2 ++ '}' :: rest)))) :=
            restOk_wsClose hwd (Or.inl rfl) _
          rw [(ihv.1 rfl) _ f hres hlenv]
          cases hdd : (dn1 || dt1) with
          | true => rfl
          | false =>
            show endCase '}'
                (fun r4 => some (.jobj (acc ++ [(kdec, v2)]), r4))
                (fun r4 => parseMembers f (r4.dropWhile isJsonWs) (acc ++ [(kdec, v2)]))
                ((wd ++ ',' ::
                  (wa ++ (ri ++ ',' :: (wt2 ++ '}' :: rest)))).dropWhile isJsonWs) = _
            rw [dropWhile_ws_app hwd (by decide) _]
            rw [endCase_cons, if_pos rfl]
            have hdw2 : (wa ++ (ri ++ ',' :: (wt2 ++ '}' :: rest))).dropWhile isJsonWs =
                ri ++ ',' :: (wt2 ++ '}' :: rest) := by
              rw [hric, List.cons_append]
              exact dropWhile_ws_app hwa (wsChar_false_to_jsonWs hi1) _
            rw [hdw2]
            have hlen2 : ri.length + wt2.length + 1 < f := by
              simp only [List.length_append, List.length_cons] at hfu ⊢
              omega
            exact ((ihi.2.2) rfl rest wt2 f (acc ++ [(kdec, v2)]) hrest hwt2 hlen2).2

theorem all_imp {p q : Char → Bool} (h : ∀ c, p c = true → q c = true) {s : Str}
    (hs : s.all p = true) : s.all q = true := by
  simp only [List.all_eq_true] at hs ⊢
  exact fun c hc => h c (hs c hc)

theorem wsOnly_all_wsChar {w : Str} (hw : wsOnly w) : w.all isWsChar = true := by
  simp only [wsOnly, List.all_eq_true] at hw ⊢
  exact fun c hc => wsJson_to_wsChar (hw c hc)

theorem wsChar_cases {c : Char} (h : isJsonWs c = true) :
    c = ' ' ∨ c = '\t' ∨ c = '\n' ∨ c = '\r' := by
  simp only [isJsonWs, Bool.or_eq_true, decide_eq_true_eq] at h
  rcases h with ((h | h) | h) | h <;> simp [h]

theorem wsOnly_no_comma {w : Str} (hw : wsOnly w) :
    w.all (fun c => !(c = ',')) = true := by
  refine all_imp ?_ hw
  intro c hc
  rcases wsChar_cases hc with h | h | h | h <;> subst h <;> decide

/-- Characters a JSON number literal can contain. -/
def numCharOk (c : Char) : Bool :=
  isDigit c || c = '-' || c = '+' || c = '.' || c = 'e' || c = 'E'

theorem digits1_chars {s : Str} (h : digits1 s = true) : s.all numCharOk = true := by
  refine all_imp (fun c hc => ?_) (digits1_parts h).2
  simp [numCharOk, hc]

theorem numLit_chars {lit : Str} (h : numLit lit) : lit.all numCharOk = true := by
  obtain ⟨sgn, ip, fp, ep, hl, hsgn, hip, hfp, hep⟩ := h
  subst hl
  simp only [List.all_append, Bool.and_eq_true]
  refine ⟨⟨⟨?_, ?_⟩, ?_⟩, ?_⟩
  · rcases hsgn with h | h <;> subst h <;> decide
  · cases ip with
    | nil => cases hip
    | cons c ri =>
      simp only [List.all_cons, Bool.and_eq_true]
      constructor
      · simp [numCharOk, intOk_head hip]
      · simp only [intOk, Bool.or_eq_true, Bool.and_eq_true, decide_eq_true_eq] at hip
        rcases hip with ⟨_, hri⟩ | ⟨_, hri⟩
        · have : ri = [] := by simpa using hri
          subst this; rfl
        · refine all_imp (fun c hc => ?_) hri
          simp [numCharOk, hc]
  · cases fp with
    | nil => rfl
    | cons c ds =>
      simp only [fracOk, Bool.and_eq_true, decide_eq_true_eq] at hfp
      obtain ⟨hc, hds⟩ := hfp
      subst hc
      simp only [List.all_cons, Bool.and_eq_true]
      exact ⟨by decide, digits1_chars hds⟩
  · cases ep with
    | nil => rfl
    | cons e t =>
      simp only [expOk, Bool.and_eq_true] at hep
      obtain ⟨he1, he2⟩ := hep
      simp only [List.all_cons, Bool.and_eq_true]
      constructor
      · simp only [Bool.or_eq_true, decide_eq_true_eq] at he1
        rcases he1 with h | h <;> subst h <;> decide
      · cases t with
        | nil => cases he2
        | cons c t2 =>
          have he2' : (if (c = '+' || c = '-') = true then digits1 t2
              else digits1 (c :: t2)) = true := he2
          by_cases hc : (c = '+' || c = '-') = true
          · rw [if_pos hc] at he2'
            simp only [List.all_cons, Bool.and_eq_true]
            constructor
            · simp only [Bool.or_eq_true, decide_eq_true_eq] at hc
              rcases hc with h | h <;> subst h <;> decide
            · exact digits1_chars he2'
          · rw [if_neg hc] at he2'
            exact digits1_chars he2'

theorem numCharOk_not_comma {c : Char} (h : numCharOk c = true) : (!(c = ',')) = true := by
  simp only [numCharOk, Bool.or_eq_true, decide_eq_true_eq] at h
  rcases h with ((((hd | h) | h) | h) | h) | h
  · have := (digit_facts hd).2.2.2.1
    simpa using this
  all_goals subst h; decide

theorem numCharOk_not_str {c : Char} (h : numCharOk c = true) :
    (!(c = '\\') && !(c = '"')) = true := by
  simp only [numCharOk, Bool.or_eq_true, decide_eq_true_eq] at h
  rcases h with ((((hd | h) | h) | h) | h) | h
  · simp only [isDigit, Bool.and_eq_true, decide_eq_true_eq] at hd
    obtain ⟨h1, h2⟩ := hd
    have hx : ¬ c = '\\' := by intro hc; subst hc; exact absurd h2 (by decide)
    have hy : ¬ c = '"' := by intro hc; subst hc; exact absurd h1 (by decide)
    simp [hx, hy]
  all_goals subst h; decide

theorem wsOnly_no_str {w : Str} (hw : wsOnly w) :
    w.all (fun c => !(c = '\\') && !(c = '"')) = true := by
  refine all_imp ?_ hw
  intro c hc
  rcases wsChar_cases hc with h | h | h | h <;> subst h <;> decide

/-- Cleaning a variant: the clean rendering derives itself, defect-free. -/
theorem gram_clean {srt : GSort} {r k : Str} {v : JsonV} {dn dt : Bool}
    (hg : Gram srt r k v dn dt) : Gram srt k k v false false := by
  induction hg with
  | vnull => exact .vnull
  | vtrue => exact .vtrue
  | vfalse => exact .vfalse
  | vnum lit h => exact .vnum lit h
  | vstr hs h1 h2 =>
    have hcb := strBody_clean hs
    refine .vstr (cleanStrBody hs) ?_ ?_
    · rw [hcb]; exact h2
    · rw [hcb, escBody_idem]; exact h2
  | varrNil w hw => exact .varrNil w hw
  | varrNilTC w wt hw hwt => exact .varrNil w hw
  | varr wa hwa hi ih => exact .varr wa hwa ih
  | varrTC wa wt hwa hwt hi ih => exact .varr wa hwa ih
  | vobjNil w hw => exact .vobjNil w hw
  | vobjNilTC w wt hw hwt => exact .vobjNil w hw
  | vobj wa hwa hi ih => exact .vobj wa hwa ih
  | vobjTC wa wt hwa hwt hi ih => exact .vobj wa hwa ih
  | aLast wb hwb hv ih => exact .aLast wb hwb ih
  | aCons wb wa hwb hwa hv hi ihv ihi => exact .aCons wb wa hwb hwa ihv ihi
  | oLast wb wc wd hwb hwc hwd hk hk1 hk2 hv ih =>
    have hcb := strBody_clean hk
    refine .oLast wb wc wd hwb hwc hwd (cleanStrBody hk) ?_ ?_ ih
    · rw [hcb]; exact hk2
    · rw [hcb, escBody_idem]; exact hk2
  | oCons wb wc wd wa hwb hwc hwd hwa hk hk1 hk2 hv hi ihv ihi =>
    have hcb := strBody_clean hk
    refine .oCons wb wc wd wa hwb hwc hwd hwa (cleanStrBody hk) ?_ ?_ ihv ihi
    · rw [hcb]; exact hk2
    · rw [hcb, escBody_idem]; exact hk2

theorem ftcGo_copy_char {c : Char} (hc : ¬ c = ',') (rest : Str) :
    ftcGo 0 (c :: rest) = c :: ftcGo 0 rest := by
  conv_lhs => unfold ftcGo
  rw [if_neg hc]

theorem ftcGo_drop : ∀ (s X : Str), ftcGo s.length (s ++ X) = ftcGo 0 X := by
  intro s
  induction s with
  | nil => intro X; rfl
  | cons c cs ih =>
    intro X
    simp only [List.length_cons, List.cons_append]
    conv_lhs => unfold ftcGo
    exact ih X

theorem ftc_comma_noFire {rest : Str}
    (h : ∀ b t, rest.dropWhile isWsChar = b :: t → (b = '}' || b = ']') = false) :
    ftcGo 0 (',' :: rest) = ',' :: ftcGo 0 rest := by
  conv_lhs => unfold ftcGo
  rw [if_pos rfl]
  cases hd : rest.dropWhile isWsChar with
  | nil => rfl
  | cons b t =>
    show (if (b = '}' || b = ']') = true
        then b :: ftcGo ((rest.takeWhile isWsChar).length + 1) rest
        else ',' :: ftcGo 0 rest) = _
    rw [h b t hd]
    simp

theorem ftc_comma_fire {w : Str} (hw : w.all isWsChar = true) {b : Char}
    (hb : b = '}' ∨ b = ']') (rest' : Str) :
    ftcGo 0 (',' :: (w ++ b :: rest')) = b :: ftcGo 0 rest' := by
  have hbw : isWsChar b = false := by rcases hb with h | h <;> subst h <;> decide
  have hd : (w ++ b :: rest').dropWhile isWsChar = b :: rest' := by
    rw [dropWhile_app_of_all _ _ _ hw, List.dropWhile_cons, hbw]
    simp
  have ht : (w ++ b :: rest').takeWhile isWsChar = w := by
    rw [takeWhile_app_of_all _ _ _ hw, List.takeWhile_cons, hbw]
    simp
  conv_lhs => unfold ftcGo
  rw [if_pos rfl, hd]
  show (if (b = '}' || b = ']') = true
      then b :: ftcGo (((w ++ b :: rest').takeWhile isWsChar).length + 1) (w ++ b :: rest')
      else ',' :: ftcGo 0 (w ++ b :: rest')) = _
  rw [if_pos (by rcases hb with h | h <;> subst h <;> decide : (b = '}' || b = ']') = true)]
  rw [ht]
  have hskip : ftcGo (w.length + 1) (w ++ b :: rest') = ftcGo 0 rest' := by
    have h2 := ftcGo_drop (w ++ [b]) rest'
    simpa [List.length_append, List.append_assoc] using h2
  rw [hskip]

theorem ftcGo_copy {s : Str} (h : s.all (fun c => !(c = ',')) = true) :
    ∀ rest, ftcGo 0 (s ++ rest) = s ++ ftcGo 0 rest := by
  induction s with
  | nil => intro rest; rfl
  | cons c cs ih =>
    simp only [List.all_cons, Bool.and_eq_true] at h
    intro rest
    rw [List.cons_append, ftcGo_copy_char (by simpa using h.1), ih h.2]
    rfl

theorem all_of_dropWhile_nil {p : Char → Bool} {s : Str} (h : s.dropWhile p = []) :
    s.all p = true := by
  induction s with
  | nil => rfl
  | cons c cs ih =>
    rw [List.dropWhile_cons] at h
    by_cases hc : p c
    · rw [if_pos hc] at h
      simp [List.all_cons, hc, ih h]
    · rw [if_neg hc] at h
      cases h

theorem dropWhile_app_of_stop {p : Char → Bool} {s : Str} {b : Char} {t : Str}
    (h : s.dropWhile p = b :: t) (X : Str) :
    (s ++ X).dropWhile p = b :: (t ++ X) := by
  induction s with
  | nil => cases h
  | cons c cs ih =>
    by_cases hc : p c
    · rw [List.cons_append, List.dropWhile_cons, if_pos hc]
      rw [List.dropWhile_cons, if_pos hc] at h
      exact ih h
    · rw [List.dropWhile_cons, if_neg hc] at h
      injection h with h1 h2
      subst h1
      subst h2
      rw [List.cons_append, List.dropWhile_cons, if_neg hc]

theorem ftc_string {rb : Str} (hsafe : tcSafe rb = true) :
    ∀ rest, ftcGo 0 (rb ++ '"' :: rest) = rb ++ '"' :: ftcGo 0 rest := by
  induction rb with
  | nil =>
    intro rest
    rw [List.nil_append, ftcGo_copy_char (by decide)]
    rfl
  | cons c cs ih =>
    have hsafe' : (if c = ',' then
        match cs.dropWhile isWsChar with
        | b :: _ => !(b = '}') && !(b = ']')
        | [] => true
      else true) = true ∧ tcSafe cs = true := by
      have h2 : ((if c = ',' then
          match cs.dropWhile isWsChar with
          | b :: _ => !(b = '}') && !(b = ']')
          | [] => true
        else true) && tcSafe cs) = true := hsafe
      simpa [Bool.and_eq_true] using h2
    obtain ⟨h1, h2⟩ := hsafe'
    intro rest
    rw [List.cons_append]
    by_cases hc : c = ','
    · subst hc
      rw [if_pos rfl] at h1
      rw [ftc_comma_noFire ?_, ih h2 rest]
      · rfl
      · intro b t hbt
        cases hcs : cs.dropWhile isWsChar with
        | nil =>
          have hall := all_of_dropWhile_nil hcs
          rw [dropWhile_app_of_all _ _ _ hall, List.dropWhile_cons,
            (by decide : isWsChar '"' = false)] at hbt
          simp at hbt
          obtain ⟨hb, _⟩ := hbt
          subst hb
          decide
        | cons b0 t0 =>
          rw [dropWhile_app_of_stop hcs ('"' :: rest)] at hbt
          injection hbt with hb ht2
          subst hb
          rw [hcs] at h1
          have h1' : (!(b0 = '}') && !(b0 = ']')) = true := h1
          simp only [Bool.and_eq_true, Bool.not_eq_true', decide_eq_false_iff_not] at h1'
          simp [h1'.1, h1'.2]
    · rw [ftcGo_copy_char hc, ih h2 rest]
      rfl

/-- `fixTrailingCommas` commutes with the grammar: it removes exactly
the trailing-comma defects (and nothing else) of a variant rendering. -/
theorem gram_ftc {srt : GSort} {r k : Str} {v : JsonV} {dn dt : Bool}
    (hg : Gram srt r k v dn dt) :
    ∃ r2, Gram srt r2 k v dn false ∧
      ∀ rest, ftcGo 0 (r ++ rest) = r2 ++ ftcGo 0 rest := by
  induction hg with
  | vnull => exact ⟨_, .vnull, ftcGo_copy (by decide)⟩
  | vtrue => exact ⟨_, .vtrue, ftcGo_copy (by decide)⟩
  | vfalse => exact ⟨_, .vfalse, ftcGo_copy (by decide)⟩
  | vnum lit h =>
    exact ⟨lit, .vnum lit h,
      ftcGo_copy (all_imp (fun c hc => numCharOk_not_comma hc) (numLit_chars h))⟩
  | vstr hs h1 h2 =>
    rename_i rb cb dec dnn
    refine ⟨_, .vstr hs h1 h2, ?_⟩
    intro rest
    have hsh : (('"' : Char) :: rb ++ ['"']) ++ rest = '"' :: (rb ++ '"' :: rest) := by simp
    rw [hsh, ftcGo_copy_char (by decide), ftc_string h1 rest]
    simp
  | varrNil w hw =>
    refine ⟨_, .varrNil w hw, ?_⟩
    intro rest
    have hsh : (('[' : Char) :: w ++ [']']) ++ rest = ('[' :: w) ++ (']' :: rest) := by simp
    rw [hsh, ftcGo_copy (by simp [wsOnly_no_comma hw]),
      ftcGo_copy_char (by decide : ¬ (']' : Char) = ',')]
    simp
  | varrNilTC w wt2 hw hwt2 =>
    refine ⟨'[' :: w ++ [']'], .varrNil w hw, ?_⟩
    intro rest
    have hsh : (('[' : Char) :: w ++ ',' :: wt2 ++ [']']) ++ rest =
        ('[' :: w) ++ (',' :: (wt2 ++ ']' :: rest)) := by simp
    rw [hsh, ftcGo_copy (by simp [wsOnly_no_comma hw]),
      ftc_comma_fire (wsOnly_all_wsChar hwt2) (Or.inr rfl) rest]
    simp
  | varr wa hwa hi ih =>
    rename_i ri ki vs dnn dtt
    obtain ⟨ri2, hg2, heq⟩ := ih
    refine ⟨'[' :: wa ++ ri2 ++ [']'], .varr wa hwa hg2, ?_⟩
    intro rest
    have hsh : (('[' : Char) :: wa ++ ri ++ [']']) ++ rest =
        ('[' :: wa) ++ (ri ++ ']' :: rest) := by simp
    rw [hsh, ftcGo_copy (by simp [wsOnly_no_comma hwa]), heq (']' :: rest),
      ftcGo_copy_char (by decide : ¬ (']' : Char) = ',')]
    simp
  | varrTC wa wt2 hwa hwt2 hi ih =>
    rename_i ri ki vs dnn dtt
    obtain ⟨ri2, hg2, heq⟩ := ih
    refine ⟨'[' :: wa ++ ri2 ++ [']'], .varr wa hwa hg2, ?_⟩
    intro rest
    have hsh : (('[' : Char) :: wa ++ ri ++ ',' :: wt2 ++ [']']) ++ rest =
        ('[' :: wa) ++ (ri ++ ',' :: (wt2 ++ ']' :: rest)) := by simp
    rw [hsh, ftcGo_copy (by simp [wsOnly_no_comma hwa]), heq (',' :: (wt2 ++ ']' :: rest)),
      ftc_comma_fire (wsOnly_all_wsChar hwt2) (Or.inr rfl) rest]
    simp
  | vobjNil w hw =>
    refine ⟨_, .vobjNil w hw, ?_⟩
    intro rest
    have hsh : (('{' : Char) :: w ++ ['}']) ++ rest = ('{' :: w) ++ ('}' :: rest) := by simp
    rw [hsh, ftcGo_copy (by simp [wsOnly_no_comma hw]),
      ftcGo_copy_char (by decide : ¬ ('}' : Char) = ',')]
    simp
  | vobjNilTC w wt2 hw hwt2 =>
    refine ⟨'{' :: w ++ ['}'], .vobjNil w hw, ?_⟩
    intro rest
    have hsh : (('{' : Char) :: w ++ ',' :: wt2 ++ ['}']) ++ rest =
        ('{' :: w) ++ (',' :: (wt2 ++ '}' :: rest)) := by simp
    rw [hsh, ftcGo_copy (by simp [wsOnly_no_comma hw]),
      ftc_comma_fire (wsOnly_all_wsChar hwt2) (Or.inl rfl) rest]
    simp
  | vobj wa hwa hi ih =>
    rename_i ri ki fs dnn dtt
    obtain ⟨ri2, hg2, heq⟩ := ih
    refine ⟨'{' :: wa ++ ri2 ++ ['}'], .vobj wa hwa hg2, ?_⟩
    intro rest
    have hsh : (('{' : Char) :: wa ++ ri ++ ['}']) ++ rest =
        ('{' :: wa) ++ (ri ++ '}' :: rest) := by simp
    rw [hsh, ftcGo_copy (by simp [wsOnly_no_comma hwa]), heq ('}' :: rest),
      ftcGo_copy_char (by decide : ¬ ('}' : Char) = ',')]
    simp
  | vobjTC wa wt2 hwa hwt2 hi ih =>
    rename_i ri ki fs dnn dtt
    obtain ⟨ri2, hg2, heq⟩ := ih
    refine ⟨'{' :: wa ++ ri2 ++ ['}'], .vobj wa hwa hg2, ?_⟩
    intro rest
    have hsh : (('{' : Char) :: wa ++ ri ++ ',' :: wt2 ++ ['}']) ++ rest =
        ('{' :: wa) ++ (ri ++ ',' :: (wt2 ++ '}' :: rest)) := by simp
    rw [hsh, ftcGo_copy (by simp [wsOnly_no_comma hwa]), heq (',' :: (wt2 ++ '}' :: rest)),
      ftc_comma_fire (wsOnly_all_wsChar hwt2) (Or.inl rfl) rest]
    simp
  | aLast wb hwb hv ih =>
    rename_i rv kv v2 dnn dtt
    obtain ⟨rv2, hg2, heq⟩ := ih
    refine ⟨rv2 ++ wb, .aLast wb hwb hg2, ?_⟩
    intro rest
    have hsh : (rv ++ wb) ++ rest = rv ++ (wb ++ rest) := by simp
    rw [hsh, heq (wb ++ rest), ftcGo_copy (wsOnly_no_comma hwb)]
    simp
  | aCons wb wa hwb hwa hv hi ihv ihi =>
    rename_i rv kv ri ki v2 vs dn1 dt1 dn2 dt2
    obtain ⟨rv2, hgv2, heqv⟩ := ihv
    obtain ⟨ri2, hgi2, heqi⟩ := ihi
    obtain ⟨c, ri', hric, hw1, hw2, hw3, hw4⟩ := gram_head hi
    refine ⟨rv2 ++ wb ++ ',' :: wa ++ ri2, .aCons wb wa hwb hwa hgv2 hgi2, ?_⟩
    intro rest
    have hsh : (rv ++ wb ++ ',' :: wa ++ ri) ++ rest =
        rv ++ (wb ++ ',' :: (wa ++ (ri ++ rest))) := by simp
    have hdw : (wa ++ (ri ++ rest)).dropWhile isWsChar = c :: (ri' ++ rest) := by
      rw [hric, List.cons_append, dropWhile_app_of_all _ _ _ (wsOnly_all_wsChar hwa),
        List.dropWhile_cons, hw1]
      simp
    rw [hsh, heqv (wb ++ ',' :: (wa ++ (ri ++ rest))), ftcGo_copy (wsOnly_no_comma hwb),
      ftc_comma_noFire ?_, ftcGo_copy (wsOnly_no_comma hwa), heqi rest]
    · simp
    · intro b t hbt
      rw [hdw] at hbt
      injection hbt with hb ht
      subst hb
      simp [hw2, hw3]
  | oLast wb wc wd hwb hwc hwd hk hk1 hk2 hv ih =>
    rename_i rb cb kdec rv kv v2 dk dnn dtt
    obtain ⟨rv2, hg2, heq⟩ := ih
    refine ⟨'"' :: rb ++ ['"'] ++ wb ++ ':' :: wc ++ rv2 ++ wd,
      .oLast wb wc wd hwb hwc hwd hk hk1 hk2 hg2, ?_⟩
    intro rest
    have hsh : (('"' : Char) :: rb ++ ['"'] ++ wb ++ ':' :: wc ++ rv ++ wd) ++ rest =
        '"' :: (rb ++ '"' :: (wb ++ ':' :: (wc ++ (rv ++ (wd ++ rest))))) := by simp
    rw [hsh, ftcGo_copy_char (by decide : ¬ ('"' : Char) = ','), ftc_string hk1 _,
      ftcGo_copy (wsOnly_no_comma hwb), ftcGo_copy_char (by decide : ¬ (':' : Char) = ','),
      ftcGo_copy (wsOnly_no_comma hwc), heq (wd ++ rest), ftcGo_copy (wsOnly_no_comma hwd)]
    simp
  | oCons wb wc wd wa hwb hwc hwd hwa hk hk1 hk2 hv hi ihv ihi =>
    rename_i rb cb kdec rv kv ri ki v2 fs dk dn1 dt1 dn2 dt2
    obtain ⟨rv2, hgv2, heqv⟩ := ihv
    obtain ⟨ri2, hgi2, heqi⟩ := ihi
    obtain ⟨c, ri', hric, hw1, hw2, hw3, hw4⟩ := gram_head hi
    refine ⟨'"' :: rb ++ ['"'] ++ wb ++ ':' :: wc ++ rv2 ++ wd ++ ',' :: wa ++ ri2,
      .oCons wb wc wd wa hwb hwc hwd hwa hk hk1 hk2 hgv2 hgi2, ?_⟩
    intro rest
    have hsh : (('"' : Char) :: rb ++ ['"'] ++ wb ++ ':' :: wc ++ rv ++ wd ++
          ',' :: wa ++ ri) ++ rest =
        '"' :: (rb ++ '"' :: (wb ++ ':' ::
          (wc ++ (rv ++ (wd ++ ',' :: (wa ++ (ri ++ rest))))))) := by simp
    have hdw : (wa ++ (ri ++ rest)).dropWhile isWsChar = c :: (ri' ++ rest) := by
      rw [hric, List.cons_append, dropWhile_app_of_all _ _ _ (wsOnly_all_wsChar hwa),
        List.dropWhile_cons, hw1]
      simp
    rw [hsh, ftcGo_copy_char (by decide : ¬ ('"' : Char) = ','), ftc_string hk1 _,
      ftcGo_copy (wsOnly_no_comma hwb), ftcGo_copy_char (by decide : ¬ (':' : Char) = ','),
      ftcGo_copy (wsOnly_no_comma hwc), heqv (wd ++ ',' :: (wa ++ (ri ++ rest))),
      ftcGo_copy (wsOnly_no_comma hwd), ftc_comma_noFire ?_,
      ftcGo_copy (wsOnly_no_comma hwa), heqi rest]
    · simp
    · intro b t hbt
      rw [hdw] at hbt
      injection hbt with hb ht
      subst hb
      simp [hw2, hw3]

theorem repairGo_esc (inS : Bool) (c : Char) (rest : Str) :
    repairGo true inS (c :: rest) = c :: repairGo false inS rest := rfl

theorem repairGo_quote (inS : Bool) (rest : Str) :
    repairGo false inS ('"' :: rest) = '"' :: repairGo false (!inS) rest := by
  conv_lhs => unfold repairGo
  rw [if_neg (by decide : ¬ ('"' : Char) = '\\'), if_pos rfl]

theorem repairGo_quote_open (rest : Str) :
    repairGo false false ('"' :: rest) = '"' :: repairGo false true rest := by
  rw [repairGo_quote]
  rfl

theorem repairGo_backslash (inS : Bool) (rest : Str) :
    repairGo false inS ('\\' :: rest) = '\\' :: repairGo true inS rest := by
  conv_lhs => unfold repairGo
  rw [if_pos rfl]

theorem repairGo_out_char {c : Char} (h1 : ¬ c = '\\') (h2 : ¬ c = '"') (rest : Str) :
    repairGo false false (c :: rest) = c :: repairGo false false rest := by
  conv_lhs => unfold repairGo
  rw [if_neg h1, if_neg h2]
  simp

theorem repairGo_in_char {c : Char} (h1 : ¬ c = '\\') (h2 : ¬ c = '"')
    (h3 : ¬ c = '\n') (h4 : ¬ c = '\r') (rest : Str) :
    repairGo false true (c :: rest) = c :: repairGo false true rest := by
  conv_lhs => unfold repairGo
  rw [if_neg h1, if_neg h2]
  simp [h3, h4]

theorem repairGo_in_nl (rest : Str) :
    repairGo false true ('\n' :: rest) = '\\' :: 'n' :: repairGo false true rest := by
  conv_lhs => unfold repairGo
  rw [if_neg (by decide : ¬ ('\n' : Char) = '\\'), if_neg (by decide : ¬ ('\n' : Char) = '"')]
  simp

theorem repairGo_in_cr (rest : Str) :
    repairGo false true ('\r' :: rest) = '\\' :: 'r' :: repairGo false true rest := by
  conv_lhs => unfold repairGo
  rw [if_neg (by decide : ¬ ('\r' : Char) = '\\'), if_neg (by decide : ¬ ('\r' : Char) = '"')]
  simp

theorem repairGo_copy {s : Str}
    (h : s.all (fun c => !(c = '\\') && !(c = '"')) = true) :
    ∀ rest, repairGo false false (s ++ rest) = s ++ repairGo false false rest := by
  induction s with
  | nil => intro rest; rfl
  | cons c cs ih =>
    simp only [List.all_cons, Bool.and_eq_true, Bool.not_eq_true',
      decide_eq_false_iff_not] at h
    intro rest
    rw [List.cons_append, repairGo_out_char h.1.1 h.1.2, ih (by
      simp only [List.all_eq_true] at h ⊢
      exact h.2) rest]
    rfl

/-- Inside a string literal, the repair scan rewrites a variant body to
its clean body and exits at the closing quote. -/
theorem repair_string {rb cb dec : Str} {dn : Bool} (hs : StrBody rb cb dec dn) :
    ∀ rest, repairGo false true (rb ++ '"' :: rest) = cb ++ '"' :: repairGo false false rest := by
  induction hs with
  | nil =>
    intro rest
    rw [List.nil_append, repairGo_quote]
    rfl
  | raw c h1 h2 h3 hs ih =>
    intro rest
    have hn : ¬ c = '\n' := by intro hc; subst hc; exact h3 (by decide)
    have hr : ¬ c = '\r' := by intro hc; subst hc; exact h3 (by decide)
    rw [List.cons_append, repairGo_in_char h2 h1 hn hr, ih rest]
    rfl
  | esc e c he hs ih =>
    intro rest
    rw [List.cons_append, repairGo_backslash, List.cons_append, repairGo_esc, ih rest]
    rfl
  | rawLF hs ih =>
    intro rest
    rw [List.cons_append, repairGo_in_nl, ih rest]
    rfl
  | rawCR hs ih =>
    intro rest
    rw [List.cons_append, repairGo_in_cr, ih rest]
    rfl

theorem wsOnly_all_no_str {w : Str} (hw : wsOnly w) :
    w.all (fun c => !(c = '\\') && !(c = '"')) = true := wsOnly_no_str hw

/-- `repairJsonNewlines` commutes with the grammar: it escapes exactly
the raw-newline defects (and nothing else) of a variant rendering. -/
theorem gram_repair {srt : GSort} {r k : Str} {v : JsonV} {dn dt : Bool}
    (hg : Gram srt r k v dn dt) :
    ∃ r3, Gram srt r3 k v false dt ∧
      ∀ rest, repairGo false false (r ++ rest) = r3 ++ repairGo false false rest := by
  induction hg with
  | vnull => exact ⟨_, .vnull, repairGo_copy (by decide)⟩
  | vtrue => exact ⟨_, .vtrue, repairGo_copy (by decide)⟩
  | vfalse => exact ⟨_, .vfalse, repairGo_copy (by decide)⟩
  | vnum lit h =>
    exact ⟨lit, .vnum lit h,
      repairGo_copy (all_imp (fun c hc => numCharOk_not_str hc) (numLit_chars h))⟩
  | vstr hs h1 h2 =>
    rename_i rb cb dec dnn
    have hcb := strBody_clean hs
    refine ⟨'"' :: cb ++ ['"'], .vstr (cleanStrBody hs) ?_ ?_, ?_⟩
    · rw [hcb]; exact h2
    · rw [hcb, escBody_idem]; exact h2
    · intro rest
      have hsh : (('"' : Char) :: rb ++ ['"']) ++ rest = '"' :: (rb ++ '"' :: rest) := by simp
      rw [hsh, repairGo_quote_open, repair_string hs rest]
      simp
  | varrNil w hw =>
    refine ⟨_, .varrNil w hw, ?_⟩
    intro rest
    have hsh : (('[' : Char) :: w ++ [']']) ++ rest = ('[' :: w) ++ (']' :: rest) := by simp
    rw [hsh, repairGo_copy (by simp [wsOnly_no_str hw]),
      repairGo_out_char (by decide) (by decide)]
    simp
  | varrNilTC w wt2 hw hwt2 =>
    refine ⟨_, .varrNilTC w wt2 hw hwt2, ?_⟩
    intro rest
    have hsh : (('[' : Char) :: w ++ ',' :: wt2 ++ [']']) ++ rest =
        ('[' :: w) ++ (',' :: (wt2 ++ (']' :: rest))) := by simp
    rw [hsh, repairGo_copy (by simp [wsOnly_no_str hw]),
      repairGo_out_char (by decide) (by decide),
      repairGo_copy (wsOnly_no_str hwt2),
      repairGo_out_char (by decide) (by decide)]
    simp
  | varr wa hwa hi ih =>
    rename_i ri ki vs dnn dtt
    obtain ⟨ri3, hg3, heq⟩ := ih
    refine ⟨'[' :: wa ++ ri3 ++ [']'], .varr wa hwa hg3, ?_⟩
    intro rest
    have hsh : (('[' : Char) :: wa ++ ri ++ [']']) ++ rest =
        ('[' :: wa) ++ (ri ++ ']' :: rest) := by simp
    rw [hsh, repairGo_copy (by simp [wsOnly_no_str hwa]), heq (']' :: rest),
      repairGo_out_char (by decide) (by decide)]
    simp
  | varrTC wa wt2 hwa hwt2 hi ih =>
    rename_i ri ki vs dnn dtt
    obtain ⟨ri3, hg3, heq⟩ := ih
    refine ⟨'[' :: wa ++ ri3 ++ ',' :: wt2 ++ [']'], .varrTC wa wt2 hwa hwt2 hg3, ?_⟩
    intro rest
    have hsh : (('[' : Char) :: wa ++ ri ++ ',' :: wt2 ++ [']']) ++ rest =
        ('[' :: wa) ++ (ri ++ ',' :: (wt2 ++ (']' :: rest))) := by simp
    rw [hsh, repairGo_copy (by simp [wsOnly_no_str hwa]),
      heq (',' :: (wt2 ++ (']' :: rest))),
      repairGo_out_char (by decide) (by decide),
      repairGo_copy (wsOnly_no_str hwt2),
      repairGo_out_char (by decide) (by decide)]
    simp
  | vobjNil w hw =>
    refine ⟨_, .vobjNil w hw, ?_⟩
    intro rest
    have hsh : (('{' : Char) :: w ++ ['}']) ++ rest = ('{' :: w) ++ ('}' :: rest) := by simp
    rw [hsh, repairGo_copy (by simp [wsOnly_no_str hw]),
      repairGo_out_char (by decide) (by decide)]
    simp
  | vobjNilTC w wt2 hw hwt2 =>
    refine ⟨_, .vobjNilTC w wt2 hw hwt2, ?_⟩
    intro rest
    have hsh : (('{' : Char) :: w ++ ',' :: wt2 ++ ['}']) ++ rest =
        ('{' :: w) ++ (',' :: (wt2 ++ ('}' :: rest))) := by simp
    rw [hsh, repairGo_copy (by simp [wsOnly_no_str hw]),
      repairGo_out_char (by decide) (by decide),
      repairGo_copy (wsOnly_no_str hwt2),
      repairGo_out_char (by decide) (by decide)]
    simp
  | vobj wa hwa hi ih =>
    rename_i ri ki fs dnn dtt
    obtain ⟨ri3, hg3, heq⟩ := ih
    refine ⟨'{' :: wa ++ ri3 ++ ['}'], .vobj wa hwa hg3, ?_⟩
    intro rest
    have hsh : (('{' : Char) :: wa ++ ri ++ ['}']) ++ rest =
        ('{' :: wa) ++ (ri ++ '}' :: rest) := by simp
    rw [hsh, repairGo_copy (by simp [wsOnly_no_str hwa]), heq ('}' :: rest),
      repairGo_out_char (by decide) (by decide)]
    simp
  | vobjTC wa wt2 hwa hwt2 hi ih =>
    rename_i ri ki fs dnn dtt
    obtain ⟨ri3, hg3, heq⟩ := ih
    refine ⟨'{' :: wa ++ ri3 ++ ',' :: wt2 ++ ['}'], .vobjTC wa wt2 hwa hwt2 hg3, ?_⟩
    intro rest
    have hsh : (('{' : Char) :: wa ++ ri ++ ',' :: wt2 ++ ['}']) ++ rest =
        ('{' :: wa) ++ (ri ++ ',' :: (wt2 ++ ('}' :: rest))) := by simp
    rw [hsh, repairGo_copy (by simp [wsOnly_no_str hwa]),
      heq (',' :: (wt2 ++ ('}' :: rest))),
      repairGo_out_char (by decide) (by decide),
      repairGo_copy (wsOnly_no_str hwt2),
      repairGo_out_char (by decide) (by decide)]
    simp
  | aLast wb hwb hv ih =>
    rename_i rv kv v2 dnn dtt
    obtain ⟨rv3, hg3, heq⟩ := ih
    refine ⟨rv3 ++ wb, .aLast wb hwb hg3, ?_⟩
    intro rest
    have hsh : (rv ++ wb) ++ rest = rv ++ (wb ++ rest) := by simp
    rw [hsh, heq (wb ++ rest), repairGo_copy (wsOnly_no_str hwb)]
    simp
  | aCons wb wa hwb hwa hv hi ihv ihi =>
    rename_i rv kv ri ki v2 vs dn1 dt1 dn2 dt2
    obtain ⟨rv3, hgv3, heqv⟩ := ihv
    obtain ⟨ri3, hgi3, heqi⟩ := ihi
    refine ⟨rv3 ++ wb ++ ',' :: wa ++ ri3, .aCons wb wa hwb hwa hgv3 hgi3, ?_⟩
    intro rest
    have hsh : (rv ++ wb ++ ',' :: wa ++ ri) ++ rest =
        rv ++ (wb ++ (',' :: (wa ++ (ri ++ rest)))) := by simp
    rw [hsh, heqv (wb ++ (',' :: (wa ++ (ri ++ rest)))),
      repairGo_copy (wsOnly_no_str hwb),
      repairGo_out_char (by decide) (by decide),
      repairGo_copy (wsOnly_no_str hwa), heqi rest]
    simp
  | oLast wb wc wd hwb hwc hwd hk hk1 hk2 hv ih =>
    rename_i rb cb kdec rv kv v2 dk dnn dtt
    obtain ⟨rv3, hg3, heq⟩ := ih
    have hcb := strBody_clean hk
    refine ⟨'"' :: cb ++ ['"'] ++ wb ++ ':' :: wc ++ rv3 ++ wd,
      .oLast wb wc wd hwb hwc hwd (cleanStrBody hk) ?_ ?_ hg3, ?_⟩
    · rw [hcb]; exact hk2
    · rw [hcb, escBody_idem]; exact hk2
    · intro rest
      have hsh : (('"' : Char) :: rb ++ ['"'] ++ wb ++ ':' :: wc ++ rv ++ wd) ++ rest =
          '"' :: (rb ++ '"' :: (wb ++ (':' :: (wc ++ (rv ++ (wd ++ rest)))))) := by simp
      rw [hsh, repairGo_quote_open, repair_string hk _,
        repairGo_copy (wsOnly_no_str hwb),
        repairGo_out_char (by decide) (by decide),
        repairGo_copy (wsOnly_no_str hwc), heq (wd ++ rest),
        repairGo_copy (wsOnly_no_str hwd)]
      simp
  | oCons wb wc wd wa hwb hwc hwd hwa hk hk1 hk2 hv hi ihv ihi =>
    rename_i rb cb kdec rv kv ri ki v2 fs dk dn1 dt1 dn2 dt2
    obtain ⟨rv3, hgv3, heqv⟩ := ihv
    obtain ⟨ri3, hgi3, heqi⟩ := ihi
    have hcb := strBody_clean hk
    refine ⟨'"' :: cb ++ ['"'] ++ wb ++ ':' :: wc ++ rv3 ++ wd ++ ',' :: wa ++ ri3,
      .oCons wb wc wd wa hwb hwc hwd hwa (cleanStrBody hk) ?_ ?_ hgv3 hgi3, ?_⟩
    · rw [hcb]; exact hk2
    · rw [hcb, escBody_idem]; exact hk2
    · intro rest
      have hsh : (('"' : Char) :: rb ++ ['"'] ++ wb ++ ':' :: wc ++ rv ++ wd ++
            ',' :: wa ++ ri) ++ rest =
          '"' :: (rb ++ '"' :: (wb ++ (':' ::
            (wc ++ (rv ++ (wd ++ (',' :: (wa ++ (ri ++ rest))))))))) := by simp
      rw [hsh, repairGo_quote_open, repair_string hk _,
        repairGo_copy (wsOnly_no_str hwb),
        repairGo_out_char (by decide) (by decide),
        repairGo_copy (wsOnly_no_str hwc),
        heqv (wd ++ (',' :: (wa ++ (ri ++ rest)))),
        repairGo_copy (wsOnly_no_str hwd),
        repairGo_out_char (by decide) (by decide),
        repairGo_copy (wsOnly_no_str hwa), heqi rest]
      simp

theorem gram_jsonParse {r k : Str} {v : JsonV} {dn dt : Bool}
    (hg : Gram .val r k v dn dt) :
    jsonParse r = (if dn || dt then none else some v) := by
  obtain ⟨c, r', hrc, hw1, _, _, _⟩ := gram_head hg
  have hdw : r.dropWhile isJsonWs = r := by
    rw [hrc, List.dropWhile_cons, wsChar_false_to_jsonWs hw1]
    simp
  have hp := (gram_parse hg).1 rfl [] (r.length + 1) trivial (Nat.lt_succ_self _)
  rw [List.append_nil] at hp
  unfold jsonParse
  rw [hdw, hp]
  cases hdd : (dn || dt) with
  | true => rfl
  | false => rfl

theorem gram_obj_shape {r k : Str} {fs : List (Str × JsonV)} {dn dt : Bool}
    (hg : Gram .val r k (.jobj fs) dn dt) :
    (∃ m, r = '{' :: m ++ ['}']) ∧ (∃ m, k = '{' :: m ++ ['}']) := by
  cases hg with
  | vobjNil w hw => exact ⟨⟨w, by simp⟩, ⟨w, by simp⟩⟩
  | vobjNilTC w wt hw hwt => exact ⟨⟨w ++ ',' :: wt, by simp⟩, ⟨w, by simp⟩⟩
  | vobj wa hwa hi =>
    rename_i ri ki
    exact ⟨⟨wa ++ ri, by simp⟩, ⟨wa ++ ki, by simp⟩⟩
  | vobjTC wa wt hwa hwt hi =>
    rename_i ri ki dti
    exact ⟨⟨wa ++ ri ++ ',' :: wt, by simp⟩, ⟨wa ++ ki, by simp⟩⟩

theorem trimStr_obj {m : Str} : trimStr ('{' :: m ++ ['}']) = '{' :: m ++ ['}'] := by
  unfold trimStr
  have h1 : ('{' :: m ++ ['}'] : Str).dropWhile isWsChar = '{' :: m ++ ['}'] := by
    rw [List.cons_append, List.dropWhile_cons, (by decide : isWsChar '{' = false)]
    simp
  have h2 : ('{' :: m ++ ['}'] : Str).reverse = '}' :: (m.reverse ++ ['{']) := by simp
  have h3 : ('}' :: (m.reverse ++ ['{']) : Str).dropWhile isWsChar =
      '}' :: (m.reverse ++ ['{']) := by
    rw [List.dropWhile_cons, (by decide : isWsChar '}' = false)]
    simp
  rw [h1, h2, h3, ← h2, List.reverse_reverse]

theorem extractBraces_obj {m : Str} :
    extractBraces ('{' :: m ++ ['}']) = some ('{' :: m ++ ['}']) := by
  have h1 : ('{' :: m ++ ['}'] : Str).dropWhile (fun c => !(c = '{')) =
      '{' :: m ++ ['}'] := by
    rw [List.cons_append, List.dropWhile_cons]
    simp
  have h2 : ('{' :: m ++ ['}'] : Str).reverse = '}' :: (m.reverse ++ ['{']) := by simp
  have h3 : ('}' :: (m.reverse ++ ['{']) : Str).dropWhile (fun c => !(c = '}')) =
      '}' :: (m.reverse ++ ['{']) := by
    rw [List.dropWhile_cons]
    simp
  show (if ((('{' :: m ++ ['}'] : Str).dropWhile (fun c => !(c = '{'))).reverse.dropWhile
      (fun c => !(c = '}'))).isEmpty = true then none
    else some ((('{' :: m ++ ['}'] : Str).dropWhile
      (fun c => !(c = '{'))).reverse.dropWhile (fun c => !(c = '}'))).reverse) =
    some ('{' :: m ++ ['}'])
  rw [h1, h2, h3]
  simp

theorem jsonStrOf_obj {m : Str} : jsonStrOf ('{' :: m ++ ['}']) = '{' :: m ++ ['}'] := by
  unfold jsonStrOf
  rw [extractBraces_obj]
  show trimStr ('{' :: m ++ ['}']) = _
  exact trimStr_obj

theorem no_bt_startsWith {s : Str} (h : s.all (fun c => !(c = '`')) = true) :
    startsWithStr btTok s = false := by
  cases s with
  | nil => rfl
  | cons c cs =>
    simp only [List.all_cons, Bool.and_eq_true, Bool.not_eq_true',
      decide_eq_false_iff_not] at h
    have hne : ¬ ('`' : Char) = c := fun he => h.1 he.symm
    simp [btTok, startsWithStr, hne]

theorem no_bt_fenceSearch {s : Str} (h : s.all (fun c => !(c = '`')) = true) :
    fenceSearch s = none := by
  induction s with
  | nil => rfl
  | cons c cs ih =>
    have hs := no_bt_startsWith h
    have h2 : cs.all (fun c => !(c = '`')) = true := by
      simp only [List.all_cons, Bool.and_eq_true] at h
      exact h.2
    conv_lhs => unfold fenceSearch
    rw [hs]
    simp only [Bool.false_eq_true, if_false]
    exact ih h2

theorem no_bt_openFence {s : Str} (h : s.all (fun c => !(c = '`')) = true) :
    openFenceDrop s = none := by
  unfold openFenceDrop
  rw [no_bt_startsWith h]
  simp

theorem no_bt_endsWith {s : Str} (h : s.all (fun c => !(c = '`')) = true) :
    endsWithStr btTok s = false := by
  unfold endsWithStr
  rw [show (btTok : Str).reverse = btTok from rfl]
  apply no_bt_startsWith
  simpa [List.all_reverse] using h

theorem stripCodeFences_id {s : Str} (h1 : trimStr s = s)
    (hbt : s.all (fun c => !(c = '`')) = true) : stripCodeFences s = s := by
  unfold stripCodeFences
  rw [h1, no_bt_fenceSearch hbt]
  show (let s1 := fromOpt s (openFenceDrop s);
    if endsWithStr btTok s1 = true then trimEndStr (s1.take (s1.length - 3)) else s1) = s
  rw [no_bt_openFence hbt]
  show (if endsWithStr btTok s = true then trimEndStr (s.take (s.length - 3)) else s) = s
  rw [no_bt_endsWith hbt]
  simp

/-- A raw-character string body derives itself. -/
theorem strBody_raw_all {s : Str}
    (h : s.all (fun c => !(c = '"') && !(c = '\\') && !decide (c.toNat < 32)) = true) :
    StrBody s s s false := by
  induction s with
  | nil => exact .nil
  | cons c cs ih =>
    simp only [List.all_cons, Bool.and_eq_true, Bool.not_eq_true',
      decide_eq_false_iff_not] at h
    obtain ⟨⟨⟨h1, h2⟩, h3⟩, h4⟩ := h
    refine .raw c h1 h2 h3 (ih ?_)
    simp only [List.all_eq_true]
    intro x hx
    have := h4
    simp only [List.all_eq_true] at this
    exact this x hx

theorem parseProofread_of_gram {r k : Str} {flds : List (Str × JsonV)} {dn dt : Bool}
    (hg : Gram .val r k (.jobj flds) dn dt)
    (hbt : r.all (fun c => !(c = '`')) = true) (orig : Str) :
    parseProofreadResponse jsonParse r orig = extractFields (.jobj flds) orig := by
  obtain ⟨⟨m, hm⟩, _⟩ := gram_obj_shape hg
  have hstrip : stripCodeFences r = r := by
    rw [hm] at hbt ⊢
    exact stripCodeFences_id trimStr_obj hbt
  have hjs : jsonStrOf (stripCodeFences r) = r := by
    rw [hstrip, hm]
    exact jsonStrOf_obj
  obtain ⟨r2, hg2, heq2⟩ := gram_ftc hg
  obtain ⟨r3, hg3, heq3⟩ := gram_repair hg
  obtain ⟨r4, hg4, heq4⟩ := gram_repair hg2
  have hftc : fixTrailingCommas r = r2 := by
    unfold fixTrailingCommas
    have h := heq2 []
    rw [List.append_nil, show ftcGo 0 ([] : Str) = [] from rfl, List.append_nil] at h
    exact h
  have hrep : repairJsonNewlines r = r3 := by
    unfold repairJsonNewlines
    have h := heq3 []
    rw [List.append_nil, show repairGo false false ([] : Str) = [] from rfl,
      List.append_nil] at h
    exact h
  have hrep2 : repairJsonNewlines r2 = r4 := by
    unfold repairJsonNewlines
    have h := heq4 []
    rw [List.append_nil, show repairGo false false ([] : Str) = [] from rfl,
      List.append_nil] at h
    exact h
  have hcand : proofreadCandidates r = [r, r2, r3, r4] := by
    unfold proofreadCandidates
    show [jsonStrOf (stripCodeFences r), fixTrailingCommas (jsonStrOf (stripCodeFences r)),
      repairJsonNewlines (jsonStrOf (stripCodeFences r)),
      repairJsonNewlines (fixTrailingCommas (jsonStrOf (stripCodeFences r)))] = _
    rw [hjs, hftc, hrep, hrep2]
  have hp1 := gram_jsonParse hg
  have hp2 := gram_jsonParse hg2
  have hp3 := gram_jsonParse hg3
  have hp4 := gram_jsonParse hg4
  have hfp : firstParse jsonParse (proofreadCandidates r) = some (.jobj flds) := by
    rw [hcand]
    cases dn <;> cases dt <;> simp [firstParse, hp1, hp2, hp3, hp4]
  show (match firstParse jsonParse (proofreadCandidates r) with
    | some v => if jsTruthy v then extractFields v orig
        else parseFailResult r (stripCodeFences r) orig
    | none => parseFailResult r (stripCodeFences r) orig) = _
  rw [hfp]
  rfl

/-- C3 (amended): on brace-delimited JSON objects containing no backtick,
whose only defects are raw newlines inside string literals and at most
one trailing comma before each closing bracket, and whose string
literals contain no comma-whitespace-bracket span (`tcSafe`), the repair
cascade of `parseProofreadResponse` yields the same result on the
defective variant as on the clean document. -/
theorem cascade_equivalence {r k : Str} {flds : List (Str × JsonV)} {dn dt : Bool}
    (hg : Gram .val r k (.jobj flds) dn dt)
    (hbtr : r.all (fun c => !(c = '`')) = true)
    (hbtk : k.all (fun c => !(c = '`')) = true) (orig : Str) :
    parseProofreadResponse jsonParse r orig = parseProofreadResponse jsonParse k orig := by
  rw [parseProofread_of_gram hg hbtr orig,
    parseProofread_of_gram (gram_clean hg) hbtk orig]

/-- Witness for the amended C3 theorem: the trailing-comma variant of
`\x7b"corrected_voice":"ok"\x7d` parses to the same result as the clean
document. -/
theorem cascade_equivalence_witness :
    parseProofreadResponse jsonParse "\x7b\"corrected_voice\":\"ok\",\x7d".data
        "orig".data =
      parseProofreadResponse jsonParse "\x7b\"corrected_voice\":\"ok\"\x7d".data
        "orig".data := by
  have hrb : StrBody "corrected_voice".data "corrected_voice".data
      "corrected_voice".data false := strBody_raw_all (by decide)
  have hrv : StrBody "ok".data "ok".data "ok".data false := strBody_raw_all (by decide)
  have hstr : Gram .val ('"' :: "ok".data ++ ['"']) ('"' :: "ok".data ++ ['"'])
      (.jstr "ok".data) false false := .vstr hrv (by decide) (by decide)
  have hitems : Gram .oitems
      ('"' :: "corrected_voice".data ++ ['"'] ++ [] ++ ':' :: [] ++
        ('"' :: "ok".data ++ ['"']) ++ [])
      ('"' :: "corrected_voice".data ++ ['"'] ++ [] ++ ':' :: [] ++
        ('"' :: "ok".data ++ ['"']) ++ [])
      (.jobj [("corrected_voice".data, .jstr "ok".data)]) false false :=
    .oLast [] [] [] (by rfl) (by rfl) (by rfl) hrb (by decide) (by decide) hstr
  have hg : Gram .val
      ('{' :: [] ++ ('"' :: "corrected_voice".data ++ ['"'] ++ [] ++ ':' :: [] ++
        ('"' :: "ok".data ++ ['"']) ++ []) ++ ',' :: [] ++ ['}'])
      ('{' :: [] ++ ('"' :: "corrected_voice".data ++ ['"'] ++ [] ++ ':' :: [] ++
        ('"' :: "ok".data ++ ['"']) ++ []) ++ ['}'])
      (.jobj [("corrected_voice".data, .jstr "ok".data)]) false true :=
    .vobjTC [] [] (by rfl) (by rfl) hitems
  exact cascade_equivalence hg (by decide) (by decide) "orig".data

/-- C3 counterexample: take the well-formed object
`J = {"corrected_voice":"b, }"}` (its string value contains a comma, a
space and a closing brace) and its variant `J'` differing only by one
trailing comma before the final `}`.  The strict parse of `J'` fails,
and `fixTrailingCommas` — a blind global regex — also deletes the
`", }"` *inside the string value*, so the variant parses to
`corrected_voice = "b}"` instead of `"b, }"`: the two results differ. -/
theorem cascade_not_equivalent :
    parseProofreadResponse jsonParse
        "\x7b\"corrected_voice\":\"b, \x7d\",\x7d".data "oryginal".data ≠
      parseProofreadResponse jsonParse
        "\x7b\"corrected_voice\":\"b, \x7d\"\x7d".data "oryginal".data := by
  decide

/-! ### `proofreadText`: the completion call and its single 429 retry

The completion client, model registry and auth storage are external; the
model starts at model resolution (`resolveOk`) and treats the `complete`
client as an oracle indexed by call number.  (`requireApiKey` may throw
before the first call; that path issues no completion call and
propagates, so it is outside this segment.) -/

/-- A content part of the completion reply (`{type, text}`). -/
structure ContentPart where
  partType : Str
  text : Str

/-- The completion reply (`{stopReason, errorMessage?, content}`). -/
structure CompMsg where
  stopReason : Str
  errorMessage : Option Str
  content : List ContentPart

/-- `String.prototype.includes`. -/
def hasInfixStr (pat : Str) : Str → Bool
  | [] => startsWithStr pat []
  | s@(_ :: rest) => startsWithStr pat s || hasInfixStr pat rest

/-- `message.stopReason === "error" && message.errorMessage?.includes("429")`. -/
def is429 (m : CompMsg) : Bool :=
  (m.stopReason = "error".data) &&
  (match m.errorMessage with
    | some e => hasInfixStr "429".data e
    | none => false)

/-- `message.content.filter(type === "text").map(text).join("")`. -/
def joinTexts (content : List ContentPart) : Str :=
  (content.filter (fun c => c.partType = "text".data)).foldl
    (fun acc c => acc ++ c.text) []

/-- The passthrough result every failure path of `proofreadText` builds:
original text as voice, tag-stripped original as display, unchanged. -/
def passResult (text err : Str) : ProofreadResult :=
  { corrected_text := stripEmotionTags text
    corrected_voice := text
    changes := []
    unchanged := true
    error := some err }

/-- The observable effects of one `proofreadText` invocation. -/
structure ProofreadRun where
  calls : Nat
  delays : List Nat
  result : ProofreadResult

/-- `proofreadText` from model resolution onward: resolution failure
short-circuits with zero completion calls; otherwise one call, a single
2000 ms-delayed retry exactly on a 429-marked error, then the retry's
outcome is accepted as is. -/
def proofreadTextModel (resolveOk : Bool) (modelId : Str)
    (responses : Nat → CompMsg) (jp : Str → Option JsonV) (text : Str) :
    ProofreadRun :=
  if !resolveOk then
    ⟨0, [], passResult text ("Proofread model not found: ".data ++ modelId)⟩
  else
    let m1 := responses 0
    let retry := is429 m1
    let m := if retry then responses 1 else m1
    let calls := if retry then 2 else 1
    let delays := if retry then [2000] else ([] : List Nat)
    if m.stopReason = "error".data then
      ⟨calls, delays,
        passResult text (m.errorMessage.getD "Cloud model returned an error".data)⟩
    else
      let responseText := trimStr (joinTexts m.content)
      if responseText.isEmpty then
        ⟨calls, delays, passResult text "Cloud model returned no text".data⟩
      else
        ⟨calls, delays, parseProofreadResponse jp responseText text⟩

/-- C6: every `proofreadText` invocation issues at most two completion
calls; a second call happens exactly when the model resolved and the
first call returned an error whose message contains `"429"`; the retry
follows a fixed 2000 ms delay; and when the retry also errors the
function returns the passthrough result carrying the retry's error
(never a third call). -/
theorem proofread_retry_once (resolveOk : Bool) (modelId : Str)
    (responses : Nat → CompMsg) (jp : Str → Option JsonV) (text : Str) :
    (proofreadTextModel resolveOk modelId responses jp text).calls ≤ 2 ∧
    ((proofreadTextModel resolveOk modelId responses jp text).calls = 2 ↔
      resolveOk = true ∧ is429 (responses 0) = true) ∧
    ((proofreadTextModel resolveOk modelId responses jp text).calls = 2 →
      (proofreadTextModel resolveOk modelId responses jp text).delays = [2000]) ∧
    (resolveOk = true → is429 (responses 0) = true →
      (responses 1).stopReason = "error".data →
      (proofreadTextModel resolveOk modelId responses jp text).result =
        passResult text
          ((responses 1).errorMessage.getD "Cloud model returned an error".data)) := by
  cases resolveOk with
  | false =>
    refine ⟨by simp [proofreadTextModel], ?_, ?_, ?_⟩
    · constructor
      · intro h
        simp [proofreadTextModel] at h
      · rintro ⟨h, _⟩
        cases h
    · intro h
      simp [proofreadTextModel] at h
    · intro h
      cases h
  | true =>
    cases h429 : is429 (responses 0) with
    | false =>
      have hcalls : (proofreadTextModel true modelId responses jp text).calls = 1 := by
        unfold proofreadTextModel
        simp only [Bool.not_true, Bool.false_eq_true, if_false, h429]
        split <;> try rfl
        split <;> rfl
      refine ⟨by omega, ?_, ?_, ?_⟩
      · constructor
        · intro h
          rw [hcalls] at h
          cases h
        · rintro ⟨_, h⟩
          cases h
      · intro h
        rw [hcalls] at h
        cases h
      · intro _ h
        cases h
    | true =>
      have herr : ((if is429 (responses 0) then responses 1
          else responses 0)) = responses 1 := by rw [h429]; rfl
      refine ⟨?_, ?_, ?_, ?_⟩
      · unfold proofreadTextModel
        simp only [Bool.not_true, Bool.false_eq_true, if_false, h429, if_true]
        split
        · simp
        · split <;> simp
      · constructor
        · intro _
          exact ⟨rfl, rfl⟩
        · intro _
          unfold proofreadTextModel
          simp only [Bool.not_true, Bool.false_eq_true, if_false, h429, if_true]
          split
          · rfl
          · split <;> rfl
      · intro _
        unfold proofreadTextModel
        simp only [Bool.not_true, Bool.false_eq_true, if_false, h429, if_true]
        split
        · rfl
        · split <;> rfl
      · intro _ _ hstop
        unfold proofreadTextModel
        simp only [Bool.not_true, Bool.false_eq_true, if_false, h429, if_true]
        rw [if_pos hstop]

/-- A completion oracle: first call rate-limited, retry a plain error. -/
def resp429 : Nat → CompMsg := fun n =>
  if n = 0 then ⟨"error".data, some "HTTP 429 too many requests".data, []⟩
  else ⟨"error".data, some "overloaded".data, []⟩

/-- Witness for C6: the 429 first reply triggers exactly one retry after
2000 ms, and the failing retry yields the passthrough result with the
retry's error message. -/
theorem proofread_retry_once_witness :
    (proofreadTextModel true "anthropic/claude-sonnet-4-5-20250929".data resp429
      (fun _ => none) "tekst do poprawy".data).calls = 2 ∧
    (proofreadTextModel true "anthropic/claude-sonnet-4-5-20250929".data resp429
      (fun _ => none) "tekst do poprawy".data).delays = [2000] ∧
    (proofreadTextModel true "anthropic/claude-sonnet-4-5-20250929".data resp429
      (fun _ => none) "tekst do poprawy".data).result =
      passResult "tekst do poprawy".data
        ((resp429 1).errorMessage.getD "Cloud model returned an error".data) :=
  have h := proofread_retry_once true "anthropic/claude-sonnet-4-5-20250929".data
    resp429 (fun _ => none) "tekst do poprawy".data
  have hc : (proofreadTextModel true "anthropic/claude-sonnet-4-5-20250929".data resp429
      (fun _ => none) "tekst do poprawy".data).calls = 2 :=
    h.2.1.mpr ⟨rfl, by decide⟩
  ⟨hc, h.2.2.1 hc, h.2.2.2 rfl (by decide) rfl⟩

/-- One step of the delivery-attempt bookkeeping: a successful send or
*any issued edit* (whether or not the remote accepted it) installs its
source text; a delete clears it; everything else keeps it. -/
def attStep (acc : Str) : Call → Str
  | .send src _ (some _) => src
  | .send _ _ none => acc
  | .edit _ src _ _ => src
  | .del _ _ => []
  | .deliver _ => acc

def lastAttempted (acc : Str) (tr : List Call) : Str := tr.foldl attStep acc

/-- The claim's reading: only *successfully delivered* content counts
(send that returned an id, edit the remote accepted). -/
def delStep (acc : Str) : Call → Str
  | .send src _ (some _) => src
  | .edit _ src _ true => src
  | _ => acc

def lastDelivered (acc : Str) (tr : List Call) : Str := tr.foldl delStep acc

/-- A transport whose edits always fail. -/
def envEditFail : Env := { env0 with editOk := fun _ => false }

/-- C5 counterexample: send `"A"` (delivered), buffer `"B"`, flush with
a failing edit.  `lastSentText` is `"B"` although the content last
successfully delivered is still `"A"` — `flushEdit` records
`lastSentText` before the edit and keeps it when the edit fails. -/
theorem lastSent_not_last_delivered :
    (runOps envEditFail initState
      [Op.upd 0 (textPayload "A".data), Op.upd 10 (textPayload "B".data),
        Op.settle 2010]).1.lastSentText ≠
    lastDelivered []
      (runOps envEditFail initState
        [Op.upd 0 (textPayload "A".data), Op.upd 10 (textPayload "B".data),
          Op.settle 2010]).2 := by
  decide

theorem flushEdit_inv (env : Env) (s : TrackerState)
    (h : s.activeMessageId = none → s.lastSentText = []) :
    (flushEdit env s).1.lastSentText =
      lastAttempted s.lastSentText (flushEdit env s).2 ∧
    ((flushEdit env s).1.activeMessageId = none →
      (flushEdit env s).1.lastSentText = []) := by
  obtain ⟨a, p, l, d, st, sc, ec, dc⟩ := s
  cases st
  · cases a with
    | none =>
      refine ⟨by simp [flushEdit, lastAttempted], ?_⟩
      intro _
      simpa [flushEdit] using h rfl
    | some m =>
      cases p with
      | none => exact ⟨by simp [flushEdit, lastAttempted], by simp [flushEdit]⟩
      | some txt =>
        by_cases hd : txt = l
        · exact ⟨by simp [flushEdit, hd, lastAttempted], by simp [flushEdit, hd]⟩
        · exact ⟨by simp [flushEdit, hd, lastAttempted, attStep],
            by simp [flushEdit, hd]⟩
  · exact ⟨by simp [flushEdit, lastAttempted], by simpa [flushEdit] using h⟩

theorem handleToolUpdate_inv (env : Env) (t : Nat) (p : Payload) (s : TrackerState)
    (h : s.activeMessageId = none → s.lastSentText = []) :
    (handleToolUpdate env t p s).1.lastSentText =
      lastAttempted s.lastSentText (handleToolUpdate env t p s).2 ∧
    ((handleToolUpdate env t p s).1.activeMessageId = none →
      (handleToolUpdate env t p s).1.lastSentText = []) := by
  obtain ⟨a, pd, l, d, st, sc, ec, dc⟩ := s
  cases st
  · cases hm : hasMedia p
    · cases he : (trimStr (p.text.getD [])).isEmpty
      · cases a with
        | none =>
          cases hr : env.sendRes sc
          · refine ⟨by simp [handleToolUpdate, hm, he, hr, lastAttempted, attStep], ?_⟩
            intro _
            simpa [handleToolUpdate, hm, he, hr] using h rfl
          · exact ⟨by simp [handleToolUpdate, hm, he, hr, lastAttempted, attStep],
              by simp [handleToolUpdate, hm, he, hr]⟩
        | some m =>
          exact ⟨by simp [handleToolUpdate, hm, he, lastAttempted],
            by simp [handleToolUpdate, hm, he]⟩
      · refine ⟨by simp [handleToolUpdate, hm, he, lastAttempted], ?_⟩
        intro ha
        simp only [handleToolUpdate, hm, he] at ha ⊢
        simp at ha ⊢
        exact h (by simpa using ha)
    · refine ⟨by simp [handleToolUpdate, hm, lastAttempted, attStep], ?_⟩
      intro ha
      simp only [handleToolUpdate, hm] at ha ⊢
      simp at ha ⊢
      exact h (by simpa using ha)
  · exact ⟨by simp [handleToolUpdate, lastAttempted], by simpa [handleToolUpdate] using h⟩

theorem cleanup_inv (env : Env) (s : TrackerState)
    (h : s.activeMessageId = none → s.lastSentText = []) :
    (cleanup env s).1.lastSentText =
      lastAttempted s.lastSentText (cleanup env s).2 ∧
    ((cleanup env s).1.activeMessageId = none →
      (cleanup env s).1.lastSentText = []) := by
  obtain ⟨a, pd, l, d, st, sc, ec, dc⟩ := s
  cases a with
  | none =>
    have hl : l = [] := h rfl
    cases pd <;> simp [cleanup, hl, lastAttempted]
  | some m =>
    cases pd with
    | none => simp [cleanup, lastAttempted, attStep]
    | some txt =>
      by_cases hd : txt = l
      · simp [cleanup, hd, lastAttempted, attStep]
      · simp [cleanup, hd, lastAttempted, attStep]

theorem fireIfDue_inv (env : Env) (t : Nat) (s : TrackerState)
    (h : s.activeMessageId = none → s.lastSentText = []) :
    (fireIfDue env t s).1.lastSentText =
      lastAttempted s.lastSentText (fireIfDue env t s).2 ∧
    ((fireIfDue env t s).1.activeMessageId = none →
      (fireIfDue env t s).1.lastSentText = []) := by
  unfold fireIfDue
  cases hd : s.debounceTimer with
  | none => exact ⟨by simp [lastAttempted], h⟩
  | some dl =>
    by_cases hle : dl ≤ t
    · simpa [hle] using flushEdit_inv env s h
    · exact ⟨by simp [hle, lastAttempted], by simp [hle]; exact h⟩

theorem lastAttempted_append (acc : Str) (xs ys : List Call) :
    lastAttempted acc (xs ++ ys) = lastAttempted (lastAttempted acc xs) ys := by
  unfold lastAttempted
  exact List.foldl_append attStep acc xs ys

theorem applyOp_inv (env : Env) (op : Op) (s : TrackerState)
    (h : s.activeMessageId = none → s.lastSentText = []) :
    (applyOp env op s).1.lastSentText =
      lastAttempted s.lastSentText (applyOp env op s).2 ∧
    ((applyOp env op s).1.activeMessageId = none →
      (applyOp env op s).1.lastSentText = []) := by
  have hf := fireIfDue_inv env (opTime op) s h
  cases op with
  | upd t p =>
    have hh := handleToolUpdate_inv env t p (fireIfDue env (opTime (Op.upd t p)) s).1 hf.2
    unfold applyOp
    dsimp only
    rw [lastAttempted_append, ← hf.1]
    exact hh
  | clean t =>
    have hh := cleanup_inv env (fireIfDue env (opTime (Op.clean t)) s).1 hf.2
    unfold applyOp
    dsimp only
    rw [lastAttempted_append, ← hf.1]
    exact hh
  | stopOp t =>
    unfold applyOp
    dsimp only
    rw [lastAttempted_append, ← hf.1]
    exact ⟨by simp [stopTracker, lastAttempted], by simpa [stopTracker] using hf.2⟩
  | settle t =>
    unfold applyOp
    dsimp only
    exact hf

theorem runOps_inv (env : Env) : ∀ (ops : List Op) (s : TrackerState),
    (s.activeMessageId = none → s.lastSentText = []) →
    (runOps env s ops).1.lastSentText =
      lastAttempted s.lastSentText (runOps env s ops).2 ∧
    ((runOps env s ops).1.activeMessageId = none →
      (runOps env s ops).1.lastSentText = []) := by
  intro ops
  induction ops with
  | nil => intro s h; exact ⟨by simp [runOps, lastAttempted], h⟩
  | cons op ops ih =>
    intro s h
    have ha := applyOp_inv env op s h
    have hr := ih (applyOp env op s).1 ha.2
    rw [runOps]
    dsimp only
    rw [lastAttempted_append, ← ha.1]
    exact hr

/-- C5 (amended): along every run from a fresh tracker, `lastSentText`
equals the source text of the last delivery *attempt*: the last
successful send or the last *issued* edit — an edit counts the moment it
is issued, even if the transport rejects it — reset by cleanup's delete.
It is this value (not the last successfully delivered content) that
suppresses duplicate edits. -/
theorem lastSent_tracks_attempts (env : Env) (ops : List Op) :
    (runOps env initState ops).1.lastSentText =
      lastAttempted [] (runOps env initState ops).2 :=
  (runOps_inv env ops initState (fun _ => rfl)).1

/-- Witness for C9. -/
theorem send_failure_keeps_send_path_witness :
    (handleToolUpdate envFail 0 (textPayload "Krok 1".data) initState).2 =
      [Call.send "Krok 1".data (truncateText "Krok 1".data envFail.textLimit) none] ∧
    (handleToolUpdate envFail 0 (textPayload "Krok 1".data) initState).1.activeMessageId
      = none ∧
    (handleToolUpdate envFail 0 (textPayload "Krok 1".data) initState).1.lastSentText = [] ∧
    (handleToolUpdate envFail 0 (textPayload "Krok 1".data) initState).1.pendingText
      = none ∧
    (handleToolUpdate envFail 0 (textPayload "Krok 1".data) initState).1.debounceTimer
      = none ∧
    (handleToolUpdate envFail 50 (textPayload "Krok 2".data)
        (handleToolUpdate envFail 0 (textPayload "Krok 1".data) initState).1).2 =
      [Call.send "Krok 2".data (truncateText "Krok 2".data envFail.textLimit)
        (envFail.sendRes 1)] :=
  send_failure_keeps_send_path envFail 0 50 "Krok 1".data "Krok 2".data
    (by decide) (by decide) rfl

end Freeclaw
